import Mathlib

/-!
# RMII Ethernet MAC driver (`src/rmii_ethernet.c`): shallow embedding

Machine integers are natural numbers with explicit reduction modulo `2^w`
where the C code can wrap. Memory arenas and rings are total functions from
an index to a cell, written to with `Function.update`. Values read from
hardware registers (DMA addresses, DMA busy flag) are inputs of the modelled
functions. The byte-copy and CRC code is modelled in its `USE_CPU_CRC` form,
the one whose arithmetic is in the source; the `USE_DMA_CRC` form delegates
the same copy and CRC to a DMA channel.
-/

namespace RmiiEthernet

/-! ## Constants of the receive and transmit rings -/

def RX_BUF_SIZE_POW : Nat := 12
def RX_BUF_SIZE : Nat := 1 <<< RX_BUF_SIZE_POW
def RX_BUF_MASK : Nat := RX_BUF_SIZE - 1

def RX_NUM_PTR_POW : Nat := RX_BUF_SIZE_POW - 6
def RX_NUM_PTR : Nat := 1 <<< RX_NUM_PTR_POW
def RX_NUM_MASK : Nat := RX_NUM_PTR - 1

def TX_BUF_SIZE_POW : Nat := 12
def TX_BUF_SIZE : Nat := 1 <<< TX_BUF_SIZE_POW
def TX_BUF_MASK : Nat := TX_BUF_SIZE - 1

def TX_NUM_PTR_POW : Nat := TX_BUF_SIZE_POW - 6
def TX_NUM_PTR : Nat := 1 <<< TX_NUM_PTR_POW
def TX_NUM_MASK : Nat := TX_NUM_PTR - 1

/-- Reduction of a natural number to a `uint32_t` value. -/
def u32 (x : Nat) : Nat := x % 2 ^ 32

/-- Reduction of a natural number to a `uint16_t` value. -/
def u16 (x : Nat) : Nat := x % 2 ^ 16

/-- Reduction of a natural number to a `uint8_t` value. -/
def u8 (x : Nat) : Nat := x % 2 ^ 8

/-- Subtraction of two `uint32_t` values, wrapping modulo `2^32`. -/
def sub32 (a b : Nat) : Nat := (a + 2 ^ 32 - b % 2 ^ 32) % 2 ^ 32

/-! ## Receive side: descriptor ring -/

/-- The C struct `pkt_ptr_t`: two `uint16_t` fields. -/
structure pkt_ptr_t where
  pkt_addr : Nat
  pkt_len : Nat
deriving DecidableEq, Repr

/-- The receive-side globals: the descriptor ring `rx_pkt_ptr`, the producer
cursor `rx_curr_pkt_ptr`, the interrupt's `rx_addr` and the poll loop's
consumer cursor `rx_prev_pkt_ptr`. -/
structure RxState where
  rx_pkt_ptr : Nat → pkt_ptr_t
  rx_curr_pkt_ptr : Nat
  rx_addr : Nat
  rx_prev_pkt_ptr : Nat

/-- The wrapped length calculation of `netif_rmii_ethernet_eof_isr`, from the
saved write address `prev_rx_addr` and the new one `rx_addr`. -/
def rx_packet_byte_count (prev_rx_addr rx_addr : Nat) : Nat :=
  if rx_addr < prev_rx_addr then
    sub32 (u32 (RX_BUF_SIZE + rx_addr)) prev_rx_addr
  else
    sub32 rx_addr prev_rx_addr

/-- The length test of `netif_rmii_ethernet_eof_isr`. -/
def rx_len_ok (n : Nat) : Bool := decide (n > 63) && decide (n < 1519)

/-- The end-of-frame interrupt handler. `wr` is the value the handler reads
for `dma_hw->ch[rx_dma_chan].write_addr - &rx_ring[0]`. -/
def netif_rmii_ethernet_eof_isr (s : RxState) (wr : Nat) : RxState :=
  let prev_rx_addr := s.rx_addr
  let rx_addr := u32 wr
  let n := rx_packet_byte_count prev_rx_addr rx_addr
  if rx_len_ok n then
    { s with
      rx_addr := rx_addr
      rx_pkt_ptr := Function.update s.rx_pkt_ptr s.rx_curr_pkt_ptr
        { pkt_addr := u16 prev_rx_addr, pkt_len := u16 n }
      rx_curr_pkt_ptr := (s.rx_curr_pkt_ptr + 1) &&& RX_NUM_MASK }
  else
    { s with rx_addr := rx_addr }

/-- A run of end-of-frame interrupts, one per element of `wrs`, in order. -/
def eof_isr_run (s : RxState) (wrs : List Nat) : RxState :=
  wrs.foldl netif_rmii_ethernet_eof_isr s

/-- The descriptors of the frame-end events `wrs` that pass the length test,
in the order the events occur, starting from the saved write address
`prev`. -/
def accepted_events : Nat → List Nat → List pkt_ptr_t
  | _, [] => []
  | prev, wr :: wrs =>
    let n := rx_packet_byte_count prev (u32 wr)
    if rx_len_ok n then
      { pkt_addr := u16 prev, pkt_len := u16 n } :: accepted_events (u32 wr) wrs
    else
      accepted_events (u32 wr) wrs

/-- The number of pending descriptors computed at the start of the drain in
`netif_rmii_ethernet_poll` from the snapshot of the producer cursor. -/
def rx_packet_count (safe_rx_curr_pkt_ptr rx_prev_pkt_ptr : Nat) : Nat :=
  if safe_rx_curr_pkt_ptr < rx_prev_pkt_ptr then
    sub32 (u32 (RX_NUM_PTR + safe_rx_curr_pkt_ptr)) rx_prev_pkt_ptr
  else
    sub32 safe_rx_curr_pkt_ptr rx_prev_pkt_ptr

/-- The `while (rx_packet_count > 0)` loop of `netif_rmii_ethernet_poll`.
Each round reads the descriptor at the consumer cursor, bumps the cursor and
hands the descriptor to `process`, which stands for the rest of the loop body
(buffer allocation, copy with CRC check, delivery); that part touches neither
the ring nor the cursors. -/
def poll_drain_loop {W : Type} (process : W → pkt_ptr_t → W)
    (ring : Nat → pkt_ptr_t) : Nat → Nat → W → Nat × W
  | 0, prev, w => (prev, w)
  | count + 1, prev, w =>
    let d := ring prev
    poll_drain_loop process ring count ((prev + 1) &&& RX_NUM_MASK) (process w d)

/-- The drain part of `netif_rmii_ethernet_poll`: one snapshot of the
producer cursor, the pending count, then the loop. -/
def netif_rmii_ethernet_poll_drain {W : Type} (process : W → pkt_ptr_t → W)
    (s : RxState) (w : W) : RxState × W :=
  let safe_rx_curr_pkt_ptr := s.rx_curr_pkt_ptr
  let count := rx_packet_count safe_rx_curr_pkt_ptr s.rx_prev_pkt_ptr
  let r := poll_drain_loop process s.rx_pkt_ptr count s.rx_prev_pkt_ptr w
  ({ s with rx_prev_pkt_ptr := r.1 }, r.2)

/-- The descriptors retired by one drain, in the order they are processed. -/
def drained (s : RxState) : List pkt_ptr_t :=
  (netif_rmii_ethernet_poll_drain (fun (acc : List pkt_ptr_t) d => acc ++ [d]) s []).2

/-- The receive state at start-up: the statics are zero-initialised. -/
def rx_init : RxState :=
  { rx_pkt_ptr := fun _ => { pkt_addr := 0, pkt_len := 0 }
    rx_curr_pkt_ptr := 0
    rx_addr := 0
    rx_prev_pkt_ptr := 0 }

/-- Sixty-four frame-end events of 64 bytes each, starting at offset 0. -/
def full_ring_events : List Nat :=
  (List.range 64).map (fun i => ((i + 1) * 64) % 4096)

/-! ## CRC engine (the `USE_CPU_CRC` build) -/

/-- The check value a good frame leaves in the CRC accumulator. -/
def crc_check_value : Nat := 0xdebb20e3

/-- The 256-entry table `crc32Lookup`. -/
def crc32Lookup : List Nat :=
  [
    0x00000000, 0x77073096, 0xEE0E612C, 0x990951BA, 0x076DC419, 0x706AF48F, 0xE963A535, 0x9E6495A3,
    0x0EDB8832, 0x79DCB8A4, 0xE0D5E91E, 0x97D2D988, 0x09B64C2B, 0x7EB17CBD, 0xE7B82D07, 0x90BF1D91,
    0x1DB71064, 0x6AB020F2, 0xF3B97148, 0x84BE41DE, 0x1ADAD47D, 0x6DDDE4EB, 0xF4D4B551, 0x83D385C7,
    0x136C9856, 0x646BA8C0, 0xFD62F97A, 0x8A65C9EC, 0x14015C4F, 0x63066CD9, 0xFA0F3D63, 0x8D080DF5,
    0x3B6E20C8, 0x4C69105E, 0xD56041E4, 0xA2677172, 0x3C03E4D1, 0x4B04D447, 0xD20D85FD, 0xA50AB56B,
    0x35B5A8FA, 0x42B2986C, 0xDBBBC9D6, 0xACBCF940, 0x32D86CE3, 0x45DF5C75, 0xDCD60DCF, 0xABD13D59,
    0x26D930AC, 0x51DE003A, 0xC8D75180, 0xBFD06116, 0x21B4F4B5, 0x56B3C423, 0xCFBA9599, 0xB8BDA50F,
    0x2802B89E, 0x5F058808, 0xC60CD9B2, 0xB10BE924, 0x2F6F7C87, 0x58684C11, 0xC1611DAB, 0xB6662D3D,
    0x76DC4190, 0x01DB7106, 0x98D220BC, 0xEFD5102A, 0x71B18589, 0x06B6B51F, 0x9FBFE4A5, 0xE8B8D433,
    0x7807C9A2, 0x0F00F934, 0x9609A88E, 0xE10E9818, 0x7F6A0DBB, 0x086D3D2D, 0x91646C97, 0xE6635C01,
    0x6B6B51F4, 0x1C6C6162, 0x856530D8, 0xF262004E, 0x6C0695ED, 0x1B01A57B, 0x8208F4C1, 0xF50FC457,
    0x65B0D9C6, 0x12B7E950, 0x8BBEB8EA, 0xFCB9887C, 0x62DD1DDF, 0x15DA2D49, 0x8CD37CF3, 0xFBD44C65,
    0x4DB26158, 0x3AB551CE, 0xA3BC0074, 0xD4BB30E2, 0x4ADFA541, 0x3DD895D7, 0xA4D1C46D, 0xD3D6F4FB,
    0x4369E96A, 0x346ED9FC, 0xAD678846, 0xDA60B8D0, 0x44042D73, 0x33031DE5, 0xAA0A4C5F, 0xDD0D7CC9,
    0x5005713C, 0x270241AA, 0xBE0B1010, 0xC90C2086, 0x5768B525, 0x206F85B3, 0xB966D409, 0xCE61E49F,
    0x5EDEF90E, 0x29D9C998, 0xB0D09822, 0xC7D7A8B4, 0x59B33D17, 0x2EB40D81, 0xB7BD5C3B, 0xC0BA6CAD,
    0xEDB88320, 0x9ABFB3B6, 0x03B6E20C, 0x74B1D29A, 0xEAD54739, 0x9DD277AF, 0x04DB2615, 0x73DC1683,
    0xE3630B12, 0x94643B84, 0x0D6D6A3E, 0x7A6A5AA8, 0xE40ECF0B, 0x9309FF9D, 0x0A00AE27, 0x7D079EB1,
    0xF00F9344, 0x8708A3D2, 0x1E01F268, 0x6906C2FE, 0xF762575D, 0x806567CB, 0x196C3671, 0x6E6B06E7,
    0xFED41B76, 0x89D32BE0, 0x10DA7A5A, 0x67DD4ACC, 0xF9B9DF6F, 0x8EBEEFF9, 0x17B7BE43, 0x60B08ED5,
    0xD6D6A3E8, 0xA1D1937E, 0x38D8C2C4, 0x4FDFF252, 0xD1BB67F1, 0xA6BC5767, 0x3FB506DD, 0x48B2364B,
    0xD80D2BDA, 0xAF0A1B4C, 0x36034AF6, 0x41047A60, 0xDF60EFC3, 0xA867DF55, 0x316E8EEF, 0x4669BE79,
    0xCB61B38C, 0xBC66831A, 0x256FD2A0, 0x5268E236, 0xCC0C7795, 0xBB0B4703, 0x220216B9, 0x5505262F,
    0xC5BA3BBE, 0xB2BD0B28, 0x2BB45A92, 0x5CB36A04, 0xC2D7FFA7, 0xB5D0CF31, 0x2CD99E8B, 0x5BDEAE1D,
    0x9B64C2B0, 0xEC63F226, 0x756AA39C, 0x026D930A, 0x9C0906A9, 0xEB0E363F, 0x72076785, 0x05005713,
    0x95BF4A82, 0xE2B87A14, 0x7BB12BAE, 0x0CB61B38, 0x92D28E9B, 0xE5D5BE0D, 0x7CDCEFB7, 0x0BDBDF21,
    0x86D3D2D4, 0xF1D4E242, 0x68DDB3F8, 0x1FDA836E, 0x81BE16CD, 0xF6B9265B, 0x6FB077E1, 0x18B74777,
    0x88085AE6, 0xFF0F6A70, 0x66063BCA, 0x11010B5C, 0x8F659EFF, 0xF862AE69, 0x616BFFD3, 0x166CCF45,
    0xA00AE278, 0xD70DD2EE, 0x4E048354, 0x3903B3C2, 0xA7672661, 0xD06016F7, 0x4969474D, 0x3E6E77DB,
    0xAED16A4A, 0xD9D65ADC, 0x40DF0B66, 0x37D83BF0, 0xA9BCAE53, 0xDEBB9EC5, 0x47B2CF7F, 0x30B5FFE9,
    0xBDBDF21C, 0xCABAC28A, 0x53B39330, 0x24B4A3A6, 0xBAD03605, 0xCDD70693, 0x54DE5729, 0x23D967BF,
    0xB3667A2E, 0xC4614AB8, 0x5D681B02, 0x2A6F2B94, 0xB40BBE37, 0xC30C8EA1, 0x5A05DF1B, 0x2D02EF8D
  ]

/-- The table read `crc32Lookup[offset]`. -/
def crc32LookupAt (offset : Nat) : Nat := crc32Lookup.getD offset 0

/-- The per-byte update of the receive path,
`offset = (crc & 0xff) ^ curr_data; crc = (crc >> 8) ^ crc32Lookup[offset]`,
with `offset` a `uint32_t`. -/
def crc_update (crc curr_data : Nat) : Nat :=
  let offset := (crc &&& 0xff) ^^^ curr_data
  (crc >>> 8) ^^^ crc32LookupAt offset

/-- The CRC engine run over a byte sequence from accumulator `crc`. -/
def crc_feed (crc : Nat) (bytes : List Nat) : Nat :=
  bytes.foldl crc_update crc

/-- The complement `~crc` of a `uint` accumulator. -/
def not32 (crc : Nat) : Nat := crc ^^^ 0xffffffff

/-- The four bytes `inverted_crc >> (i * 8)`, `i = 0..3`, each stored in a
`uint8_t` cell: least-significant byte first. -/
def crc_bytes (inverted_crc : Nat) : List Nat :=
  (List.range 4).map (fun i => u8 (inverted_crc >>> (i * 8)))

/-! ## Receive side: fetching a frame from the RX arena -/

/-- The locals of `ethernet_frame_to_pbuf` that its loops update. -/
structure FetchState where
  addr : Nat
  total_copy_len : Nat
  crc : Nat

/-- The loop `for (i = 0; i < buf_copy_len; i++)` of `ethernet_frame_to_pbuf`
(the `USE_CPU_CRC` build): the bytes stored through `wr_ptr`, in order, and
the locals afterwards. -/
def fetch_bytes (data : Nat → Nat) : Nat → FetchState → List Nat × FetchState
  | 0, st => ([], st)
  | n + 1, st =>
    let curr_data := data st.addr
    let addr := (st.addr + 1) &&& RX_BUF_MASK
    let crc := if st.total_copy_len > 0 then crc_update st.crc curr_data else st.crc
    let r := fetch_bytes data n
      { addr := addr, total_copy_len := st.total_copy_len - 1, crc := crc }
    (curr_data :: r.1, r.2)

/-- The loop `for (p = buf; total_copy_len != 0; p = p->next)` over the
receiving chain, given by the capacities `p->len` of its segments: the bytes
written into each visited segment. The result is `none` when the chain ends
(`p == NULL`) with bytes still to copy, where the C code dereferences a null
pointer. -/
def fetch_chain (data : Nat → Nat) : List Nat → FetchState →
    Option (List (List Nat) × FetchState)
  | [], st => if st.total_copy_len = 0 then some ([], st) else none
  | p_len :: next, st =>
    if st.total_copy_len = 0 then some ([], st)
    else
      let buf_copy_len := if st.total_copy_len > p_len then p_len else st.total_copy_len
      let r := fetch_bytes data buf_copy_len st
      match fetch_chain data next r.2 with
      | none => none
      | some (segs, st') => some (r.1 :: segs, st')

/-- The function `ethernet_frame_to_pbuf(data, buf, len, addr)` in the
`USE_CPU_CRC` build: the bytes written into the segments of `buf` and the
returned length (`0` on a CRC mismatch). -/
def ethernet_frame_to_pbuf (data : Nat → Nat) (buf : List Nat) (len addr : Nat) :
    Option (List (List Nat) × Nat) :=
  match fetch_chain data buf { addr := addr, total_copy_len := len, crc := 0xffffffff } with
  | none => none
  | some (segs, st) => some (segs, if st.crc ≠ crc_check_value then 0 else len)

/-! ## Transmit side: formatting a frame into the TX arena -/

/-- Modelled from the spec: lwIP's `struct pbuf` chain is not part of the
repository; an outbound frame is "a possibly-segmented byte sequence", here
the list of the segments' payloads (`q->payload` with `q->len` its length),
in chain order. -/
abbrev pbuf := List (List Nat)

/-- Modelled from the spec: the field `p->tot_len` of lwIP's `struct pbuf`,
the total length of the frame summed over its segments. -/
def pbuf_tot_len (p : pbuf) : Nat := (p.map List.length).sum

/-- The locals of `ethernet_frame_copy_ring_pbuf` that its copy loops
update: the arena, the write address, the byte count and the accumulator. -/
structure CopyState where
  data : Nat → Nat
  addr : Nat
  tot_len : Nat
  crc : Nat

/-- One round of the byte loops of `ethernet_frame_copy_ring_pbuf` (the
payload loop and the padding loop share this body): store the byte, count it,
wrap the address, accumulate the CRC with `offset` a `uint8_t`. -/
def copy_byte (st : CopyState) (buf_dat : Nat) : CopyState :=
  let offset := u8 ((st.crc &&& 0xff) ^^^ buf_dat)
  { data := Function.update st.data st.addr buf_dat
    tot_len := st.tot_len + 1
    addr := (st.addr + 1) &&& TX_BUF_MASK
    crc := (st.crc >>> 8) ^^^ crc32LookupAt offset }

/-- The loop `for (j = 0; j < q->len; j++)` over one segment. -/
def copy_segment (st : CopyState) (q : List Nat) : CopyState :=
  q.foldl copy_byte st

/-- The loop `for (q = p; q != NULL; q = q->next)` over the chain. -/
def copy_chain (st : CopyState) (p : pbuf) : CopyState :=
  p.foldl copy_segment st

/-- The loop `while (tot_len < 60)`, which adds one zero byte per round; it
runs at most 60 rounds, the bound given as `fuel`. -/
def copy_pad : Nat → CopyState → CopyState
  | 0, st => st
  | fuel + 1, st => if st.tot_len < 60 then copy_pad fuel (copy_byte st 0) else st

/-- The loop `for (int i = 0; i < 4; i++)` that stores the complemented CRC. -/
def copy_crc (data : Nat → Nat) (addr inverted_crc : Nat) : (Nat → Nat) × Nat :=
  (List.range 4).foldl
    (fun (r : (Nat → Nat) × Nat) i =>
      (Function.update r.1 r.2 (u8 (inverted_crc >>> (i * 8))), (r.2 + 1) &&& TX_BUF_MASK))
    (data, addr)

/-- The function `ethernet_frame_copy_ring_pbuf(data, p, addr)` in the
`USE_CPU_CRC` build (the processor copies the bytes and runs the table-driven
CRC; in the `USE_DMA_CRC` build a DMA channel with its CRC sniffer does both):
the arena after the call and the returned length. -/
def ethernet_frame_copy_ring_pbuf (data : Nat → Nat) (p : pbuf) (addr : Nat) :
    (Nat → Nat) × Nat :=
  let p_addr := addr
  let addr := (addr + 2) &&& TX_BUF_MASK
  let st := copy_chain { data := data, addr := addr, tot_len := 0, crc := 0xffffffff } p
  let st := copy_pad 60 st
  let inverted_crc := not32 st.crc
  let r := copy_crc st.data st.addr inverted_crc
  let tot_len := st.tot_len + 4
  let pkt_len := u16 (tot_len * 4 - 1)
  let data := Function.update r.1 p_addr (u8 pkt_len)
  let p_addr := (p_addr + 1) &&& TX_BUF_MASK
  let data := Function.update data p_addr (u8 (pkt_len >>> 8))
  let tot_len := tot_len + 2
  (data, tot_len)

/-! ## Transmit side: the send path -/

/-- The transmit-side globals, with the writes to the command-chain DMA's
`al3_read_addr_trig` recorded as the list of command-ring slots it was
pointed at (latest last). -/
structure TxState where
  tx_ring : Nat → Nat
  tx_pkt_ptr : Nat → Nat
  tx_addr : Nat
  tx_curr_pkt_ptr : Nat
  chain_trig : List Nat

/-- The results of the calls of `dma_channel_is_busy(tx_dma_chan)` in
`netif_rmii_ethernet_output`, by call site in program order; the third and
fourth are read only on the paths that reach them. -/
structure BusySamples where
  before_stat : Bool
  after_stat : Bool
  resample : Bool
  last_check : Bool

/-- The space `netif_rmii_ethernet_output` asks for: `p->tot_len + 4 + 2`,
raised to 66. -/
def tx_plen (p : pbuf) : Nat :=
  let plen := pbuf_tot_len p + 4 + 2
  if plen < 66 then 66 else plen

/-- The value `tx_free` that `netif_rmii_ethernet_output` computes from the
DMA read address `read_addr` and the write cursor `curr_wr`. -/
def tx_free (read_addr curr_wr : Nat) : Nat :=
  let curr_rd := read_addr &&& TX_BUF_MASK
  let tx_buf_wrap := (curr_rd ^^^ curr_wr) &&& TX_BUF_MASK
  sub32 TX_BUF_SIZE
    (if tx_buf_wrap ≠ 0 then (sub32 curr_rd curr_wr) &&& TX_BUF_MASK
     else sub32 curr_wr curr_rd)

/-- The wait `while (plen > tx_free)` over the successive samples of the DMA
read address (the first is the one taken before the loop): `true` when a
sample shows enough room, `false` when the samples end with the call still
waiting. -/
def tx_wait_for_space (plen curr_wr : Nat) : List Nat → Bool
  | [] => false
  | read_addr :: rest =>
    if plen > tx_free read_addr curr_wr then tx_wait_for_space plen curr_wr rest else true

/-- The part of `netif_rmii_ethernet_output` after the wait: format the
frame, bump `tx_addr`, store the end-of-commands marker and the command,
start the command chain according to the busy samples, bump the cursor. -/
def tx_enqueue (s : TxState) (p : pbuf) (busy : BusySamples) : TxState :=
  let r := ethernet_frame_copy_ring_pbuf s.tx_ring p s.tx_addr
  let len := r.2
  let tx_addr := (s.tx_addr + len) &&& TX_BUF_MASK
  let tx_next_pkt_ptr := (s.tx_curr_pkt_ptr + 1) &&& TX_NUM_MASK
  let cmds := Function.update s.tx_pkt_ptr tx_next_pkt_ptr 0
  let before_stat := busy.before_stat
  let cmds := Function.update cmds s.tx_curr_pkt_ptr len
  let after_stat := busy.after_stat
  let after_stat := if before_stat && !after_stat then busy.resample else after_stat
  let trig := s.chain_trig
  let trig :=
    if before_stat && !after_stat then
      (if !busy.last_check then trig ++ [s.tx_curr_pkt_ptr] else trig)
    else trig
  let trig :=
    if !before_stat && !after_stat then trig ++ [s.tx_curr_pkt_ptr] else trig
  { tx_ring := r.1
    tx_pkt_ptr := cmds
    tx_addr := tx_addr
    tx_curr_pkt_ptr := tx_next_pkt_ptr
    chain_trig := trig }

/-- The function `netif_rmii_ethernet_output(netif, p)`: `none` while the call
is still waiting for space when the read-address samples end, otherwise the
state it returns with. -/
def netif_rmii_ethernet_output (s : TxState) (p : pbuf) (read_addrs : List Nat)
    (busy : BusySamples) : Option TxState :=
  if tx_wait_for_space (tx_plen p) s.tx_addr read_addrs then
    some (tx_enqueue s p busy)
  else
    none

/-- The loop `for (i = 0; i < TX_NUM_PTR; i++) tx_pkt_ptr[i] = 0` of
`netif_rmii_ethernet_low_init`. -/
def tx_pkt_ptr_init (tx_pkt_ptr : Nat → Nat) : Nat → Nat :=
  (List.range TX_NUM_PTR).foldl (fun cmds i => Function.update cmds i 0) tx_pkt_ptr

/-- The transmit state after `netif_rmii_ethernet_low_init`: the command ring
cleared by the initialisation loop, the cursors at their static initial value
`0`; arena and pre-initialisation ring contents are whatever `ring` and `cmds`
hold. -/
def tx_init (ring cmds : Nat → Nat) : TxState :=
  { tx_ring := ring
    tx_pkt_ptr := tx_pkt_ptr_init cmds
    tx_addr := 0
    tx_curr_pkt_ptr := 0
    chain_trig := [] }

/-! ## Reference notions used to state the transmit-side properties -/

/-- Storing `bytes` one after the other into an arena of 4096 cells from
address `addr` on, wrapping the address after each byte. -/
def ring_store (data : Nat → Nat) (addr : Nat) : List Nat → (Nat → Nat)
  | [] => data
  | b :: bs => ring_store (Function.update data addr b) ((addr + 1) % 4096) bs

/-- Reading `n` bytes from an arena of 4096 cells from address `addr` on,
wrapping the address. -/
def ring_load (data : Nat → Nat) (addr n : Nat) : List Nat :=
  (List.range n).map (fun i => data ((addr + i) % 4096))

/-- Payload followed by the zero bytes that bring it to 60 bytes (none when
it already has 60 or more). -/
def padded (F : List Nat) : List Nat := F ++ List.replicate (60 - F.length) 0

/-- Payload, padding and the complemented CRC of both, least-significant byte
first: the bytes that follow the length header. -/
def frame_with_crc (F : List Nat) : List Nat :=
  padded F ++ crc_bytes (not32 (crc_feed 0xffffffff (padded F)))

/-- The frame as the specification lays it out in the arena: the two-byte
header holding `(total_bytes_including_crc * 4) - 1` least-significant byte
first, then payload, padding and CRC. -/
def formatted_frame (F : List Nat) : List Nat :=
  let header := (frame_with_crc F).length * 4 - 1
  [header % 256, header / 256] ++ frame_with_crc F

/-- The state of the copy loops once payload and padding are written. -/
def after_padding (data : Nat → Nat) (p : pbuf) (addr : Nat) : CopyState :=
  (padded p.flatten).foldl copy_byte
    { data := data, addr := (addr + 2) % 4096, tot_len := 0, crc := 0xffffffff }

/-- A transmit state in which 4000 bytes are queued in the arena: the write
cursor is at 4000 and every cell holds the byte 170. -/
def tx_nearly_full : TxState :=
  { tx_ring := fun _ => 170
    tx_pkt_ptr := fun _ => 0
    tx_addr := 4000
    tx_curr_pkt_ptr := 0
    chain_trig := [] }

/-! ## MDIO state machine -/

/-- The C enum `md_states`. -/
inductive md_states where
  | MD_IDLE | MD_START | MD_PREAMB | MD_SOF | MD_OPCODE
  | MD_PHY_ADDR | MD_REG_ADDR | MD_TURN | MD_DATA
deriving DecidableEq, Repr

/-- The C enum `md_pin_states`. -/
inductive md_pin_states where
  | MD_READ | MD_WRITE
deriving DecidableEq, Repr

/-- The statics of the MDIO state machine, together with the enable bit of
the falling-edge interrupt on the management clock pin, which `md_sm` and the
handler set through `gpio_set_irq_enabled_with_callback`. -/
structure MdState where
  md_clocks : Nat
  md_data : Nat
  md_state : md_states
  md_pin_state : md_pin_states
  md_phy_addr : Nat
  md_reg_addr : Nat
  md_rd_wr : md_pin_states
  md_rd_data : Nat
  md_wr_data : Nat
  md_rd_return : Nat
  md_last_addr : Nat
  md_sm_busy : Nat
  irq_enabled : Bool
deriving DecidableEq, Repr

/-- What one call of the falling-edge handler does to the MDIO pin: the
direction it sets (`MD_READ` for `GPIO_IN`, `MD_WRITE` for `GPIO_OUT`) and
the bit it passes to `gpio_put`, if any. -/
structure MdioPin where
  dir : md_pin_states
  put : Option Nat
deriving DecidableEq, Repr

/-- The function `md_sm()`: the transition table. -/
def md_sm (s : MdState) : MdState :=
  match s.md_state with
  | .MD_IDLE =>
    { s with md_state := .MD_IDLE, md_data := 1, md_clocks := 1, md_pin_state := .MD_WRITE }
  | .MD_START =>
    { s with md_state := .MD_PREAMB, md_data := 0xffffffff, md_clocks := 32,
             md_pin_state := .MD_WRITE, irq_enabled := true }
  | .MD_PREAMB =>
    { s with md_state := .MD_SOF, md_data := 0b01, md_clocks := 2, md_pin_state := .MD_WRITE }
  | .MD_SOF =>
    { s with md_state := .MD_OPCODE,
             md_data := if s.md_rd_wr = .MD_READ then 0b10 else 0b01,
             md_clocks := 2, md_pin_state := .MD_WRITE }
  | .MD_OPCODE =>
    { s with md_state := .MD_PHY_ADDR, md_data := s.md_phy_addr, md_clocks := 5,
             md_pin_state := .MD_WRITE }
  | .MD_PHY_ADDR =>
    { s with md_state := .MD_REG_ADDR, md_data := s.md_reg_addr, md_clocks := 5,
             md_pin_state := .MD_WRITE }
  | .MD_REG_ADDR =>
    { s with md_state := .MD_TURN, md_data := 0b00, md_clocks := 2,
             md_pin_state := s.md_rd_wr }
  | .MD_TURN =>
    { s with md_state := .MD_DATA, md_data := s.md_wr_data, md_clocks := 16,
             md_pin_state := s.md_rd_wr }
  | .MD_DATA =>
    { s with md_state := .MD_IDLE, md_data := 0, md_clocks := 1, md_pin_state := .MD_WRITE }

/-- The block `if (md_clocks == 0) { ... }` of the falling-edge handler: the
actions at the last clock of a state, then `md_sm()`. -/
def md_last_clock (s : MdState) : MdState :=
  let s :=
    if s.md_state = .MD_DATA then
      let s :=
        if s.md_pin_state = .MD_READ then
          { s with md_last_addr := s.md_reg_addr, md_rd_return := s.md_rd_data }
        else if s.md_reg_addr = s.md_last_addr then
          { s with md_reg_addr := 0xffffffff }
        else s
      { s with md_sm_busy := 0 }
    else s
  let s := if s.md_state = .MD_IDLE then { s with irq_enabled := false } else s
  md_sm s

/-- The handler `netif_rmii_ethernet_mdc_falling()`; `pin` is what `gpio_get`
returns for the MDIO pin. -/
def netif_rmii_ethernet_mdc_falling (s : MdState) (pin : Bool) : MdState × MdioPin :=
  let dir := s.md_pin_state
  if s.md_state = .MD_DATA ∧ s.md_pin_state = .MD_READ then
    let bit := if pin then 1 else 0
    let s := { s with md_rd_data := u16 ((s.md_rd_data <<< 1) ||| bit) }
    let s := { s with md_clocks := sub32 s.md_clocks 1 }
    (if s.md_clocks = 0 then md_last_clock s else s, { dir := dir, put := none })
  else
    let bit := if s.md_data &&& (1 <<< (sub32 s.md_clocks 1)) ≠ 0 then 1 else 0
    let s := { s with md_clocks := sub32 s.md_clocks 1 }
    (if s.md_clocks = 0 then md_last_clock s else s, { dir := dir, put := some bit })

/-- One falling edge of the management clock: the handler runs when the
interrupt is enabled, and nothing happens otherwise. -/
def mdc_edge (s : MdState) (pin : Bool) : MdState :=
  if s.irq_enabled then (netif_rmii_ethernet_mdc_falling s pin).1 else s

/-- A run of falling edges, `pins` giving the MDIO pin level at each. -/
def mdc_run (s : MdState) (pins : List Bool) : MdState :=
  pins.foldl mdc_edge s

/-- The loop `while (md_sm_busy == 1) tight_loop_contents();`: clock edges
arrive while it spins. The result is the state and the edges still to come
when the loop exits, or `none` when the edges end with the loop still
spinning. -/
def md_wait : MdState → List Bool → Option (MdState × List Bool)
  | s, [] => if s.md_sm_busy = 1 then none else some (s, [])
  | s, pin :: pins =>
    if s.md_sm_busy = 1 then md_wait (mdc_edge s pin) pins else some (s, pin :: pins)

/-- The block of `md_sm_start` from `md_sm_busy = 1` to the call `md_sm()`:
lock the machine, store the parameters, kick it off. -/
def md_kick (s : MdState) (addr reg val : Nat) (rd_wr : md_pin_states) : MdState :=
  let s := { s with md_sm_busy := 1 }
  let s := { s with md_phy_addr := u32 addr, md_reg_addr := u32 reg,
                    md_wr_data := u32 val, md_rd_wr := rd_wr,
                    md_state := .MD_START, md_last_addr := 0xffffffff }
  md_sm s

/-- The function `md_sm_start(addr, reg, val, rd_wr, blk)`, with the clock
edges that arrive during the call: the returned `int`, the state and the
edges not yet consumed. -/
def md_sm_start (s : MdState) (addr reg val : Nat) (rd_wr : md_pin_states) (blk : Nat)
    (pins : List Bool) : Option (Int × MdState × List Bool) :=
  if s.md_sm_busy = 1 ∧ blk = 0 then some (-1, s, pins)
  else
    match md_wait s pins with
    | none => none
    | some (s, pins) =>
      let s := md_kick s addr reg val rd_wr
      if blk ≠ 0 then
        match md_wait s pins with
        | none => none
        | some (s, pins) => some (0, s, pins)
      else some (0, s, pins)

/-- The function `netif_rmii_ethernet_mdio_read_nb(addr, reg)`: the returned
`uint32_t` (`0xffffffff` for `-1`), the state and the edges not consumed. -/
def netif_rmii_ethernet_mdio_read_nb (s : MdState) (addr reg : Nat) (pins : List Bool) :
    Option (Nat × MdState × List Bool) :=
  let ret_val := if u32 reg = s.md_last_addr then s.md_rd_return else 0xffffffff
  (md_sm_start s addr reg 0 .MD_READ 0 pins).map (fun r => (ret_val, r.2.1, r.2.2))

/-- The function `netif_rmii_ethernet_mdio_read(addr, reg)` (blocking): the
returned `uint16_t`, the state and the edges not consumed. -/
def netif_rmii_ethernet_mdio_read (s : MdState) (addr reg : Nat) (pins : List Bool) :
    Option (Nat × MdState × List Bool) :=
  (md_sm_start s addr reg 0 .MD_READ 1 pins).map (fun r => (u16 r.2.1.md_rd_return, r.2.1, r.2.2))

/-- The MDIO statics at program start: zero-initialised, interrupt not yet
enabled. -/
def md_init : MdState :=
  { md_clocks := 0, md_data := 0, md_state := .MD_IDLE, md_pin_state := .MD_READ,
    md_phy_addr := 0, md_reg_addr := 0, md_rd_wr := .MD_READ, md_rd_data := 0,
    md_wr_data := 0, md_rd_return := 0, md_last_addr := 0, md_sm_busy := 0,
    irq_enabled := false }

/-- Sixteen pin samples assembled most-significant bit first. -/
def md_assemble (pins : List Bool) : Nat :=
  pins.foldl (fun acc b => 2 * acc + (if b then 1 else 0)) 0

/-- The accumulation `md_rd_data = (md_rd_data << 1) | bit` over a run of
samples, `md_rd_data` being a `uint16_t`. -/
def md_shift_in (acc : Nat) (pins : List Bool) : Nat :=
  pins.foldl (fun a b => u16 ((a <<< 1) ||| (if b then 1 else 0))) acc

/-- The state the machine has reached `k` edges after a transaction was
started, as the transition table lays the phases out: 32 preamble edges, 2
start of frame, 2 opcode, 5 PHY address, 5 register address, 2 turnaround,
16 data, then idle. -/
def md_schedule (k : Nat) : md_states :=
  if k < 32 then .MD_PREAMB
  else if k < 34 then .MD_SOF
  else if k < 36 then .MD_OPCODE
  else if k < 41 then .MD_PHY_ADDR
  else if k < 46 then .MD_REG_ADDR
  else if k < 48 then .MD_TURN
  else if k < 64 then .MD_DATA
  else .MD_IDLE

/-- The number of clocks left in the current state `k` edges after a
transaction was started (`k ≤ 64`). -/
def md_remaining (k : Nat) : Nat :=
  if k < 32 then 32 - k
  else if k < 34 then 34 - k
  else if k < 36 then 36 - k
  else if k < 41 then 41 - k
  else if k < 46 then 46 - k
  else if k < 48 then 48 - k
  else if k < 64 then 64 - k
  else 1

/-- The state of the machine `k ≤ 64` edges after a transaction was started,
in closed form: `K` is the state `md_sm_start` leaves and `samples` the pin
levels seen on the data-phase edges so far. -/
def md_at (K : MdState) (k : Nat) (samples : List Bool) : MdState :=
  { K with
    md_state := md_schedule k
    md_clocks := md_remaining k
    md_data :=
      if k < 32 then 0xffffffff
      else if k < 34 then 0b01
      else if k < 36 then (if K.md_rd_wr = .MD_READ then 0b10 else 0b01)
      else if k < 41 then K.md_phy_addr
      else if k < 46 then K.md_reg_addr
      else if k < 48 then 0
      else if k < 64 then K.md_wr_data
      else 0
    md_pin_state := if k < 46 then .MD_WRITE else if k < 64 then K.md_rd_wr else .MD_WRITE
    md_rd_data :=
      if K.md_rd_wr = .MD_READ then md_shift_in K.md_rd_data samples else K.md_rd_data
    md_sm_busy := if k < 64 then 1 else 0
    md_last_addr :=
      if k < 64 then K.md_last_addr
      else if K.md_rd_wr = .MD_READ then K.md_reg_addr else K.md_last_addr
    md_rd_return :=
      if k < 64 then K.md_rd_return
      else if K.md_rd_wr = .MD_READ then md_shift_in K.md_rd_data samples
      else K.md_rd_return }

/-- The form of the state right after `md_sm_start` has started a
transaction. -/
def md_started (K : MdState) : Prop :=
  K.md_state = .MD_PREAMB ∧ K.md_clocks = 32 ∧ K.md_data = 0xffffffff ∧
  K.md_pin_state = .MD_WRITE ∧ K.md_sm_busy = 1 ∧ K.md_last_addr = 0xffffffff ∧
  K.irq_enabled = true

/-- The state the falling-edge handler leaves, without its pin effects. -/
def mdc_next (s : MdState) (pin : Bool) : MdState :=
  let s1 :=
    if s.md_state = .MD_DATA ∧ s.md_pin_state = .MD_READ then
      { s with md_rd_data := u16 ((s.md_rd_data <<< 1) ||| (if pin then 1 else 0)) }
    else s
  let s2 := { s1 with md_clocks := sub32 s1.md_clocks 1 }
  if s2.md_clocks = 0 then md_last_clock s2 else s2


/-! ## Initialisation: PHY discovery -/

/-- Modelled from the spec: lwIP's `err_t` is not part of the repository; of
its values the driver's initialisation returns success (`ERR_OK`) or the
explicit interface error (`ERR_IF`). -/
inductive err_t where
  | ERR_OK | ERR_IF
deriving DecidableEq, Repr

/-- The loop `for (int i = 0; i < 32; i++)` of `netif_rmii_ethernet_low_init`
that looks for the PHY, from address `i` on with `fuel` rounds left;
`mdio_read i` is what `netif_rmii_ethernet_mdio_read(i, 0)` returns. The
result is `phy_address` after the loop. -/
def phy_probe (mdio_read : Nat → Nat) (phy_address : Nat) : Nat → Nat → Nat
  | 0, _ => phy_address
  | fuel + 1, i =>
    if mdio_read i ≠ 0xffff then i
    else phy_probe mdio_read phy_address fuel (i + 1)

/-- The PHY discovery of `netif_rmii_ethernet_low_init`: the probe loop and
the test `if (phy_address == 0xffff) return ERR_IF;` (the configuration
writes that follow end in `return ERR_OK`). The result is the returned code
and `phy_address`. -/
def netif_rmii_ethernet_low_init_phy (mdio_read : Nat → Nat) (phy_address : Nat) :
    err_t × Nat :=
  let phy_address := phy_probe mdio_read phy_address 32 0
  if phy_address = 0xffff then (.ERR_IF, phy_address) else (.ERR_OK, phy_address)

/-! ## Poll loop: link status -/

/-- The calls the poll loop makes to set the stack's link state. -/
inductive netif_call where
  | netif_set_link_up | netif_set_link_down
deriving DecidableEq, Repr

/-- Modelled from the spec: lwIP's `netif_is_link_up` is not part of the
repository; it gives "the network stack's current notion of link state", 1
for up and 0 for down. -/
def netif_is_link_up (link_up : Bool) : Nat := if link_up then 1 else 0

/-- The block `if (deferred_read != -1) { ... }` of `netif_rmii_ethernet_poll`:
the link-state calls made for the value the non-blocking status read
returned. -/
def poll_link_calls (deferred_read : Nat) (link_up : Bool) : List netif_call :=
  if deferred_read ≠ 0xffffffff then
    let link_status := u16 ((deferred_read &&& 0x04) >>> 2)
    if netif_is_link_up link_up ^^^ link_status ≠ 0 then
      if link_status ≠ 0 then [.netif_set_link_up] else [.netif_set_link_down]
    else []
  else []

/-- The MDIO part of `netif_rmii_ethernet_poll`; `diff_time` is the value of
`absolute_time_diff_us(curr_time, next_mdio_time)`. The result is the
link-state calls made, the MDIO state and the clock edges not consumed. -/
def netif_rmii_ethernet_poll_link (diff_time : Int) (s : MdState) (phy_address : Nat)
    (link_up : Bool) (pins : List Bool) : Option (List netif_call × MdState × List Bool) :=
  if diff_time < 0 then
    (netif_rmii_ethernet_mdio_read_nb s phy_address 1 pins).map
      (fun r => (poll_link_calls r.1 link_up, r.2.1, r.2.2))
  else some ([], s, pins)

/-! ## Poll loop: handing received frames to the network stack -/

/-- What the drain loop does towards the network stack and the console, in
call order: `pbuf_alloc(PBUF_RAW, length, PBUF_POOL)` with the chain it
returned (`none` for `NULL`, otherwise the capacities of the segments), the
stack's input entry point called with a buffer holding `p`, `pbuf_free`, and
`printf("*")`. -/
inductive PollEvent where
  | pbuf_alloc (length : Nat) (p : Option (List Nat))
  | input (p : List (List Nat))
  | pbuf_free
  | print_star
deriving DecidableEq, Repr

/-- The number of descriptors handled so far in this drain and the calls
made so far. -/
structure PollWorld where
  n : Nat
  trace : List PollEvent
deriving DecidableEq, Repr

/-- The body of the drain loop of `netif_rmii_ethernet_poll` after the cursor
bump, for descriptor `d`. `pbuf_alloc n` is what the allocator returns for
the `n`-th descriptor of this drain and `input_ok n` tells whether the stack's
input entry point returns `ERR_OK` for it. The result is `none` when
`ethernet_frame_to_pbuf` dereferences a null pointer. -/
def poll_packet (rx_ring : Nat → Nat) (pbuf_alloc : Nat → Option (List Nat))
    (input_ok : Nat → Bool) (w : PollWorld) (d : pkt_ptr_t) : Option PollWorld :=
  let rx_packet_byte_count := d.pkt_len
  let rx_packet_addr := d.pkt_addr
  let p := pbuf_alloc w.n
  let trace := w.trace ++ [.pbuf_alloc rx_packet_byte_count p]
  match ethernet_frame_to_pbuf rx_ring (p.getD []) rx_packet_byte_count rx_packet_addr with
  | none => none
  | some (segs, rx_len) =>
    let trace := trace ++ [.input segs]
    let trace := if input_ok w.n then trace else trace ++ [.pbuf_free]
    let trace := if rx_len = 0 then trace ++ [.print_star, .pbuf_free] else trace
    some { n := w.n + 1, trace := trace }

/-- The drain of `netif_rmii_ethernet_poll` with its loop body: the receive
state afterwards and the calls made, or `none` for the calls when a null
pointer was dereferenced on the way. -/
def netif_rmii_ethernet_poll_rx (rx_ring : Nat → Nat) (pbuf_alloc : Nat → Option (List Nat))
    (input_ok : Nat → Bool) (s : RxState) : RxState × Option PollWorld :=
  netif_rmii_ethernet_poll_drain
    (fun (ow : Option PollWorld) d =>
      ow.bind (fun w => poll_packet rx_ring pbuf_alloc input_ok w d))
    s (some { n := 0, trace := [] })

/-- An RX arena holding one well-formed 64-byte frame at offset 0: the bytes
that formatting the payload `[1, 2, 3]` for transmission at cursor 4094 puts
behind the two header bytes. -/
def rx_ring_good_frame : Nat → Nat :=
  (ethernet_frame_copy_ring_pbuf (fun _ => 0) [[1, 2, 3]] 4094).1

/-! ## CRC engine: the bit-serial reference -/

/-- One bit-serial step of the reflected CRC32 with the Ethernet polynomial:
`c := (c >> 1) xor (0xEDB88320 if c is odd, else 0)`. -/
def crc_bit_step (c : Nat) : Nat :=
  (c >>> 1) ^^^ (if c % 2 = 1 then 0xEDB88320 else 0)

/-- The bit-serial step iterated `n` times. -/
def crc_bit_steps : Nat → Nat → Nat
  | 0, c => c
  | n + 1, c => crc_bit_steps n (crc_bit_step c)

/-! ## MDIO state machine: the frame on the pin -/

/-- Bit `j` of `x`, as 0 or 1. -/
def bit_of (x j : Nat) : Nat := if x.testBit j then 1 else 0

/-- The bit on the MDIO line at edge `k` (`k = 0` the first) of a management
frame as the specification lays it out, most-significant bit first within
each field: 32 ones; 0,1; the opcode 1,0 for a read or 0,1 for a write; bits
4..0 of the PHY address `a`; bits 4..0 of the register `r`; two turnaround
bits (this driver sends 0,0); bits 15..0 of the data `d`. -/
def mdio_frame_bit (rd_wr : md_pin_states) (a r d k : Nat) : Nat :=
  if k < 32 then 1
  else if k < 34 then (if k = 32 then 0 else 1)
  else if k < 36 then
    (if rd_wr = .MD_READ then (if k = 34 then 1 else 0) else (if k = 34 then 0 else 1))
  else if k < 41 then bit_of a (40 - k)
  else if k < 46 then bit_of r (45 - k)
  else if k < 48 then 0
  else bit_of d (63 - k)

/-- The direction of the MDIO pin at edge `k` of a management frame: input
on the 2 turnaround and 16 data edges of a read, output otherwise. -/
def mdio_frame_dir (rd_wr : md_pin_states) (k : Nat) : md_pin_states :=
  if rd_wr = .MD_READ ∧ 46 ≤ k ∧ k < 64 then .MD_READ else .MD_WRITE

/-! ## MDIO state machine: sequences of actions -/

/-- What can happen to the MDIO machine between two looks at it: a falling
edge of the management clock (with the level of the MDIO pin), or a call
`md_sm_start(addr, reg, val, rd_wr, 0)`. The edges on which a blocking call
spins are edges of the first kind. -/
inductive md_action where
  | edge (pin : Bool)
  | start (addr reg val : Nat) (rd_wr : md_pin_states)
deriving DecidableEq, Repr

/-- The state after one action. -/
def md_step (s : MdState) : md_action → MdState
  | .edge pin => mdc_edge s pin
  | .start addr reg val rd_wr =>
    match md_sm_start s addr reg val rd_wr 0 [] with
    | some r => r.2.1
    | none => s

/-- The state after a sequence of actions. -/
def md_script (s : MdState) (acts : List md_action) : MdState :=
  acts.foldl md_step s


/-! ## Receive side: the drain with interrupts arriving -/

/-- The `while (rx_packet_count > 0)` loop of `netif_rmii_ethernet_poll` with
the end-of-frame interrupts that arrive while it runs: `irqs` holds, round by
round, the frame-end events handled since the previous round. The loop reads
the descriptor at the consumer cursor and bumps that cursor; it never reads
`rx_curr_pkt_ptr`. -/
def poll_drain_loop_isr {W : Type} (process : W → pkt_ptr_t → W) :
    Nat → RxState → W → List (List Nat) → RxState × W
  | 0, s, w, _ => (s, w)
  | count + 1, s, w, irqs =>
    let s := eof_isr_run s (irqs.headD [])
    let d := s.rx_pkt_ptr s.rx_prev_pkt_ptr
    let s := { s with rx_prev_pkt_ptr := (s.rx_prev_pkt_ptr + 1) &&& RX_NUM_MASK }
    poll_drain_loop_isr process count s (process w d) irqs.tail

/-- The drain part of `netif_rmii_ethernet_poll` with interrupts arriving
after the snapshot `safe_rx_curr_pkt_ptr` was taken. -/
def netif_rmii_ethernet_poll_drain_isr {W : Type} (process : W → pkt_ptr_t → W)
    (s : RxState) (w : W) (irqs : List (List Nat)) : RxState × W :=
  let safe_rx_curr_pkt_ptr := s.rx_curr_pkt_ptr
  let count := rx_packet_count safe_rx_curr_pkt_ptr s.rx_prev_pkt_ptr
  poll_drain_loop_isr process count s w irqs

/-! ## Transmit side: the busy samples -/

/-- The last value `dma_channel_is_busy(tx_dma_chan)` returned after the
command was stored, on the path the samples select: `after_stat` when the
DMA was idle before the store or busy after it; otherwise the re-sample when
it shows busy, and the check of case 3 when the re-sample shows idle. -/
def tx_last_busy_sample (busy : BusySamples) : Bool :=
  if busy.before_stat && !busy.after_stat then
    (if busy.resample then busy.resample else busy.last_check)
  else busy.after_stat


/-! ## Arithmetic helpers -/

theorem and_rx_num_mask (x : Nat) : x &&& RX_NUM_MASK = x % 64 :=
  Nat.and_pow_two_sub_one_eq_mod x 6

theorem u32_of_lt {x : Nat} (h : x < 2 ^ 32) : u32 x = x :=
  Nat.mod_eq_of_lt h

theorem u16_of_lt {x : Nat} (h : x < 2 ^ 16) : u16 x = x :=
  Nat.mod_eq_of_lt h

theorem rx_packet_byte_count_eq {prev cur : Nat} (hp : prev < 4096) (hc : cur < 4096) :
    rx_packet_byte_count prev cur = (cur + 4096 - prev) % 4096 := by
  unfold rx_packet_byte_count sub32 u32 RX_BUF_SIZE RX_BUF_SIZE_POW
  simp only [Nat.one_shiftLeft]
  split <;> omega

theorem rx_len_ok_iff (n : Nat) : rx_len_ok n = true ↔ 63 < n ∧ n < 1519 := by
  simp [rx_len_ok]

theorem eof_isr_reject (s : RxState) (wr : Nat)
    (h : ¬ rx_len_ok (rx_packet_byte_count s.rx_addr (u32 wr)) = true) :
    netif_rmii_ethernet_eof_isr s wr = { s with rx_addr := u32 wr } := by
  unfold netif_rmii_ethernet_eof_isr
  exact if_neg h

theorem eof_isr_accept (s : RxState) (wr : Nat)
    (h : rx_len_ok (rx_packet_byte_count s.rx_addr (u32 wr)) = true) :
    netif_rmii_ethernet_eof_isr s wr =
      { s with
        rx_addr := u32 wr
        rx_pkt_ptr := Function.update s.rx_pkt_ptr s.rx_curr_pkt_ptr
          { pkt_addr := u16 s.rx_addr,
            pkt_len := u16 (rx_packet_byte_count s.rx_addr (u32 wr)) }
        rx_curr_pkt_ptr := (s.rx_curr_pkt_ptr + 1) % 64 } := by
  unfold netif_rmii_ethernet_eof_isr
  rw [and_rx_num_mask]
  exact if_pos h

/-! ## Receive side: the end-of-frame handler -/

/-- C1: for cursors `prev` (the saved `rx_addr`) and `cur` in `[0, 4096)` the
handler computes `frame_length = (cur - prev) mod 4096`; it moves the producer
cursor (publishes) exactly when `63 < frame_length < 1519`, so lengths 63 and
1519 are rejected and 64 and 1518 accepted; on rejection the descriptor ring
and the producer cursor are unchanged. -/
theorem eof_isr_length_gate (s : RxState) (cur : Nat)
    (hprev : s.rx_addr < 4096) (hcur : cur < 4096) :
    ((rx_packet_byte_count s.rx_addr (u32 cur) : Nat) : Int)
        = ((cur : Int) - (s.rx_addr : Int)) % 4096 ∧
    ((netif_rmii_ethernet_eof_isr s cur).rx_curr_pkt_ptr ≠ s.rx_curr_pkt_ptr ↔
      63 < rx_packet_byte_count s.rx_addr (u32 cur) ∧
        rx_packet_byte_count s.rx_addr (u32 cur) < 1519) ∧
    (¬ (63 < rx_packet_byte_count s.rx_addr (u32 cur) ∧
        rx_packet_byte_count s.rx_addr (u32 cur) < 1519) →
      (netif_rmii_ethernet_eof_isr s cur).rx_pkt_ptr = s.rx_pkt_ptr ∧
      (netif_rmii_ethernet_eof_isr s cur).rx_curr_pkt_ptr = s.rx_curr_pkt_ptr) ∧
    (rx_packet_byte_count s.rx_addr (u32 cur) = 63 ∨
        rx_packet_byte_count s.rx_addr (u32 cur) = 1519 →
      netif_rmii_ethernet_eof_isr s cur = { s with rx_addr := cur }) ∧
    (rx_packet_byte_count s.rx_addr (u32 cur) = 64 ∨
        rx_packet_byte_count s.rx_addr (u32 cur) = 1518 →
      (netif_rmii_ethernet_eof_isr s cur).rx_pkt_ptr s.rx_curr_pkt_ptr
        = { pkt_addr := s.rx_addr, pkt_len := rx_packet_byte_count s.rx_addr (u32 cur) }) := by
  have hu : u32 cur = cur := u32_of_lt (by omega)
  have hn := rx_packet_byte_count_eq hprev hcur
  have hlt : rx_packet_byte_count s.rx_addr cur < 4096 := by rw [hn]; omega
  refine ⟨by rw [hu, hn]; omega, ?_, ?_, ?_, ?_⟩
  · by_cases hok : rx_len_ok (rx_packet_byte_count s.rx_addr (u32 cur)) = true
    · rw [eof_isr_accept s cur hok]
      constructor
      · intro _; exact (rx_len_ok_iff _).1 hok
      · intro _; show (s.rx_curr_pkt_ptr + 1) % 64 ≠ s.rx_curr_pkt_ptr; omega
    · rw [eof_isr_reject s cur hok]
      constructor
      · intro h; exact absurd rfl h
      · intro h; exact absurd ((rx_len_ok_iff _).2 h) hok
  · intro h
    have hok : ¬ rx_len_ok (rx_packet_byte_count s.rx_addr (u32 cur)) = true :=
      fun hk => h ((rx_len_ok_iff _).1 hk)
    rw [eof_isr_reject s cur hok]
    exact ⟨rfl, rfl⟩
  · intro h
    have hok : ¬ rx_len_ok (rx_packet_byte_count s.rx_addr (u32 cur)) = true := by
      rw [rx_len_ok_iff]; omega
    rw [eof_isr_reject s cur hok, hu]
  · intro h
    have hok : rx_len_ok (rx_packet_byte_count s.rx_addr (u32 cur)) = true := by
      rw [rx_len_ok_iff]; omega
    rw [eof_isr_accept s cur hok]
    simp only [Function.update_same]
    rw [hu, u16_of_lt (by omega), u16_of_lt (by omega)]

/-- Witness for C1: previous cursor 4095, new cursor 62, a wrapped length of
63 bytes, is rejected and leaves ring and producer cursor as they were. -/
theorem eof_isr_length_gate_witness :
    (4095 : Nat) < 4096 ∧ (62 : Nat) < 4096 ∧
    rx_packet_byte_count 4095 (u32 62) = 63 ∧
    netif_rmii_ethernet_eof_isr { rx_init with rx_addr := 4095 } 62
      = { rx_init with rx_addr := 62 } :=
  ⟨by decide, by decide, by decide,
   (eof_isr_length_gate { rx_init with rx_addr := 4095 } 62 (by decide) (by decide)).2.2.2.1
     (Or.inl (by decide))⟩

/-- C2: when the handler accepts a frame (cursors in `[0, 4096)`), the slot at
the old producer cursor receives `pkt_addr = prev` (untruncated, below 4096)
and `pkt_len = frame_length` (in 64..1518), the producer cursor advances by
one modulo 64, and every other slot of the descriptor ring keeps its value. -/
theorem eof_isr_accept_descriptor (s : RxState) (cur : Nat)
    (hprev : s.rx_addr < 4096) (hcur : cur < 4096)
    (hacc : rx_len_ok (rx_packet_byte_count s.rx_addr (u32 cur)) = true) :
    (netif_rmii_ethernet_eof_isr s cur).rx_pkt_ptr s.rx_curr_pkt_ptr
      = { pkt_addr := s.rx_addr, pkt_len := (cur + 4096 - s.rx_addr) % 4096 } ∧
    ((netif_rmii_ethernet_eof_isr s cur).rx_pkt_ptr s.rx_curr_pkt_ptr).pkt_addr < 4096 ∧
    64 ≤ ((netif_rmii_ethernet_eof_isr s cur).rx_pkt_ptr s.rx_curr_pkt_ptr).pkt_len ∧
    ((netif_rmii_ethernet_eof_isr s cur).rx_pkt_ptr s.rx_curr_pkt_ptr).pkt_len ≤ 1518 ∧
    (netif_rmii_ethernet_eof_isr s cur).rx_curr_pkt_ptr = (s.rx_curr_pkt_ptr + 1) % RX_NUM_PTR ∧
    (∀ j, j ≠ s.rx_curr_pkt_ptr →
      (netif_rmii_ethernet_eof_isr s cur).rx_pkt_ptr j = s.rx_pkt_ptr j) := by
  have hu : u32 cur = cur := u32_of_lt (by omega)
  have hn := rx_packet_byte_count_eq hprev hcur
  have hr := (rx_len_ok_iff _).1 hacc
  rw [hu] at hr
  have hslot : (netif_rmii_ethernet_eof_isr s cur).rx_pkt_ptr s.rx_curr_pkt_ptr
      = { pkt_addr := s.rx_addr, pkt_len := (cur + 4096 - s.rx_addr) % 4096 } := by
    rw [eof_isr_accept s cur hacc]
    simp only [Function.update_same]
    rw [hu, u16_of_lt (by omega), u16_of_lt (by omega), hn]
  rw [hn] at hr
  refine ⟨hslot, ?_, ?_, ?_, ?_, ?_⟩
  · rw [hslot]; exact hprev
  · rw [hslot]; exact hr.1
  · rw [hslot]; show (cur + 4096 - s.rx_addr) % 4096 ≤ 1518; omega
  · rw [eof_isr_accept s cur hacc]; rfl
  · intro j hj
    rw [eof_isr_accept s cur hacc]
    exact Function.update_noteq hj _ _

/-- Witness for C2: from the start-up state a frame end at offset 64 stores
the descriptor `(0, 64)` in slot 0. -/
theorem eof_isr_accept_descriptor_witness :
    rx_init.rx_addr < 4096 ∧ (64 : Nat) < 4096 ∧
    rx_len_ok (rx_packet_byte_count rx_init.rx_addr (u32 64)) = true ∧
    (netif_rmii_ethernet_eof_isr rx_init 64).rx_pkt_ptr rx_init.rx_curr_pkt_ptr
      = { pkt_addr := rx_init.rx_addr, pkt_len := (64 + 4096 - rx_init.rx_addr) % 4096 } :=
  ⟨by decide, by decide, by decide,
   (eof_isr_accept_descriptor rx_init 64 (by decide) (by decide) (by decide)).1⟩

/-! ## Receive side: producer runs and the drain -/

theorem accepted_events_cons_reject (prev wr : Nat) (wrs : List Nat)
    (h : ¬ rx_len_ok (rx_packet_byte_count prev (u32 wr)) = true) :
    accepted_events prev (wr :: wrs) = accepted_events (u32 wr) wrs := by
  simp only [accepted_events]
  exact if_neg h

theorem accepted_events_cons_accept (prev wr : Nat) (wrs : List Nat)
    (h : rx_len_ok (rx_packet_byte_count prev (u32 wr)) = true) :
    accepted_events prev (wr :: wrs) =
      { pkt_addr := u16 prev, pkt_len := u16 (rx_packet_byte_count prev (u32 wr)) }
        :: accepted_events (u32 wr) wrs := by
  simp only [accepted_events]
  exact if_pos h

/-- What a run of end-of-frame interrupts leaves behind: the producer cursor
has moved by the number of accepted events, the slots it passed hold the
accepted descriptors in order, and all other slots are untouched. -/
theorem eof_isr_run_spec (wrs : List Nat) :
    ∀ s : RxState, s.rx_curr_pkt_ptr < 64 →
      (accepted_events s.rx_addr wrs).length ≤ 64 →
      (eof_isr_run s wrs).rx_curr_pkt_ptr
        = (s.rx_curr_pkt_ptr + (accepted_events s.rx_addr wrs).length) % 64 ∧
      (eof_isr_run s wrs).rx_prev_pkt_ptr = s.rx_prev_pkt_ptr ∧
      (∀ i, i < (accepted_events s.rx_addr wrs).length →
        (accepted_events s.rx_addr wrs)[i]?
          = some ((eof_isr_run s wrs).rx_pkt_ptr ((s.rx_curr_pkt_ptr + i) % 64))) ∧
      (∀ j, (∀ i, i < (accepted_events s.rx_addr wrs).length →
          j ≠ (s.rx_curr_pkt_ptr + i) % 64) →
        (eof_isr_run s wrs).rx_pkt_ptr j = s.rx_pkt_ptr j) := by
  induction wrs with
  | nil =>
    intro s hc _
    refine ⟨?_, rfl, ?_, ?_⟩
    · show s.rx_curr_pkt_ptr = (s.rx_curr_pkt_ptr + 0) % 64
      omega
    · intro i hi; exact absurd hi (Nat.not_lt_zero _)
    · intro j _; rfl
  | cons wr rest ih =>
    intro s hc hN
    have hrun : eof_isr_run s (wr :: rest)
        = eof_isr_run (netif_rmii_ethernet_eof_isr s wr) rest := rfl
    by_cases hok : rx_len_ok (rx_packet_byte_count s.rx_addr (u32 wr)) = true
    · have hacc := accepted_events_cons_accept s.rx_addr wr rest hok
      have hs1 := eof_isr_accept s wr hok
      rw [hacc] at hN ⊢
      rw [hrun]
      simp only [List.length_cons] at hN ⊢
      have hc1 : (netif_rmii_ethernet_eof_isr s wr).rx_curr_pkt_ptr
          = (s.rx_curr_pkt_ptr + 1) % 64 := by rw [hs1]
      have ha1 : (netif_rmii_ethernet_eof_isr s wr).rx_addr = u32 wr := by rw [hs1]
      have hp1 : (netif_rmii_ethernet_eof_isr s wr).rx_prev_pkt_ptr = s.rx_prev_pkt_ptr := by
        rw [hs1]
      have hr1 : (netif_rmii_ethernet_eof_isr s wr).rx_pkt_ptr
          = Function.update s.rx_pkt_ptr s.rx_curr_pkt_ptr
              { pkt_addr := u16 s.rx_addr,
                pkt_len := u16 (rx_packet_byte_count s.rx_addr (u32 wr)) } := by rw [hs1]
      obtain ⟨h1, h2, h3, h4⟩ := ih (netif_rmii_ethernet_eof_isr s wr)
        (by rw [hc1]; omega) (by rw [ha1]; omega)
      rw [ha1] at h1 h3 h4
      rw [hc1] at h1 h3 h4
      refine ⟨by rw [h1]; omega, by rw [h2, hp1], ?_, ?_⟩
      · intro i hi
        cases i with
        | zero =>
          have hfr := h4 s.rx_curr_pkt_ptr (by intro i hi2; omega)
          rw [hr1, Function.update_same] at hfr
          simp only [List.getElem?_cons_zero, Nat.add_zero, Nat.mod_eq_of_lt hc, hfr]
        | succ k =>
          have hk := h3 k (by omega)
          have hidx : ((s.rx_curr_pkt_ptr + 1) % 64 + k) % 64
              = (s.rx_curr_pkt_ptr + (k + 1)) % 64 := by omega
          rw [hidx] at hk
          simp only [List.getElem?_cons_succ, hk]
      · intro j hj
        have hj0 : j ≠ s.rx_curr_pkt_ptr := by
          have := hj 0 (by omega)
          simpa [Nat.mod_eq_of_lt hc] using this
        rw [h4 j (by
          intro i hi
          have := hj (i + 1) (by omega)
          omega), hr1]
        exact Function.update_noteq hj0 _ _
    · have hacc := accepted_events_cons_reject s.rx_addr wr rest hok
      have hs1 := eof_isr_reject s wr hok
      rw [hacc] at hN ⊢
      rw [hrun]
      have hc1 : (netif_rmii_ethernet_eof_isr s wr).rx_curr_pkt_ptr = s.rx_curr_pkt_ptr := by
        rw [hs1]
      have ha1 : (netif_rmii_ethernet_eof_isr s wr).rx_addr = u32 wr := by rw [hs1]
      have hp1 : (netif_rmii_ethernet_eof_isr s wr).rx_prev_pkt_ptr = s.rx_prev_pkt_ptr := by
        rw [hs1]
      have hr1 : (netif_rmii_ethernet_eof_isr s wr).rx_pkt_ptr = s.rx_pkt_ptr := by rw [hs1]
      obtain ⟨h1, h2, h3, h4⟩ := ih (netif_rmii_ethernet_eof_isr s wr)
        (by rw [hc1]; exact hc) (by rw [ha1]; exact hN)
      rw [ha1] at h1 h3 h4
      rw [hc1] at h1 h3 h4
      exact ⟨h1, by rw [h2, hp1], h3, fun j hj => by rw [h4 j hj, hr1]⟩

/-- The drain loop visits `count` consecutive slots starting at the consumer
cursor, in order, and leaves the cursor `count` further on (modulo 64). -/
theorem poll_drain_loop_spec {W : Type} (process : W → pkt_ptr_t → W)
    (ring : Nat → pkt_ptr_t) (count : Nat) :
    ∀ (prev : Nat) (w : W), prev < 64 →
      poll_drain_loop process ring count prev w
        = ((prev + count) % 64,
           ((List.range count).map (fun i => ring ((prev + i) % 64))).foldl process w) := by
  induction count with
  | zero =>
    intro prev w hp
    simp [poll_drain_loop, Nat.mod_eq_of_lt hp]
  | succ n ih =>
    intro prev w hp
    rw [poll_drain_loop, and_rx_num_mask, ih _ _ (Nat.mod_lt _ (by decide))]
    rw [List.range_succ_eq_map, List.map_cons, List.foldl_cons, List.map_map]
    have hidx : ∀ i, ((prev + 1) % 64 + i) % 64 = (prev + (i + 1)) % 64 := by
      intro i; omega
    have hf : (fun i => ring (((prev + 1) % 64 + i) % 64))
        = (fun i => ring ((prev + i) % 64)) ∘ Nat.succ := by
      funext i
      simp only [Function.comp, Nat.succ_eq_add_one, hidx]
    rw [hf]
    simp only [Nat.add_zero, Nat.mod_eq_of_lt hp]
    congr 1
    omega

theorem foldl_snoc_collect (l : List pkt_ptr_t) :
    ∀ acc : List pkt_ptr_t, l.foldl (fun a d => a ++ [d]) acc = acc ++ l := by
  induction l with
  | nil => intro acc; simp
  | cons x xs ih => intro acc; simp [List.foldl_cons, ih]

theorem rx_packet_count_eq {c p : Nat} (hc : c < 64) (hp : p < 64) :
    rx_packet_count c p = (c + 64 - p) % 64 := by
  unfold rx_packet_count sub32 u32 RX_NUM_PTR RX_NUM_PTR_POW RX_BUF_SIZE_POW
  simp only [Nat.one_shiftLeft]
  split <;> omega

/-- C3 (as amended): starting with the consumer caught up with the producer,
for any run of frame-end events of which fewer than `RX_NUM_PTR` (at most 63)
are accepted, the next drain retires exactly the accepted descriptors, in the
order of the events, each once, and leaves the consumer cursor equal to the
producer cursor. -/
theorem drain_fifo (s : RxState) (wrs : List Nat)
    (hc : s.rx_curr_pkt_ptr < RX_NUM_PTR)
    (hsync : s.rx_prev_pkt_ptr = s.rx_curr_pkt_ptr)
    (hN : (accepted_events s.rx_addr wrs).length < RX_NUM_PTR) :
    drained (eof_isr_run s wrs) = accepted_events s.rx_addr wrs ∧
    (netif_rmii_ethernet_poll_drain (fun (acc : List pkt_ptr_t) d => acc ++ [d])
        (eof_isr_run s wrs) []).1.rx_prev_pkt_ptr
      = (eof_isr_run s wrs).rx_curr_pkt_ptr := by
  have h64 : RX_NUM_PTR = 64 := rfl
  rw [h64] at hc hN
  obtain ⟨h1, h2, h3, _⟩ := eof_isr_run_spec wrs s hc (by omega)
  have hcnt : rx_packet_count (eof_isr_run s wrs).rx_curr_pkt_ptr
      (eof_isr_run s wrs).rx_prev_pkt_ptr = (accepted_events s.rx_addr wrs).length := by
    rw [rx_packet_count_eq (by rw [h1]; omega) (by rw [h2, hsync]; exact hc), h1, h2, hsync]
    omega
  unfold drained netif_rmii_ethernet_poll_drain
  simp only [hcnt]
  rw [poll_drain_loop_spec _ _ _ _ _ (by rw [h2, hsync]; exact hc)]
  simp only [foldl_snoc_collect, List.nil_append]
  constructor
  · apply List.ext_getElem?
    intro i
    by_cases hi : i < (accepted_events s.rx_addr wrs).length
    · rw [h3 i hi, h2, hsync]
      simp [List.getElem?_map, List.getElem?_range hi]
    · have hlen : ((List.range (accepted_events s.rx_addr wrs).length).map
          (fun i => (eof_isr_run s wrs).rx_pkt_ptr
            (((eof_isr_run s wrs).rx_prev_pkt_ptr + i) % 64))).length
          = (accepted_events s.rx_addr wrs).length := by
        rw [List.length_map, List.length_range]
      rw [List.getElem?_eq_none (by omega), List.getElem?_eq_none (by omega)]
  · rw [h2, hsync, h1]

/-- Witness for C3 (as amended): three events from start-up, the middle one too
short to be accepted, are drained as the two accepted descriptors in order. -/
theorem drain_fifo_witness :
    rx_init.rx_curr_pkt_ptr < RX_NUM_PTR ∧
    rx_init.rx_prev_pkt_ptr = rx_init.rx_curr_pkt_ptr ∧
    (accepted_events rx_init.rx_addr [100, 110, 1000]).length < RX_NUM_PTR ∧
    drained (eof_isr_run rx_init [100, 110, 1000])
      = [{ pkt_addr := 0, pkt_len := 100 }, { pkt_addr := 110, pkt_len := 890 }] :=
  ⟨by decide, rfl, by decide,
   (drain_fifo rx_init [100, 110, 1000] (by decide) rfl (by decide)).1.trans (by decide)⟩

set_option maxRecDepth 100000 in
/-- Counterexample for C3 as stated: 64 accepted events of 64 bytes each, a
number that does not exceed `RX_NUM_PTR`, bring the producer cursor back onto
the consumer cursor, and the next drain retires no descriptor at all. -/
theorem drain_fifo_full_ring_counterexample :
    rx_init.rx_prev_pkt_ptr = rx_init.rx_curr_pkt_ptr ∧
    (accepted_events rx_init.rx_addr full_ring_events).length = 64 ∧
    (accepted_events rx_init.rx_addr full_ring_events).length ≤ RX_NUM_PTR ∧
    drained (eof_isr_run rx_init full_ring_events) = [] ∧
    drained (eof_isr_run rx_init full_ring_events)
      ≠ accepted_events rx_init.rx_addr full_ring_events := by
  refine ⟨rfl, by decide, by decide, by decide, by decide⟩

/-! ## CRC engine: bounds and the residue -/

theorem shiftRight_xor (a b n : Nat) : (a ^^^ b) >>> n = (a >>> n) ^^^ (b >>> n) := by
  apply Nat.eq_of_testBit_eq
  intro i
  simp only [Nat.testBit_xor, Nat.testBit_shiftRight]

theorem u8_eq_and (x : Nat) : u8 x = x &&& 0xff :=
  (Nat.and_pow_two_sub_one_eq_mod x 8).symm

set_option maxRecDepth 100000 in
theorem crc32Lookup_all_lt : ∀ x ∈ crc32Lookup, x < 2 ^ 32 := by
  decide

theorem crc32LookupAt_lt (i : Nat) : crc32LookupAt i < 2 ^ 32 := by
  unfold crc32LookupAt
  rw [List.getD_eq_getElem?_getD]
  cases h : crc32Lookup[i]? with
  | none => simp
  | some x =>
    obtain ⟨hi, hx⟩ := List.getElem?_eq_some.1 h
    have := crc32Lookup_all_lt x (hx ▸ List.getElem_mem hi)
    simpa using this

theorem crc_update_lt {crc : Nat} (h : crc < 2 ^ 32) (b : Nat) : crc_update crc b < 2 ^ 32 := by
  unfold crc_update
  apply Nat.xor_lt_two_pow _ (crc32LookupAt_lt _)
  rw [Nat.shiftRight_eq_div_pow]
  exact lt_of_le_of_lt (Nat.div_le_self _ _) h

theorem crc_feed_lt (bytes : List Nat) : ∀ {crc : Nat}, crc < 2 ^ 32 →
    crc_feed crc bytes < 2 ^ 32 := by
  induction bytes with
  | nil => intro crc h; exact h
  | cons b bs ih => intro crc h; exact ih (crc_update_lt h b)

/-- Feeding byte `j / 8` of the complement of `c` into an accumulator of the
form `(c >>> j) ^^^ k` gives an accumulator of the same form, with a new
constant that does not depend on `c`. -/
theorem crc_update_residue (c k j : Nat) :
    crc_update ((c >>> j) ^^^ k) (u8 (not32 c >>> j))
      = (c >>> (j + 8)) ^^^
          ((k >>> 8) ^^^ crc32LookupAt ((k &&& 0xff) ^^^ ((0xffffffff >>> j) &&& 0xff))) := by
  have hoff : (((c >>> j) ^^^ k) &&& 0xff) ^^^ (((c ^^^ 0xffffffff) >>> j) &&& 0xff)
      = (k &&& 0xff) ^^^ ((0xffffffff >>> j) &&& 0xff) := by
    apply Nat.eq_of_testBit_eq
    intro i
    simp only [Nat.testBit_xor, Nat.testBit_and, Nat.testBit_shiftRight]
    cases c.testBit (j + i) <;> cases k.testBit i <;> cases (255 : Nat).testBit i <;>
      cases (4294967295 : Nat).testBit (j + i) <;> rfl
  unfold crc_update not32
  rw [u8_eq_and]
  simp only [hoff]
  rw [shiftRight_xor, ← Nat.shiftRight_add, Nat.xor_assoc]

theorem crc_feed_residue (c : Nat) (hc : c < 2 ^ 32) :
    crc_feed c (crc_bytes (not32 c)) = crc_check_value := by
  have h0 : c = (c >>> 0) ^^^ 0 := by simp
  have hb : crc_bytes (not32 c)
      = [u8 (not32 c >>> 0), u8 (not32 c >>> 8), u8 (not32 c >>> 16), u8 (not32 c >>> 24)] := rfl
  rw [hb]
  simp only [crc_feed, List.foldl_cons, List.foldl_nil]
  conv => lhs; arg 1; arg 1; arg 1; arg 1; rw [h0]
  rw [crc_update_residue, crc_update_residue, crc_update_residue, crc_update_residue]
  have hz : c >>> (0 + 8 + 8 + 8 + 8) = 0 := by
    rw [Nat.shiftRight_eq_div_pow]
    exact Nat.div_eq_of_lt hc
  rw [hz, Nat.zero_xor]
  decide

/-- C5: for every byte sequence `D`, the CRC engine started at `0xffffffff`
and run over `D` followed by the four bytes of the complemented CRC of `D`,
least-significant byte first, ends at the check constant `0xdebb20e3`. -/
theorem crc_residue_check_value (D : List Nat) :
    crc_feed 0xffffffff (D ++ crc_bytes (not32 (crc_feed 0xffffffff D))) = 0xdebb20e3 := by
  have hsplit : crc_feed 0xffffffff (D ++ crc_bytes (not32 (crc_feed 0xffffffff D)))
      = crc_feed (crc_feed 0xffffffff D) (crc_bytes (not32 (crc_feed 0xffffffff D))) := by
    simp only [crc_feed, List.foldl_append]
  rw [hsplit, crc_feed_residue _ (crc_feed_lt D (by decide))]
  rfl

/-! ## Transmit side: the copy loops as one pass over a byte list -/

theorem and_tx_buf_mask (x : Nat) : x &&& TX_BUF_MASK = x % 4096 :=
  Nat.and_pow_two_sub_one_eq_mod x 12

theorem and_tx_num_mask (x : Nat) : x &&& TX_NUM_MASK = x % 64 :=
  Nat.and_pow_two_sub_one_eq_mod x 6

theorem copy_chain_eq_foldl (p : pbuf) : ∀ st : CopyState,
    copy_chain st p = p.flatten.foldl copy_byte st := by
  induction p with
  | nil => intro st; rfl
  | cons q qs ih =>
    intro st
    show copy_chain (copy_segment st q) qs = _
    rw [ih, List.flatten_cons, List.foldl_append]
    rfl

theorem pbuf_tot_len_eq (p : pbuf) : pbuf_tot_len p = p.flatten.length := by
  unfold pbuf_tot_len
  rw [List.length_flatten]

theorem copy_pad_eq_foldl (fuel : Nat) : ∀ st : CopyState, 60 - st.tot_len ≤ fuel →
    copy_pad fuel st = (List.replicate (60 - st.tot_len) 0).foldl copy_byte st := by
  induction fuel with
  | zero =>
    intro st h
    have h0 : 60 - st.tot_len = 0 := by omega
    rw [h0]; rfl
  | succ f ih =>
    intro st h
    unfold copy_pad
    by_cases hlt : st.tot_len < 60
    · rw [if_pos hlt, ih (copy_byte st 0) (by show 60 - (st.tot_len + 1) ≤ f; omega)]
      have hs : 60 - st.tot_len = (60 - (st.tot_len + 1)) + 1 := by omega
      rw [hs, List.replicate_succ, List.foldl_cons]
      rfl
    · rw [if_neg hlt]
      have h0 : 60 - st.tot_len = 0 := by omega
      rw [h0]; rfl

theorem foldl_copy_byte_tot_len (bs : List Nat) : ∀ st : CopyState,
    (bs.foldl copy_byte st).tot_len = st.tot_len + bs.length := by
  induction bs with
  | nil => intro st; rfl
  | cons b bs ih =>
    intro st
    rw [List.foldl_cons, ih, List.length_cons]
    show st.tot_len + 1 + bs.length = _
    omega

theorem foldl_copy_byte_addr (bs : List Nat) : ∀ st : CopyState, st.addr < 4096 →
    (bs.foldl copy_byte st).addr = (st.addr + bs.length) % 4096 := by
  induction bs with
  | nil => intro st h; exact (Nat.mod_eq_of_lt h).symm
  | cons b bs ih =>
    intro st h
    have ha : (copy_byte st b).addr = (st.addr + 1) % 4096 := and_tx_buf_mask _
    rw [List.foldl_cons, ih _ (by rw [ha]; omega), ha, List.length_cons]
    omega

theorem foldl_copy_byte_data (bs : List Nat) : ∀ st : CopyState,
    (bs.foldl copy_byte st).data = ring_store st.data st.addr bs := by
  induction bs with
  | nil => intro st; rfl
  | cons b bs ih =>
    intro st
    have ha : (copy_byte st b).addr = (st.addr + 1) % 4096 := and_tx_buf_mask _
    rw [List.foldl_cons, ih, ha]
    rfl

theorem foldl_copy_byte_crc (bs : List Nat) : ∀ st : CopyState, (∀ b ∈ bs, b < 256) →
    st.crc < 2 ^ 32 → (bs.foldl copy_byte st).crc = crc_feed st.crc bs := by
  induction bs with
  | nil => intro st _ _; rfl
  | cons b bs ih =>
    intro st hb hc
    have hstep : (copy_byte st b).crc = crc_update st.crc b := by
      show (st.crc >>> 8) ^^^ crc32LookupAt (u8 ((st.crc &&& 0xff) ^^^ b)) = _
      have hlt : (st.crc &&& 0xff) ^^^ b < 2 ^ 8 :=
        Nat.xor_lt_two_pow (Nat.and_lt_two_pow _ (by decide))
          (hb b (List.mem_cons_self _ _))
      rw [show u8 ((st.crc &&& 0xff) ^^^ b) = (st.crc &&& 0xff) ^^^ b from
        Nat.mod_eq_of_lt hlt]
      rfl
    rw [List.foldl_cons, ih _ (fun x hx => hb x (List.mem_cons_of_mem _ hx))
      (by rw [hstep]; exact crc_update_lt hc b), hstep]
    rfl

theorem copy_crc_eq (data : Nat → Nat) (addr inv : Nat) :
    copy_crc data addr inv
      = (ring_store data addr (crc_bytes inv), ((((addr + 1) % 4096 + 1) % 4096 + 1) % 4096 + 1) % 4096) := by
  simp only [copy_crc, crc_bytes, List.range, List.range.loop, List.foldl_cons, List.foldl_nil,
    List.map_cons, List.map_nil, ring_store, and_tx_buf_mask]

theorem padded_length (F : List Nat) : (padded F).length = max F.length 60 := by
  unfold padded
  rw [List.length_append, List.length_replicate]
  omega

theorem frame_with_crc_length (F : List Nat) :
    (frame_with_crc F).length = max F.length 60 + 4 := by
  unfold frame_with_crc
  rw [List.length_append, padded_length]
  rfl

theorem copy_pad_chain (p : pbuf) (st : CopyState) (h0 : st.tot_len = 0) :
    copy_pad 60 (copy_chain st p) = (padded p.flatten).foldl copy_byte st := by
  have hlen : (copy_chain st p).tot_len = p.flatten.length := by
    rw [copy_chain_eq_foldl, foldl_copy_byte_tot_len, h0, Nat.zero_add]
  rw [copy_pad_eq_foldl 60 _ (by omega), hlen, copy_chain_eq_foldl]
  unfold padded
  rw [List.foldl_append]

theorem ring_store_append (xs ys : List Nat) : ∀ (data : Nat → Nat) (addr : Nat),
    addr < 4096 →
    ring_store data addr (xs ++ ys)
      = ring_store (ring_store data addr xs) ((addr + xs.length) % 4096) ys := by
  induction xs with
  | nil =>
    intro data addr h
    simp [ring_store, Nat.mod_eq_of_lt h]
  | cons x xs ih =>
    intro data addr h
    show ring_store (Function.update data addr x) ((addr + 1) % 4096) (xs ++ ys) = _
    rw [ih _ _ (Nat.mod_lt _ (by decide))]
    have hidx : ((addr + 1) % 4096 + xs.length) % 4096
        = (addr + (x :: xs).length) % 4096 := by
      rw [List.length_cons]; omega
    rw [hidx]
    rfl

/-- The result of `ethernet_frame_copy_ring_pbuf` in terms of the state after
padding: CRC bytes stored behind it, then the two header bytes at `addr`. -/
theorem copy_ring_pbuf_unfold (data : Nat → Nat) (p : pbuf) (addr : Nat) :
    ethernet_frame_copy_ring_pbuf data p addr =
      (Function.update
        (Function.update
          (ring_store (after_padding data p addr).data (after_padding data p addr).addr
            (crc_bytes (not32 (after_padding data p addr).crc)))
          addr (u8 (u16 ((max p.flatten.length 60 + 4) * 4 - 1))))
        ((addr + 1) % 4096) (u8 (u16 ((max p.flatten.length 60 + 4) * 4 - 1) >>> 8)),
       max p.flatten.length 60 + 4 + 2) := by
  have hst : copy_pad 60 (copy_chain
      { data := data, addr := (addr + 2) % 4096, tot_len := 0, crc := 0xffffffff } p)
      = after_padding data p addr := by
    rw [copy_pad_chain _ _ rfl]
    rfl
  have hlen : (after_padding data p addr).tot_len = max p.flatten.length 60 := by
    unfold after_padding
    rw [foldl_copy_byte_tot_len, padded_length]
    exact Nat.zero_add _
  unfold ethernet_frame_copy_ring_pbuf
  simp only [and_tx_buf_mask, hst, copy_crc_eq, hlen]

/-! ## Transmit side: free space, reserved space, header, command ring -/

theorem sub32_of_lt {a b : Nat} (hb : b < 2 ^ 32) :
    sub32 a b = (a + 2 ^ 32 - b) % 2 ^ 32 := by
  unfold sub32
  rw [Nat.mod_eq_of_lt hb]

/-- The value the send path computes as free space, for cursors inside the
arena: the whole arena when the cursors coincide, and otherwise the distance
from the DMA read cursor up to the write cursor. -/
theorem tx_free_eq {r w : Nat} (hr : r < 4096) (hw : w < 4096) :
    tx_free r w = if r = w then 4096 else (w + 4096 - r) % 4096 := by
  have hrm : r &&& TX_BUF_MASK = r := by rw [and_tx_buf_mask]; exact Nat.mod_eq_of_lt hr
  have hx : (r ^^^ w) &&& TX_BUF_MASK = r ^^^ w := by
    rw [and_tx_buf_mask]
    exact Nat.mod_eq_of_lt (Nat.xor_lt_two_pow (n := 12) hr hw)
  have hsz : TX_BUF_SIZE = 4096 := rfl
  unfold tx_free
  simp only [hrm, hx, and_tx_buf_mask, hsz]
  rw [sub32_of_lt (a := r) (by omega), sub32_of_lt (a := w) (by omega)]
  by_cases h : r = w
  · subst h
    simp only [Nat.xor_self, ne_eq, not_true_eq_false, if_false, if_true]
    rw [sub32_of_lt (by omega)]
    omega
  · have hne : r ^^^ w ≠ 0 := Nat.xor_ne_zero.2 h
    simp only [hne, ne_eq, not_false_eq_true, if_true, h, if_false]
    rw [sub32_of_lt (by omega)]
    omega

theorem tx_plen_eq (p : pbuf) : tx_plen p = max (pbuf_tot_len p + 6) 66 := by
  unfold tx_plen
  simp only
  split <;> omega

theorem copy_ring_pbuf_len (data : Nat → Nat) (p : pbuf) (addr : Nat) :
    (ethernet_frame_copy_ring_pbuf data p addr).2 = max (pbuf_tot_len p + 6) 66 := by
  rw [copy_ring_pbuf_unfold, pbuf_tot_len_eq]
  show max p.flatten.length 60 + 4 + 2 = _
  omega

theorem output_of_space (s : TxState) (p : pbuf) (read_addrs : List Nat) (busy : BusySamples)
    (h : tx_wait_for_space (tx_plen p) s.tx_addr read_addrs = true) :
    netif_rmii_ethernet_output s p read_addrs busy = some (tx_enqueue s p busy) := by
  unfold netif_rmii_ethernet_output
  rw [if_pos h]

/-- C7: for a frame of total length `n` the send path reserves
`max (n + 6) 66` bytes, `ethernet_frame_copy_ring_pbuf` returns exactly that
length whatever the arena and start address, and a send that finds room
returns with `tx_addr` advanced by that amount modulo 4096. -/
theorem output_reserved_eq_formatted (s : TxState) (p : pbuf) (read_addrs : List Nat)
    (busy : BusySamples)
    (hroom : tx_wait_for_space (tx_plen p) s.tx_addr read_addrs = true) :
    tx_plen p = max (pbuf_tot_len p + 6) 66 ∧
    (∀ (data : Nat → Nat) (addr : Nat),
      (ethernet_frame_copy_ring_pbuf data p addr).2 = tx_plen p) ∧
    ∃ s', netif_rmii_ethernet_output s p read_addrs busy = some s' ∧
      s'.tx_addr = (s.tx_addr + max (pbuf_tot_len p + 6) 66) % 4096 := by
  refine ⟨tx_plen_eq p, fun data addr => ?_, tx_enqueue s p busy,
    output_of_space s p read_addrs busy hroom, ?_⟩
  · rw [copy_ring_pbuf_len, tx_plen_eq]
  · show (s.tx_addr + (ethernet_frame_copy_ring_pbuf s.tx_ring p s.tx_addr).2) &&& TX_BUF_MASK = _
    rw [copy_ring_pbuf_len, and_tx_buf_mask]

/-- C8: for a frame of total length `n ≤ 1514` formatted at start cursor
`a < 4096`, the bytes at `a` and `(a + 1) mod 4096` are the low and the high
byte of `4 * (max n 60 + 4) - 1`, which is four times the number of frame
bytes including the CRC, less one, and fits in 16 bits. -/
theorem copy_ring_pbuf_header (data : Nat → Nat) (p : pbuf) (a : Nat)
    (_ha : a < 4096) (hn : pbuf_tot_len p ≤ 1514) :
    (ethernet_frame_copy_ring_pbuf data p a).1 a
        + 256 * (ethernet_frame_copy_ring_pbuf data p a).1 ((a + 1) % 4096)
      = 4 * (max (pbuf_tot_len p) 60 + 4) - 1 ∧
    (ethernet_frame_copy_ring_pbuf data p a).1 a < 256 ∧
    (ethernet_frame_copy_ring_pbuf data p a).1 ((a + 1) % 4096) < 256 ∧
    4 * (max (pbuf_tot_len p) 60 + 4) - 1 < 2 ^ 16 ∧
    4 * (max (pbuf_tot_len p) 60 + 4) - 1
      = ((ethernet_frame_copy_ring_pbuf data p a).2 - 2) * 4 - 1 := by
  rw [pbuf_tot_len_eq] at hn ⊢
  rw [copy_ring_pbuf_unfold]
  have hne : a ≠ (a + 1) % 4096 := by omega
  simp only [Function.update_same, Function.update_noteq hne]
  have hv : (max p.flatten.length 60 + 4) * 4 - 1 < 2 ^ 16 := by omega
  rw [u16_of_lt hv, Nat.shiftRight_eq_div_pow]
  unfold u8
  omega

/-- Witness for C7: a three-byte frame in two segments sent from the
initial state with the DMA read cursor at 0 reserves 66 bytes and moves
`tx_addr` to 66. -/
theorem output_reserved_eq_formatted_witness :
    tx_wait_for_space (tx_plen [[1, 2], [3]])
      (tx_init (fun _ => 0) (fun _ => 0)).tx_addr [0] = true ∧
    tx_plen [[1, 2], [3]] = 66 ∧
    ∃ s', netif_rmii_ethernet_output (tx_init (fun _ => 0) (fun _ => 0)) [[1, 2], [3]] [0]
        { before_stat := false, after_stat := false, resample := false, last_check := false }
          = some s' ∧
      s'.tx_addr = (0 + max (pbuf_tot_len [[1, 2], [3]] + 6) 66) % 4096 :=
  ⟨by decide,
   (output_reserved_eq_formatted (tx_init (fun _ => 0) (fun _ => 0)) [[1, 2], [3]] [0]
      { before_stat := false, after_stat := false, resample := false, last_check := false }
      (by decide)).1.trans (by decide),
   (output_reserved_eq_formatted (tx_init (fun _ => 0) (fun _ => 0)) [[1, 2], [3]] [0]
      { before_stat := false, after_stat := false, resample := false, last_check := false }
      (by decide)).2.2⟩

/-- Witness for C8: a three-byte frame formatted at cursor 4095 has header
value `4 * 64 - 1 = 255`, low byte at 4095 and high byte at 0. -/
theorem copy_ring_pbuf_header_witness :
    (4095 : Nat) < 4096 ∧ pbuf_tot_len [[1, 2], [3]] ≤ 1514 ∧
    (ethernet_frame_copy_ring_pbuf (fun _ => 0) [[1, 2], [3]] 4095).1 4095
        + 256 * (ethernet_frame_copy_ring_pbuf (fun _ => 0) [[1, 2], [3]] 4095).1 0
      = 255 :=
  ⟨by decide, by decide,
   (copy_ring_pbuf_header (fun _ => 0) [[1, 2], [3]] 4095 (by decide) (by decide)).1⟩

theorem tx_pkt_ptr_init_foldl (l : List Nat) : ∀ (cmds : Nat → Nat) (i : Nat),
    (l.foldl (fun c k => Function.update c k 0) cmds) i = if i ∈ l then 0 else cmds i := by
  induction l with
  | nil => intro cmds i; simp
  | cons k ks ih =>
    intro cmds i
    rw [List.foldl_cons, ih]
    by_cases hk : i ∈ ks
    · simp [hk]
    · by_cases hik : i = k
      · subst hik; simp [hk]
      · simp [hk, hik, Function.update_noteq hik]

theorem tx_pkt_ptr_init_zero (cmds : Nat → Nat) (i : Nat) (hi : i < 64) :
    tx_pkt_ptr_init cmds i = 0 := by
  unfold tx_pkt_ptr_init
  rw [tx_pkt_ptr_init_foldl]
  have : i ∈ List.range TX_NUM_PTR := List.mem_range.2 hi
  simp [this]

/-- C10: after initialisation every command slot, in particular the one at
the producer cursor, holds the sentinel 0; every send that finds room stores
the formatted length (at least 66, hence non-zero) in the slot at the old
cursor and 0 in the next slot modulo 64, advances the cursor by one modulo
64, and so again leaves the sentinel at the cursor. -/
theorem tx_command_ring_sentinel :
    (∀ (ring cmds : Nat → Nat),
      (tx_init ring cmds).tx_curr_pkt_ptr = 0 ∧
      (∀ i, i < TX_NUM_PTR → (tx_init ring cmds).tx_pkt_ptr i = 0) ∧
      (tx_init ring cmds).tx_pkt_ptr (tx_init ring cmds).tx_curr_pkt_ptr = 0) ∧
    (∀ (s : TxState) (p : pbuf) (read_addrs : List Nat) (busy : BusySamples),
      tx_wait_for_space (tx_plen p) s.tx_addr read_addrs = true →
      ∃ s', netif_rmii_ethernet_output s p read_addrs busy = some s' ∧
        s'.tx_pkt_ptr s.tx_curr_pkt_ptr = max (pbuf_tot_len p + 6) 66 ∧
        s'.tx_pkt_ptr s.tx_curr_pkt_ptr
          = (ethernet_frame_copy_ring_pbuf s.tx_ring p s.tx_addr).2 ∧
        66 ≤ s'.tx_pkt_ptr s.tx_curr_pkt_ptr ∧
        s'.tx_pkt_ptr ((s.tx_curr_pkt_ptr + 1) % TX_NUM_PTR) = 0 ∧
        s'.tx_curr_pkt_ptr = (s.tx_curr_pkt_ptr + 1) % TX_NUM_PTR ∧
        s'.tx_pkt_ptr s'.tx_curr_pkt_ptr = 0 ∧
        (∀ j, j ≠ s.tx_curr_pkt_ptr → j ≠ (s.tx_curr_pkt_ptr + 1) % TX_NUM_PTR →
          s'.tx_pkt_ptr j = s.tx_pkt_ptr j)) := by
  constructor
  · intro ring cmds
    refine ⟨rfl, fun i hi => tx_pkt_ptr_init_zero cmds i hi, ?_⟩
    have h0 : (tx_init ring cmds).tx_pkt_ptr = tx_pkt_ptr_init cmds := rfl
    have hc0 : (tx_init ring cmds).tx_curr_pkt_ptr = 0 := rfl
    rw [h0, hc0]
    exact tx_pkt_ptr_init_zero cmds 0 (by decide)
  · intro s p read_addrs busy hroom
    have h64 : TX_NUM_PTR = 64 := rfl
    have hne : (s.tx_curr_pkt_ptr + 1) % 64 ≠ s.tx_curr_pkt_ptr := by omega
    have hcur : (tx_enqueue s p busy).tx_curr_pkt_ptr = (s.tx_curr_pkt_ptr + 1) % 64 :=
      and_tx_num_mask _
    have hcmds : (tx_enqueue s p busy).tx_pkt_ptr
        = Function.update (Function.update s.tx_pkt_ptr ((s.tx_curr_pkt_ptr + 1) % 64) 0)
            s.tx_curr_pkt_ptr (ethernet_frame_copy_ring_pbuf s.tx_ring p s.tx_addr).2 := by
      show Function.update (Function.update s.tx_pkt_ptr
        ((s.tx_curr_pkt_ptr + 1) &&& TX_NUM_MASK) 0) _ _ = _
      rw [and_tx_num_mask]
    have hold : (tx_enqueue s p busy).tx_pkt_ptr s.tx_curr_pkt_ptr
        = (ethernet_frame_copy_ring_pbuf s.tx_ring p s.tx_addr).2 := by
      rw [hcmds, Function.update_same]
    have hnext : (tx_enqueue s p busy).tx_pkt_ptr ((s.tx_curr_pkt_ptr + 1) % 64) = 0 := by
      rw [hcmds, Function.update_noteq hne, Function.update_same]
    rw [h64]
    refine ⟨tx_enqueue s p busy, output_of_space s p read_addrs busy hroom, ?_, hold, ?_,
      hnext, hcur, by rw [hcur]; exact hnext, ?_⟩
    · rw [hold, copy_ring_pbuf_len]
    · rw [hold, copy_ring_pbuf_len]; omega
    · intro j hj hj2
      rw [hcmds, Function.update_noteq hj, Function.update_noteq hj2]

/-- Witness for C10: the first send after initialisation stores 66 in slot 0,
the sentinel in slot 1 and moves the cursor to 1. -/
theorem tx_command_ring_sentinel_witness :
    tx_wait_for_space (tx_plen [[1, 2], [3]])
      (tx_init (fun _ => 0) (fun _ => 7)).tx_addr [0] = true ∧
    ∃ s', netif_rmii_ethernet_output (tx_init (fun _ => 0) (fun _ => 7)) [[1, 2], [3]] [0]
        { before_stat := false, after_stat := false, resample := false, last_check := false }
          = some s' ∧
      s'.tx_pkt_ptr 0 = 66 ∧ s'.tx_pkt_ptr 1 = 0 ∧ s'.tx_curr_pkt_ptr = 1 :=
  ⟨by decide,
   (tx_command_ring_sentinel.2 (tx_init (fun _ => 0) (fun _ => 7)) [[1, 2], [3]] [0]
      { before_stat := false, after_stat := false, resample := false, last_check := false }
      (by decide)).imp (fun _ h => ⟨h.1, h.2.1, h.2.2.2.2.1, h.2.2.2.2.2.1⟩)⟩

/-! ## Transmit side: byte layout of a formatted frame -/

/-- A wrapping store of at most 4096 bytes puts byte `i` at `(addr + i) mod
4096` and leaves every other cell alone. -/
theorem ring_store_spec (bs : List Nat) :
    ∀ (data : Nat → Nat) (addr : Nat), addr < 4096 → bs.length ≤ 4096 →
      (∀ i, i < bs.length → bs[i]? = some (ring_store data addr bs ((addr + i) % 4096))) ∧
      (∀ j, (∀ i, i < bs.length → j ≠ (addr + i) % 4096) →
        ring_store data addr bs j = data j) := by
  induction bs with
  | nil =>
    intro data addr _ _
    exact ⟨fun i hi => absurd hi (Nat.not_lt_zero _), fun j _ => rfl⟩
  | cons b bs ih =>
    intro data addr ha hlen
    simp only [List.length_cons] at hlen ⊢
    have hstep : ring_store data addr (b :: bs)
        = ring_store (Function.update data addr b) ((addr + 1) % 4096) bs := rfl
    obtain ⟨h1, h2⟩ := ih (Function.update data addr b) ((addr + 1) % 4096)
      (Nat.mod_lt _ (by decide)) (by omega)
    rw [hstep]
    constructor
    · intro i hi
      cases i with
      | zero =>
        have hfr := h2 addr (by intro i hi2; omega)
        rw [Function.update_same] at hfr
        simp only [List.getElem?_cons_zero, Nat.add_zero, Nat.mod_eq_of_lt ha, hfr]
      | succ k =>
        have hk := h1 k (by omega)
        have hidx : ((addr + 1) % 4096 + k) % 4096 = (addr + (k + 1)) % 4096 := by omega
        rw [hidx] at hk
        simp only [List.getElem?_cons_succ, hk]
    · intro j hj
      have hj0 : j ≠ addr := by
        have := hj 0 (by omega)
        simpa [Nat.mod_eq_of_lt ha] using this
      rw [h2 j (by
        intro i hi
        have := hj (i + 1) (by omega)
        omega)]
      exact Function.update_noteq hj0 _ _

theorem padded_bytes {F : List Nat} (hb : ∀ b ∈ F, b < 256) : ∀ b ∈ padded F, b < 256 := by
  intro b hmem
  unfold padded at hmem
  rcases List.mem_append.1 hmem with h | h
  · exact hb b h
  · rw [List.eq_of_mem_replicate h]; decide

/-- The arena after `ethernet_frame_copy_ring_pbuf`, for a frame of bytes no
longer than 1514: payload, padding and CRC stored from `addr + 2` on, then the
two header bytes stored at `addr`. -/
theorem copy_ring_pbuf_data (data : Nat → Nat) (p : pbuf) (a : Nat)
    (hn : p.flatten.length ≤ 1514) (hb : ∀ b ∈ p.flatten, b < 256) :
    (ethernet_frame_copy_ring_pbuf data p a).1
      = Function.update
          (Function.update (ring_store data ((a + 2) % 4096) (frame_with_crc p.flatten))
            a (((frame_with_crc p.flatten).length * 4 - 1) % 256))
          ((a + 1) % 4096) (((frame_with_crc p.flatten).length * 4 - 1) / 256) := by
  have h2 : (a + 2) % 4096 < 4096 := Nat.mod_lt _ (by decide)
  have hd : (after_padding data p a).data
      = ring_store data ((a + 2) % 4096) (padded p.flatten) := by
    unfold after_padding; rw [foldl_copy_byte_data]
  have hadr : (after_padding data p a).addr
      = ((a + 2) % 4096 + (padded p.flatten).length) % 4096 := by
    unfold after_padding; rw [foldl_copy_byte_addr _ _ h2]
  have hcrc : (after_padding data p a).crc = crc_feed 0xffffffff (padded p.flatten) := by
    unfold after_padding
    exact foldl_copy_byte_crc _
      { data := data, addr := (a + 2) % 4096, tot_len := 0, crc := 0xffffffff }
      (padded_bytes hb) (show (0xffffffff : Nat) < 2 ^ 32 by decide)
  have hv : (max p.flatten.length 60 + 4) * 4 - 1 < 2 ^ 16 := by omega
  rw [copy_ring_pbuf_unfold, hd, hadr, hcrc, ← ring_store_append _ _ _ _ h2,
    frame_with_crc_length, u16_of_lt hv, Nat.shiftRight_eq_div_pow]
  have hlo : u8 ((max p.flatten.length 60 + 4) * 4 - 1)
      = ((max p.flatten.length 60 + 4) * 4 - 1) % 256 := rfl
  have hhi : u8 (((max p.flatten.length 60 + 4) * 4 - 1) / 2 ^ 8)
      = ((max p.flatten.length 60 + 4) * 4 - 1) / 256 := by
    unfold u8; omega
  rw [hlo, hhi]
  rfl

/-- C9: for a start cursor `a < 4096` and a frame `F` of bytes, given as any
chain of segments, with `|F| ≤ 1514`, the call returns the length of the
formatted frame (header, `F`, zero padding up to 60 bytes, complemented CRC of
payload and padding least-significant byte first); byte `i` of the formatted
frame is at ring position `(a + i) mod 4096` for every `i` below that length;
every other cell of the arena is unchanged. -/
theorem copy_ring_pbuf_layout (data : Nat → Nat) (p : pbuf) (a : Nat) (ha : a < 4096)
    (hn : p.flatten.length ≤ 1514) (hb : ∀ b ∈ p.flatten, b < 256) :
    (ethernet_frame_copy_ring_pbuf data p a).2 = (formatted_frame p.flatten).length ∧
    (∀ i, i < (formatted_frame p.flatten).length →
      (formatted_frame p.flatten)[i]?
        = some ((ethernet_frame_copy_ring_pbuf data p a).1 ((a + i) % 4096))) ∧
    (∀ j, (∀ i, i < (formatted_frame p.flatten).length → j ≠ (a + i) % 4096) →
      (ethernet_frame_copy_ring_pbuf data p a).1 j = data j) := by
  have hfl : (formatted_frame p.flatten).length = max p.flatten.length 60 + 4 + 2 := by
    unfold formatted_frame
    simp only [List.length_append, List.length_cons, List.length_nil, frame_with_crc_length]
    omega
  have hbl := frame_with_crc_length p.flatten
  obtain ⟨hs1, hs2⟩ := ring_store_spec (frame_with_crc p.flatten) data ((a + 2) % 4096)
    (Nat.mod_lt _ (by decide)) (by omega)
  have hff : formatted_frame p.flatten
      = (((frame_with_crc p.flatten).length * 4 - 1) % 256)
          :: (((frame_with_crc p.flatten).length * 4 - 1) / 256)
          :: frame_with_crc p.flatten := rfl
  rw [copy_ring_pbuf_data data p a hn hb, hfl]
  refine ⟨by rw [copy_ring_pbuf_unfold], ?_, ?_⟩
  · intro i hi
    rw [hff]
    rcases i with _ | _ | k
    · have hne : a ≠ (a + 1) % 4096 := by omega
      have h0 : (a + 0) % 4096 = a := by omega
      rw [h0, Function.update_noteq hne, Function.update_same, List.getElem?_cons_zero]
    · have h1 : (a + (0 + 1)) % 4096 = (a + 1) % 4096 := by omega
      rw [h1, Function.update_same, List.getElem?_cons_succ, List.getElem?_cons_zero]
    · have hne1 : (a + (k + 1 + 1)) % 4096 ≠ (a + 1) % 4096 := by omega
      have hne0 : (a + (k + 1 + 1)) % 4096 ≠ a := by omega
      have hk := hs1 k (by omega)
      have hidx : ((a + 2) % 4096 + k) % 4096 = (a + (k + 1 + 1)) % 4096 := by omega
      rw [hidx] at hk
      rw [Function.update_noteq hne1, Function.update_noteq hne0, ← hk,
        List.getElem?_cons_succ, List.getElem?_cons_succ]
  · intro j hj
    have hj0 : j ≠ a := by
      have := hj 0 (by omega)
      simpa [Nat.mod_eq_of_lt ha] using this
    have hj1 : j ≠ (a + 1) % 4096 := hj 1 (by omega)
    rw [Function.update_noteq hj1, Function.update_noteq hj0]
    apply hs2
    intro i hi
    have := hj (i + 2) (by omega)
    omega

/-- Witness for C9: a three-byte frame in two segments formatted at cursor
4090; its third payload byte is byte 4 of the formatted frame and sits at
ring position 4094. -/
theorem copy_ring_pbuf_layout_witness :
    (4090 : Nat) < 4096 ∧ ([[1, 2], [3]] : pbuf).flatten.length ≤ 1514 ∧
    (∀ b ∈ ([[1, 2], [3]] : pbuf).flatten, b < 256) ∧
    (formatted_frame ([[1, 2], [3]] : pbuf).flatten)[4]?
      = some ((ethernet_frame_copy_ring_pbuf (fun _ => 170) [[1, 2], [3]] 4090).1
          ((4090 + 4) % 4096)) :=
  ⟨by decide, by decide, by decide,
   (copy_ring_pbuf_layout (fun _ => 170) [[1, 2], [3]] 4090 (by decide) (by decide)
      (by decide)).2.1 4 (by decide)⟩

/-! ## Receive side: fetching a frame -/

theorem and_rx_buf_mask (x : Nat) : x &&& RX_BUF_MASK = x % 4096 :=
  Nat.and_pow_two_sub_one_eq_mod x 12

theorem ring_load_succ (data : Nat → Nat) (addr n : Nat) (ha : addr < 4096) :
    ring_load data addr (n + 1) = data addr :: ring_load data ((addr + 1) % 4096) n := by
  unfold ring_load
  rw [List.range_succ_eq_map, List.map_cons, List.map_map]
  have hidx : ∀ i, ((addr + 1) % 4096 + i) % 4096 = (addr + (i + 1)) % 4096 := by
    intro i; omega
  have hf : (fun i => data (((addr + 1) % 4096 + i) % 4096))
      = (fun i => data ((addr + i) % 4096)) ∘ Nat.succ := by
    funext i
    simp only [Function.comp, Nat.succ_eq_add_one, hidx]
  rw [hf, Nat.add_zero, Nat.mod_eq_of_lt ha]

theorem ring_load_add (data : Nat → Nat) (m : Nat) : ∀ (addr n : Nat), addr < 4096 →
    ring_load data addr (m + n)
      = ring_load data addr m ++ ring_load data ((addr + m) % 4096) n := by
  induction m with
  | zero =>
    intro addr n ha
    rw [Nat.zero_add, Nat.add_zero, Nat.mod_eq_of_lt ha]
    rfl
  | succ k ih =>
    intro addr n ha
    have hk : k + 1 + n = (k + n) + 1 := by omega
    rw [hk, ring_load_succ _ _ _ ha, ring_load_succ _ _ _ ha,
      ih _ _ (Nat.mod_lt _ (by decide)), List.cons_append]
    have hidx : ((addr + 1) % 4096 + k) % 4096 = (addr + (k + 1)) % 4096 := by omega
    rw [hidx]

theorem fetch_bytes_spec (data : Nat → Nat) (n : Nat) :
    ∀ st : FetchState, st.addr < 4096 → n ≤ st.total_copy_len →
      fetch_bytes data n st
        = (ring_load data st.addr n,
           { addr := (st.addr + n) % 4096
             total_copy_len := st.total_copy_len - n
             crc := crc_feed st.crc (ring_load data st.addr n) }) := by
  induction n with
  | zero =>
    intro st ha _
    simp [fetch_bytes, ring_load, crc_feed, Nat.mod_eq_of_lt ha]
  | succ k ih =>
    intro st ha hn
    have hpos : st.total_copy_len > 0 := by omega
    rw [fetch_bytes, and_rx_buf_mask, if_pos hpos]
    rw [ih _ (Nat.mod_lt _ (by decide)) (by show k ≤ st.total_copy_len - 1; omega),
      ring_load_succ _ _ _ ha]
    have hidx : ((st.addr + 1) % 4096 + k) % 4096 = (st.addr + (k + 1)) % 4096 := by omega
    have hsub : st.total_copy_len - 1 - k = st.total_copy_len - (k + 1) := by omega
    simp only [hidx, hsub, crc_feed, List.foldl_cons]

theorem crc_feed_append (crc : Nat) (xs ys : List Nat) :
    crc_feed crc (xs ++ ys) = crc_feed (crc_feed crc xs) ys := by
  simp only [crc_feed, List.foldl_append]

/-- With a receiving chain that has room for all `total_copy_len` bytes, the
chain loop ends normally, has written exactly the bytes of the arena from
`addr` on, in order, and has run all of them through the CRC. -/
theorem fetch_chain_spec (data : Nat → Nat) (buf : List Nat) :
    ∀ st : FetchState, st.addr < 4096 → st.total_copy_len ≤ buf.sum →
      ∃ segs, fetch_chain data buf st
          = some (segs,
              { addr := (st.addr + st.total_copy_len) % 4096
                total_copy_len := 0
                crc := crc_feed st.crc (ring_load data st.addr st.total_copy_len) }) ∧
        segs.flatten = ring_load data st.addr st.total_copy_len := by
  have hdone : ∀ st : FetchState, st.addr < 4096 → st.total_copy_len = 0 →
      (some (([] : List (List Nat)), st)
        = some (([] : List (List Nat)),
            ({ addr := (st.addr + st.total_copy_len) % 4096
               total_copy_len := 0
               crc := crc_feed st.crc (ring_load data st.addr st.total_copy_len) }
              : FetchState))) ∧
      ([] : List (List Nat)).flatten = ring_load data st.addr st.total_copy_len := by
    intro st ha h0
    cases st with
    | mk addr total crc =>
      simp only at ha h0
      subst h0
      simp [ring_load, crc_feed, Nat.mod_eq_of_lt ha]
  induction buf with
  | nil =>
    intro st ha hlen
    have h0 : st.total_copy_len = 0 := by simpa using hlen
    refine ⟨[], ?_, (hdone st ha h0).2⟩
    rw [fetch_chain, if_pos h0]
    exact (hdone st ha h0).1
  | cons p_len next ih =>
    intro st ha hlen
    rw [List.sum_cons] at hlen
    by_cases h0 : st.total_copy_len = 0
    · refine ⟨[], ?_, (hdone st ha h0).2⟩
      rw [fetch_chain, if_pos h0]
      exact (hdone st ha h0).1
    · rw [fetch_chain, if_neg h0]
      generalize hbcl : (if st.total_copy_len > p_len then p_len else st.total_copy_len) = bcl
      have hle : bcl ≤ st.total_copy_len := by rw [← hbcl]; split <;> omega
      have hrest : st.total_copy_len - bcl ≤ next.sum := by rw [← hbcl]; split <;> omega
      simp only
      rw [fetch_bytes_spec data bcl st ha hle]
      obtain ⟨segs, hs, hflat⟩ := ih
        { addr := (st.addr + bcl) % 4096
          total_copy_len := st.total_copy_len - bcl
          crc := crc_feed st.crc (ring_load data st.addr bcl) }
        (Nat.mod_lt _ (by decide)) hrest
      simp only at hs hflat
      refine ⟨ring_load data st.addr bcl :: segs, ?_, ?_⟩
      · rw [hs]
        have hidx : ((st.addr + bcl) % 4096 + (st.total_copy_len - bcl)) % 4096
            = (st.addr + st.total_copy_len) % 4096 := by omega
        have hsplit : ring_load data st.addr st.total_copy_len
            = ring_load data st.addr bcl
              ++ ring_load data ((st.addr + bcl) % 4096) (st.total_copy_len - bcl) := by
          rw [← ring_load_add _ _ _ _ ha]
          congr 1
          omega
        simp only [hidx, hsplit, crc_feed_append]
      · rw [List.flatten_cons, hflat, ← ring_load_add _ _ _ _ ha]
        congr 1
        omega

/-- Reading back what a wrapping store of at most 4096 bytes has written. -/
theorem ring_load_of_store (data : Nat → Nat) (bs : List Nat) (addr : Nat)
    (ha : addr < 4096) (hlen : bs.length ≤ 4096) :
    ring_load (ring_store data addr bs) addr bs.length = bs := by
  obtain ⟨h1, _⟩ := ring_store_spec bs data addr ha hlen
  apply List.ext_getElem?
  intro i
  unfold ring_load
  by_cases hi : i < bs.length
  · rw [h1 i hi]
    simp [List.getElem?_map, List.getElem?_range hi]
  · have hl : ((List.range bs.length).map
        (fun i => ring_store data addr bs ((addr + i) % 4096))).length = bs.length := by
      rw [List.length_map, List.length_range]
    rw [List.getElem?_eq_none (by omega), List.getElem?_eq_none (by omega)]

theorem ring_load_congr (d1 d2 : Nat → Nat) (addr n : Nat)
    (h : ∀ i, i < n → d1 ((addr + i) % 4096) = d2 ((addr + i) % 4096)) :
    ring_load d1 addr n = ring_load d2 addr n := by
  unfold ring_load
  apply List.map_congr_left
  intro i hi
  exact h i (List.mem_range.1 hi)

/-- C6: arena-level round trip. For a start cursor `a < 4096` and a frame `F`
of bytes with `|F| ≤ 1514`, given as any chain of segments, present the arena
that `ethernet_frame_copy_ring_pbuf` leaves, from the byte after the header on
and with length `max |F| 60 + 4`, to `ethernet_frame_to_pbuf` with a receiving
chain that has room for that length. The length passes the receive length
test, the call returns that non-zero length (CRC check passed), and the bytes
copied out are `F`, zero-padded to 60 bytes, followed by the 4 CRC bytes. -/
theorem loopback_round_trip (data : Nat → Nat) (p : pbuf) (a : Nat) (buf : List Nat)
    (_ha : a < 4096) (hn : p.flatten.length ≤ 1514) (hb : ∀ b ∈ p.flatten, b < 256)
    (hbuf : max p.flatten.length 60 + 4 ≤ buf.sum) :
    rx_len_ok (max p.flatten.length 60 + 4) = true ∧
    max p.flatten.length 60 + 4 ≠ 0 ∧
    ∃ segs,
      ethernet_frame_to_pbuf (ethernet_frame_copy_ring_pbuf data p a).1 buf
          (max p.flatten.length 60 + 4) ((a + 2) % 4096)
        = some (segs, max p.flatten.length 60 + 4) ∧
      segs.flatten
        = padded p.flatten ++ crc_bytes (not32 (crc_feed 0xffffffff (padded p.flatten))) := by
  have hbl := frame_with_crc_length p.flatten
  have h2 : (a + 2) % 4096 < 4096 := Nat.mod_lt _ (by decide)
  have hload : ring_load (ethernet_frame_copy_ring_pbuf data p a).1 ((a + 2) % 4096)
      (max p.flatten.length 60 + 4) = frame_with_crc p.flatten := by
    rw [copy_ring_pbuf_data data p a hn hb]
    rw [ring_load_congr _ (ring_store data ((a + 2) % 4096) (frame_with_crc p.flatten))]
    · rw [← hbl]
      exact ring_load_of_store data _ _ h2 (by omega)
    · intro i hi
      have hne1 : ((a + 2) % 4096 + i) % 4096 ≠ (a + 1) % 4096 := by omega
      have hne0 : ((a + 2) % 4096 + i) % 4096 ≠ a := by omega
      rw [Function.update_noteq hne1, Function.update_noteq hne0]
  have hcrc : crc_feed 0xffffffff (frame_with_crc p.flatten) = crc_check_value := by
    unfold frame_with_crc
    rw [crc_feed_append]
    exact crc_feed_residue _ (crc_feed_lt _ (by decide))
  obtain ⟨segs, hs, hflat⟩ := fetch_chain_spec (ethernet_frame_copy_ring_pbuf data p a).1 buf
    { addr := (a + 2) % 4096, total_copy_len := max p.flatten.length 60 + 4, crc := 0xffffffff }
    h2 hbuf
  simp only [hload, hcrc] at hs hflat
  refine ⟨by rw [rx_len_ok_iff]; omega, by omega, segs, ?_, hflat⟩
  unfold ethernet_frame_to_pbuf
  rw [hs]
  simp

/-- Witness for C6: a three-byte frame in two segments, formatted at cursor
4090 and fetched into a chain of two 40-byte segments, comes back with length
64. -/
theorem loopback_round_trip_witness :
    (4090 : Nat) < 4096 ∧ ([[1, 2], [3]] : pbuf).flatten.length ≤ 1514 ∧
    (∀ b ∈ ([[1, 2], [3]] : pbuf).flatten, b < 256) ∧
    max ([[1, 2], [3]] : pbuf).flatten.length 60 + 4 ≤ ([40, 40] : List Nat).sum ∧
    ∃ segs,
      ethernet_frame_to_pbuf (ethernet_frame_copy_ring_pbuf (fun _ => 170) [[1, 2], [3]] 4090).1
          [40, 40] (max ([[1, 2], [3]] : pbuf).flatten.length 60 + 4) ((4090 + 2) % 4096)
        = some (segs, max ([[1, 2], [3]] : pbuf).flatten.length 60 + 4) ∧
      segs.flatten
        = padded ([[1, 2], [3]] : pbuf).flatten
          ++ crc_bytes (not32 (crc_feed 0xffffffff (padded ([[1, 2], [3]] : pbuf).flatten))) :=
  ⟨by decide, by decide, by decide, by decide,
   (loopback_round_trip (fun _ => 170) [[1, 2], [3]] 4090 [40, 40] (by decide) (by decide)
      (by decide) (by decide)).2.2⟩

set_option maxRecDepth 1000000 in
/-- C4, the code at a failing input. With the DMA read cursor at 0 and the
write cursor at 100 (100 bytes queued, 3996 free) the send path computes
`tx_free = 100`. With the read cursor at 0 and the write cursor at 4000 (96
bytes free) it computes 4000, so a 100-byte frame, which needs 106 bytes, is
copied without waiting and its bytes wrap onto cell 0, which the DMA has not
read yet. -/
theorem tx_free_failing_input :
    tx_free 0 100 = 100 ∧
    4096 - (100 + 4096 - 0) % 4096 = 3996 ∧
    tx_free 0 4000 = 4000 ∧
    tx_plen [List.replicate 100 7] = 106 ∧
    netif_rmii_ethernet_output tx_nearly_full [List.replicate 100 7] [0]
        { before_stat := true, after_stat := true, resample := true, last_check := true }
      = some (tx_enqueue tx_nearly_full [List.replicate 100 7]
          { before_stat := true, after_stat := true, resample := true, last_check := true }) ∧
    tx_nearly_full.tx_ring 0 = 170 ∧
    (tx_enqueue tx_nearly_full [List.replicate 100 7]
      { before_stat := true, after_stat := true, resample := true, last_check := true }).tx_ring 0
      = 7 := by
  refine ⟨by decide, by decide, by decide, by decide, ?_, rfl, ?_⟩
  · exact output_of_space _ _ _ _ (by decide)
  · decide

/-! ## MDIO state machine: one transaction edge by edge -/

theorem mdc_falling_fst (s : MdState) (pin : Bool) :
    (netif_rmii_ethernet_mdc_falling s pin).1 = mdc_next s pin := by
  unfold netif_rmii_ethernet_mdc_falling mdc_next
  by_cases h : s.md_state = .MD_DATA ∧ s.md_pin_state = .MD_READ
  · simp only [if_pos h]
  · simp only [if_neg h]

theorem mdc_edge_eq (s : MdState) (pin : Bool) :
    mdc_edge s pin = if s.irq_enabled then mdc_next s pin else s := by
  unfold mdc_edge
  rw [mdc_falling_fst]

theorem sub32_pred (n : Nat) (h1 : 0 < n) (h : n < 2 ^ 32) : sub32 n 1 = n - 1 := by
  unfold sub32
  omega

theorem md_shift_in_snoc (acc : Nat) (d : List Bool) (p : Bool) :
    md_shift_in acc (d ++ [p])
      = u16 ((md_shift_in acc d <<< 1) ||| (if p then 1 else 0)) := by
  simp [md_shift_in, List.foldl_append]

theorem md_at_zero (K : MdState) (h : md_started K) : md_at K 0 [] = K := by
  obtain ⟨h1, h2, h3, h4, h5, h6, h7⟩ := h
  cases K
  simp only at h1 h2 h3 h4 h5 h6 h7
  subst h1 h2 h3 h4 h5 h6 h7
  simp [md_at, md_schedule, md_remaining, md_shift_in]

set_option maxHeartbeats 1000000 in
theorem mdc_edge_md_at_early (K : MdState) (h : md_started K) (k : Nat) (hk : k < 48)
    (p : Bool) : mdc_edge (md_at K k []) p = md_at K (k + 1) [] := by
  obtain ⟨h1, h2, h3, h4, h5, h6, h7⟩ := h
  obtain ⟨clocks, data, st, pst, phy, reg, rw, rdd, wrd, rdr, la, busy, irq⟩ := K
  simp only at h1 h2 h3 h4 h5 h6 h7
  subst h1 h2 h3 h4 h5 h6 h7
  rw [mdc_edge_eq]
  cases rw <;> interval_cases k <;>
    simp [md_at, md_schedule, md_remaining, md_shift_in, mdc_next, md_last_clock, md_sm,
      sub32_pred]

set_option maxHeartbeats 1000000 in
theorem mdc_edge_md_at_data (K : MdState) (h : md_started K) (k : Nat) (hk1 : 48 ≤ k)
    (hk : k < 64) (d : List Bool) (p : Bool) :
    mdc_edge (md_at K k d) p = md_at K (k + 1) (d ++ [p]) := by
  obtain ⟨h1, h2, h3, h4, h5, h6, h7⟩ := h
  obtain ⟨clocks, data, st, pst, phy, reg, rw, rdd, wrd, rdr, la, busy, irq⟩ := K
  simp only at h1 h2 h3 h4 h5 h6 h7
  subst h1 h2 h3 h4 h5 h6 h7
  rw [mdc_edge_eq]
  cases rw <;> interval_cases k <;>
    simp [md_at, md_schedule, md_remaining, md_shift_in_snoc, mdc_next, md_last_clock, md_sm,
      sub32_pred]
  by_cases hreg : reg = 4294967295 <;> simp [hreg]

/-- The state any number `≤ 64` of edges into a transaction, in closed
form. -/
theorem mdc_run_md_at (K : MdState) (h : md_started K) (pins : List Bool) :
    pins.length ≤ 64 → mdc_run K pins = md_at K pins.length (pins.drop 48) := by
  induction pins using List.reverseRecOn with
  | nil => intro _; exact (md_at_zero K h).symm
  | append_singleton l p ih =>
    intro hlen
    rw [List.length_append, List.length_singleton] at hlen
    have hrun : mdc_run K (l ++ [p]) = mdc_edge (mdc_run K l) p := by
      simp [mdc_run, List.foldl_append]
    rw [hrun, ih (by omega), List.length_append, List.length_singleton]
    by_cases hk : l.length < 48
    · rw [List.drop_eq_nil_of_le (by omega : l.length ≤ 48),
        List.drop_eq_nil_of_le (by rw [List.length_append, List.length_singleton]; omega)]
      exact mdc_edge_md_at_early K h _ hk p
    · rw [List.drop_append_of_le_length (by omega)]
      exact mdc_edge_md_at_data K h _ (by omega) (by omega) _ p

theorem mdc_run_append (s : MdState) (xs ys : List Bool) :
    mdc_run s (xs ++ ys) = mdc_run (mdc_run s xs) ys := by
  simp [mdc_run, List.foldl_append]

/-- The 65th edge of a transaction: the machine stays idle and switches the
falling-edge interrupt off. -/
theorem mdc_edge_md_at_idle (K : MdState) (h : md_started K) (d : List Bool) (p : Bool) :
    mdc_edge (md_at K 64 d) p = { md_at K 64 d with md_data := 1, irq_enabled := false } := by
  obtain ⟨h1, h2, h3, h4, h5, h6, h7⟩ := h
  obtain ⟨clocks, data, st, pst, phy, reg, rw, rdd, wrd, rdr, la, busy, irq⟩ := K
  simp only at h1 h2 h3 h4 h5 h6 h7
  subst h1 h2 h3 h4 h5 h6 h7
  rw [mdc_edge_eq]
  simp [md_at, md_schedule, md_remaining, mdc_next, md_last_clock, md_sm, sub32_pred]

theorem mdc_edge_disarmed (s : MdState) (h : s.irq_enabled = false) (p : Bool) :
    mdc_edge s p = s := by
  rw [mdc_edge_eq, h]; rfl

theorem mdc_run_disarmed (pins : List Bool) : ∀ s : MdState, s.irq_enabled = false →
    mdc_run s pins = s := by
  induction pins with
  | nil => intro s _; rfl
  | cons p ps ih =>
    intro s h
    show mdc_run (mdc_edge s p) ps = s
    rw [mdc_edge_disarmed s h, ih s h]

theorem md_kick_started (s : MdState) (addr reg val : Nat) (rd_wr : md_pin_states) :
    md_started (md_kick s addr reg val rd_wr) := by
  simp [md_started, md_kick, md_sm]

theorem md_wait_idle (s : MdState) (pins : List Bool) (h : s.md_sm_busy ≠ 1) :
    md_wait s pins = some (s, pins) := by
  cases pins with
  | nil => simp [md_wait, h]
  | cons p ps => simp [md_wait, h]

/-- The spin loop consumes edges up to the first one after which the busy
flag is clear. -/
theorem md_wait_run (n : Nat) : ∀ (s : MdState) (pins : List Bool), n ≤ pins.length →
    (∀ k, k < n → (mdc_run s (pins.take k)).md_sm_busy = 1) →
    (mdc_run s (pins.take n)).md_sm_busy ≠ 1 →
    md_wait s pins = some (mdc_run s (pins.take n), pins.drop n) := by
  induction n with
  | zero =>
    intro s pins _ _ hn
    exact md_wait_idle s pins hn
  | succ m ih =>
    intro s pins hlen hbusy hn
    cases pins with
    | nil => simp at hlen
    | cons p ps =>
      have h0 : s.md_sm_busy = 1 := hbusy 0 (by omega)
      rw [md_wait, if_pos h0]
      simp only [List.length_cons] at hlen
      have := ih (mdc_edge s p) ps (by omega)
        (fun k hk => by
          have := hbusy (k + 1) (by omega)
          simpa [mdc_run] using this)
        (by simpa [mdc_run] using hn)
      rw [this]
      simp [mdc_run]

theorem md_sm_start_idle (s : MdState) (addr reg val : Nat) (rd_wr : md_pin_states)
    (pins : List Bool) (h : s.md_sm_busy ≠ 1) :
    md_sm_start s addr reg val rd_wr 0 pins = some (0, md_kick s addr reg val rd_wr, pins) := by
  unfold md_sm_start
  rw [if_neg (fun hc => h hc.1), md_wait_idle s pins h]
  simp

theorem md_at_busy (K : MdState) (k : Nat) (d : List Bool) :
    (md_at K k d).md_sm_busy = if k < 64 then 1 else 0 := rfl

/-- A blocking start on an idle machine returns after exactly 64 edges. -/
theorem md_sm_start_blocking (s : MdState) (addr reg val : Nat) (rd_wr : md_pin_states)
    (blk : Nat) (pins : List Bool) (h : s.md_sm_busy ≠ 1) (hblk : blk ≠ 0)
    (hlen : 64 ≤ pins.length) :
    md_sm_start s addr reg val rd_wr blk pins
      = some (0, mdc_run (md_kick s addr reg val rd_wr) (pins.take 64), pins.drop 64) := by
  have hK := md_kick_started s addr reg val rd_wr
  unfold md_sm_start
  rw [if_neg (fun hc => h hc.1), md_wait_idle s pins h]
  simp only [hblk, ne_eq, not_false_eq_true, if_true]
  rw [md_wait_run 64 (md_kick s addr reg val rd_wr) pins hlen]
  · intro k hk
    rw [mdc_run_md_at _ hK _ (by rw [List.length_take]; omega), md_at_busy, List.length_take]
    rw [if_pos (by omega)]
  · rw [mdc_run_md_at _ hK _ (by rw [List.length_take]; omega), md_at_busy, List.length_take]
    rw [if_neg (by omega)]
    decide

theorem md_assemble_snoc (l : List Bool) (p : Bool) :
    md_assemble (l ++ [p]) = 2 * md_assemble l + (if p then 1 else 0) := by
  simp [md_assemble, List.foldl_append]

theorem md_assemble_lt (l : List Bool) : md_assemble l < 2 ^ l.length := by
  induction l using List.reverseRecOn with
  | nil => simp [md_assemble]
  | append_singleton l p ih =>
    rw [md_assemble_snoc, List.length_append, List.length_singleton, Nat.pow_succ]
    split <;> omega

theorem shl_or_bit (x : Nat) (p : Bool) :
    (x <<< 1) ||| (if p then 1 else 0) = 2 * x + (if p then 1 else 0) := by
  rw [Nat.shiftLeft_eq, Nat.mul_comm]
  have h := Nat.mul_add_lt_is_or (i := 1) (b := if p then 1 else 0) (by split <;> decide) x
  simpa using h.symm

/-- The 16-bit accumulator after shifting in a run of samples: earlier
contents move up and fall out of the 16-bit window. -/
theorem md_shift_in_eq (acc : Nat) (l : List Bool) :
    md_shift_in acc l % 2 ^ 16 = (acc * 2 ^ l.length + md_assemble l) % 2 ^ 16 := by
  induction l using List.reverseRecOn with
  | nil => simp [md_shift_in, md_assemble]
  | append_singleton l p ih =>
    have hp : acc * 2 ^ (l ++ [p]).length = 2 * (acc * 2 ^ l.length) := by
      rw [List.length_append, List.length_singleton]; ring
    rw [md_shift_in_snoc, md_assemble_snoc, shl_or_bit, hp]
    unfold u16
    generalize acc * 2 ^ l.length = a at ih ⊢
    generalize md_shift_in acc l = x at ih ⊢
    generalize md_assemble l = y at ih ⊢
    split <;> omega

theorem md_shift_in_sixteen (acc : Nat) (l : List Bool) (h : l.length = 16) :
    md_shift_in acc l = md_assemble l := by
  have hlt := md_assemble_lt l
  have heq := md_shift_in_eq acc l
  have hb : md_shift_in acc l < 2 ^ 16 := by
    rcases List.eq_nil_or_concat l with hnil | ⟨l', p, hl⟩
    · subst hnil; simp at h
    · subst hl
      rw [List.concat_eq_append, md_shift_in_snoc]
      exact Nat.mod_lt _ (by decide)
  rw [h] at hlt heq
  omega

/-! ## MDIO state machine: starting a transaction -/

/-- C11: `md_sm_start` called with `blk = 0` while a transaction is in flight
(`md_sm_busy = 1`) returns `-1` and leaves every variable of the state machine
as it was; called while none is in flight it returns `0`, sets `md_sm_busy`
to 1 and leaves the machine in the preamble state with 32 clocks to go, the
parameters stored. -/
theorem md_sm_start_nonblocking (s : MdState) (addr reg val : Nat) (rd_wr : md_pin_states)
    (pins : List Bool) :
    (s.md_sm_busy = 1 → md_sm_start s addr reg val rd_wr 0 pins = some (-1, s, pins)) ∧
    (s.md_sm_busy = 0 →
      ∃ s', md_sm_start s addr reg val rd_wr 0 pins = some (0, s', pins) ∧
        s'.md_sm_busy = 1 ∧ s'.md_state = .MD_PREAMB ∧ s'.md_clocks = 32 ∧
        s'.md_phy_addr = u32 addr ∧ s'.md_reg_addr = u32 reg ∧ s'.md_wr_data = u32 val ∧
        s'.md_rd_wr = rd_wr) := by
  constructor
  · intro h
    unfold md_sm_start
    rw [if_pos ⟨h, rfl⟩]
  · intro h
    refine ⟨md_kick s addr reg val rd_wr, md_sm_start_idle s addr reg val rd_wr pins (by omega),
      ?_⟩
    simp [md_kick, md_sm]

/-- Witness for C11: a start on the idle start-up state succeeds, and a
second start right after it is turned away with the state untouched. -/
theorem md_sm_start_nonblocking_witness :
    md_init.md_sm_busy = 0 ∧
    (∃ s', md_sm_start md_init 3 1 0 .MD_READ 0 [] = some (0, s', []) ∧
      s'.md_sm_busy = 1 ∧ s'.md_state = .MD_PREAMB ∧ s'.md_clocks = 32) ∧
    (md_kick md_init 3 1 0 .MD_READ).md_sm_busy = 1 ∧
    md_sm_start (md_kick md_init 3 1 0 .MD_READ) 3 2 0 .MD_READ 0 []
      = some (-1, md_kick md_init 3 1 0 .MD_READ, []) :=
  ⟨rfl,
   ((md_sm_start_nonblocking md_init 3 1 0 .MD_READ []).2 rfl).imp
     (fun _ h => ⟨h.1, h.2.1, h.2.2.1, h.2.2.2.1⟩),
   rfl,
   (md_sm_start_nonblocking (md_kick md_init 3 1 0 .MD_READ) 3 2 0 .MD_READ []).1 rfl⟩

/-! ## MDIO state machine: reads, writes and the one-entry cache -/

theorem mdio_read_nb_eq (s : MdState) (addr reg : Nat) (pins : List Bool) :
    netif_rmii_ethernet_mdio_read_nb s addr reg pins
      = some (if u32 reg = s.md_last_addr then s.md_rd_return else 0xffffffff,
          if s.md_sm_busy = 1 then s else md_kick s addr reg 0 .MD_READ, pins) := by
  unfold netif_rmii_ethernet_mdio_read_nb
  by_cases h : s.md_sm_busy = 1
  · have : md_sm_start s addr reg 0 .MD_READ 0 pins = some (-1, s, pins) := by
      unfold md_sm_start
      rw [if_pos ⟨h, rfl⟩]
    rw [this, if_pos h]
    rfl
  · rw [md_sm_start_idle s addr reg 0 .MD_READ pins h, if_neg h]
    rfl

/-- The state 64 edges after a read was started: the machine is free again,
the cache holds the register and the 16 data-phase samples. -/
theorem mdc_run_read_done (K : MdState) (h : md_started K) (hrw : K.md_rd_wr = .MD_READ)
    (pins : List Bool) (hlen : pins.length = 64) :
    (mdc_run K pins).md_sm_busy = 0 ∧
    (mdc_run K pins).md_last_addr = K.md_reg_addr ∧
    (mdc_run K pins).md_rd_return = md_assemble (pins.drop 48) := by
  rw [mdc_run_md_at K h pins (by omega), hlen]
  refine ⟨rfl, ?_, ?_⟩
  · simp [md_at, hrw]
  · have : (pins.drop 48).length = 16 := by rw [List.length_drop]; omega
    simp [md_at, hrw, md_shift_in_sixteen _ _ this]

/-- The state 64 edges after a write was started: the machine is free again,
the cache is empty and the register number is the one passed in. -/
theorem mdc_run_write_done (K : MdState) (h : md_started K) (hrw : K.md_rd_wr = .MD_WRITE)
    (pins : List Bool) (hlen : pins.length = 64) :
    (mdc_run K pins).md_sm_busy = 0 ∧
    (mdc_run K pins).md_last_addr = 0xffffffff ∧
    (mdc_run K pins).md_reg_addr = K.md_reg_addr := by
  rw [mdc_run_md_at K h pins (by omega), hlen]
  refine ⟨rfl, ?_, rfl⟩
  simp [md_at, hrw, h.2.2.2.2.2.1]

/-- C12 (as amended): `netif_rmii_ethernet_mdio_read_nb(addr, reg)` returns
`md_rd_return` when the one-entry cache holds `reg` and the sentinel
`0xffffffff` in every other case; it starts a refresh read when the machine is
idle and changes nothing when it is busy; and right after a read of `reg`
started on an idle machine has completed (64 edges), with no transaction
started since, it returns the 16 bits that read obtained. -/
theorem mdio_read_nb_cache (s : MdState) (addr reg : Nat) (pins : List Bool) :
    (∃ s', netif_rmii_ethernet_mdio_read_nb s addr reg pins
        = some (if u32 reg = s.md_last_addr then s.md_rd_return else 0xffffffff, s', pins) ∧
      (s.md_sm_busy = 1 → s' = s) ∧
      (s.md_sm_busy ≠ 1 →
        s'.md_sm_busy = 1 ∧ s'.md_state = .MD_PREAMB ∧ s'.md_rd_wr = .MD_READ ∧
        s'.md_reg_addr = u32 reg ∧ s'.md_phy_addr = u32 addr)) ∧
    (s.md_sm_busy ≠ 1 → ∀ samples : List Bool, samples.length = 64 →
      ∃ s2, netif_rmii_ethernet_mdio_read_nb
          (mdc_run (md_kick s addr reg 0 .MD_READ) samples) addr reg pins
        = some (md_assemble (samples.drop 48), s2, pins)) := by
  constructor
  · refine ⟨_, mdio_read_nb_eq s addr reg pins, ?_, ?_⟩
    · intro h; rw [if_pos h]
    · intro h; rw [if_neg h]; simp [md_kick, md_sm]
  · intro _ samples hlen
    have hK := md_kick_started s addr reg 0 .MD_READ
    obtain ⟨_, h2, h3⟩ := mdc_run_read_done _ hK (by simp [md_kick, md_sm]) samples hlen
    have hreg : (md_kick s addr reg 0 .MD_READ).md_reg_addr = u32 reg := by
      simp [md_kick, md_sm]
    rw [mdio_read_nb_eq, h2, h3, hreg, if_pos rfl]
    exact ⟨_, rfl⟩

/-- Witness for C12 (as amended): on the start-up state a non-blocking read
of register 1 returns the sentinel and starts a read; 64 edges later, with the
data samples spelling `0x0004`, the next non-blocking read returns 4. -/
theorem mdio_read_nb_cache_witness :
    md_init.md_sm_busy ≠ 1 ∧
    (List.replicate 61 false ++ [true, false, false]).length = 64 ∧
    ∃ s2, netif_rmii_ethernet_mdio_read_nb
        (mdc_run (md_kick md_init 3 1 0 .MD_READ)
          (List.replicate 61 false ++ [true, false, false])) 3 1 []
      = some (md_assemble ((List.replicate 61 false ++ [true, false, false]).drop 48), s2, []) :=
  ⟨by decide, by decide,
   (mdio_read_nb_cache md_init 3 1 []).2 (by decide)
     (List.replicate 61 false ++ [true, false, false]) (by decide)⟩

set_option maxRecDepth 100000 in
/-- Counterexample for C12 as stated: register 1 is read to completion (value
4) and a non-blocking read returns that value and starts a refresh; a further
non-blocking read of register 1, issued while the refresh is in flight,
returns the sentinel although the register has been read before. -/
theorem mdio_read_nb_sentinel_counterexample :
    (mdc_run (md_kick md_init 3 1 0 .MD_READ)
        (List.replicate 61 false ++ [true, false, false])).md_sm_busy = 0 ∧
    (mdc_run (md_kick md_init 3 1 0 .MD_READ)
        (List.replicate 61 false ++ [true, false, false])).md_rd_return = 4 ∧
    netif_rmii_ethernet_mdio_read_nb
        (mdc_run (md_kick md_init 3 1 0 .MD_READ)
          (List.replicate 61 false ++ [true, false, false])) 3 1 []
      = some (4, md_kick (mdc_run (md_kick md_init 3 1 0 .MD_READ)
          (List.replicate 61 false ++ [true, false, false])) 3 1 0 .MD_READ, []) ∧
    netif_rmii_ethernet_mdio_read_nb
        (md_kick (mdc_run (md_kick md_init 3 1 0 .MD_READ)
          (List.replicate 61 false ++ [true, false, false])) 3 1 0 .MD_READ) 3 1 []
      = some (0xffffffff, md_kick (mdc_run (md_kick md_init 3 1 0 .MD_READ)
          (List.replicate 61 false ++ [true, false, false])) 3 1 0 .MD_READ, []) := by
  refine ⟨by decide, by decide, by decide, by decide⟩

/-- C13: if the one-entry cache holds register `r` (a register number below
32) and a write to `r` is started on the idle machine and runs its 64 edges,
then afterwards the machine is free, the cache no longer holds `r`, the
register number of the transaction is still `r`, and a following non-blocking
read of `r` returns the sentinel `0xffffffff`. -/
theorem mdio_write_invalidates_cache (s : MdState) (addr r val : Nat) (pins rest : List Bool)
    (hidle : s.md_sm_busy = 0) (_hcache : s.md_last_addr = r) (hr : r < 32)
    (hlen : pins.length = 64) :
    ∃ K, md_sm_start s addr r val .MD_WRITE 0 rest = some (0, K, rest) ∧
      (mdc_run K pins).md_sm_busy = 0 ∧
      (mdc_run K pins).md_last_addr ≠ r ∧
      (mdc_run K pins).md_reg_addr = r ∧
      ∃ s3, netif_rmii_ethernet_mdio_read_nb (mdc_run K pins) addr r rest
        = some (0xffffffff, s3, rest) := by
  have hK := md_kick_started s addr r val .MD_WRITE
  have hu : u32 r = r := Nat.mod_eq_of_lt (by omega)
  have hreg : (md_kick s addr r val .MD_WRITE).md_reg_addr = r := by
    simp [md_kick, md_sm, hu]
  obtain ⟨h1, h2, h3⟩ := mdc_run_write_done _ hK (by simp [md_kick, md_sm]) pins hlen
  refine ⟨_, md_sm_start_idle s addr r val .MD_WRITE rest (by omega), h1, ?_, ?_, ?_⟩
  · rw [h2]; omega
  · rw [h3, hreg]
  · rw [mdio_read_nb_eq, h2, hu, if_neg (by omega)]
    exact ⟨_, rfl⟩

set_option maxRecDepth 100000 in
/-- Witness for C13: register 1 is read to completion, so that the cache
holds it, and then written. -/
theorem mdio_write_invalidates_cache_witness :
    (mdc_run (md_kick md_init 3 1 0 .MD_READ) (List.replicate 64 true)).md_sm_busy = 0 ∧
    (mdc_run (md_kick md_init 3 1 0 .MD_READ) (List.replicate 64 true)).md_last_addr = 1 ∧
    ∃ K, md_sm_start (mdc_run (md_kick md_init 3 1 0 .MD_READ) (List.replicate 64 true))
        3 1 0x1234 .MD_WRITE 0 [] = some (0, K, []) ∧
      (mdc_run K (List.replicate 64 false)).md_last_addr ≠ 1 ∧
      (mdc_run K (List.replicate 64 false)).md_reg_addr = 1 :=
  ⟨by decide, by decide,
   (mdio_write_invalidates_cache
      (mdc_run (md_kick md_init 3 1 0 .MD_READ) (List.replicate 64 true)) 3 1 0x1234
      (List.replicate 64 false) [] (by decide) (by decide) (by decide) (by decide)).imp
     (fun _ h => ⟨h.1, h.2.2.1, h.2.2.2.1⟩)⟩

/-- C14: for a read of register `reg` started on an idle machine, after the
64th falling edge `md_sm_busy` is 0, `md_last_addr` is `reg` and
`md_rd_return` is the 16 samples of the data-phase edges assembled
most-significant bit first, at most `0xffff`, whatever `md_rd_data` held
before; the blocking `netif_rmii_ethernet_mdio_read` returns exactly this
value, having consumed those 64 edges. -/
theorem mdio_read_transaction (s : MdState) (addr reg : Nat) (pins rest : List Bool)
    (hidle : s.md_sm_busy = 0) (hreg : reg < 2 ^ 32) (hlen : pins.length = 64) :
    (∃ K, md_sm_start s addr reg 0 .MD_READ 0 [] = some (0, K, []) ∧
      (mdc_run K pins).md_sm_busy = 0 ∧
      (mdc_run K pins).md_last_addr = reg ∧
      (mdc_run K pins).md_rd_return = md_assemble (pins.drop 48)) ∧
    md_assemble (pins.drop 48) ≤ 0xffff ∧
    ∃ s', netif_rmii_ethernet_mdio_read s addr reg (pins ++ rest)
      = some (md_assemble (pins.drop 48), s', rest) := by
  have hK := md_kick_started s addr reg 0 .MD_READ
  have hu : u32 reg = reg := Nat.mod_eq_of_lt hreg
  have hk : (md_kick s addr reg 0 .MD_READ).md_reg_addr = reg := by
    simp [md_kick, md_sm, hu]
  obtain ⟨h1, h2, h3⟩ := mdc_run_read_done _ hK (by simp [md_kick, md_sm]) pins hlen
  have hd : (pins.drop 48).length = 16 := by rw [List.length_drop]; omega
  have hv : md_assemble (pins.drop 48) < 2 ^ 16 := by
    have := md_assemble_lt (pins.drop 48)
    rwa [hd] at this
  refine ⟨⟨_, md_sm_start_idle s addr reg 0 .MD_READ [] (by omega), h1, by rw [h2, hk], h3⟩,
    by omega, ?_⟩
  unfold netif_rmii_ethernet_mdio_read
  rw [md_sm_start_blocking s addr reg 0 .MD_READ 1 (pins ++ rest) (by omega) (by decide)
    (by rw [List.length_append]; omega)]
  have ht : (pins ++ rest).take 64 = pins := by
    rw [← hlen]; exact List.take_left _ _
  have hdr : (pins ++ rest).drop 64 = rest := by
    rw [← hlen]; exact List.drop_left _ _
  have hu16 : u16 (md_assemble (pins.drop 48)) = md_assemble (pins.drop 48) :=
    Nat.mod_eq_of_lt hv
  rw [ht, hdr, Option.map_some']
  simp only [h3, hu16]
  exact ⟨_, rfl⟩

set_option maxRecDepth 100000 in
/-- Witness for C14: a read of register 1 on the start-up state whose data
samples spell `0x0004` returns 4 and leaves the two further edges unread. -/
theorem mdio_read_transaction_witness :
    md_init.md_sm_busy = 0 ∧ (1 : Nat) < 2 ^ 32 ∧
    (List.replicate 61 false ++ [true, false, false]).length = 64 ∧
    ∃ s', netif_rmii_ethernet_mdio_read md_init 3 1
        ((List.replicate 61 false ++ [true, false, false]) ++ [true, true])
      = some (md_assemble ((List.replicate 61 false ++ [true, false, false]).drop 48),
          s', [true, true]) :=
  ⟨rfl, by decide, by decide,
   (mdio_read_transaction md_init 3 1 (List.replicate 61 false ++ [true, false, false])
      [true, true] rfl (by decide) (by decide)).2.2⟩

theorem md_at_put (K : MdState) (k : Nat) (d : List Bool) (p : Bool)
    (hns : md_schedule k ≠ .MD_DATA) :
    (netif_rmii_ethernet_mdc_falling (md_at K k d) p).2.put
      = some (if (md_at K k d).md_data &&& (1 <<< (sub32 (md_remaining k) 1)) ≠ 0
          then 1 else 0) := by
  unfold netif_rmii_ethernet_mdc_falling
  have hst : (md_at K k d).md_state = md_schedule k := rfl
  have hcl : (md_at K k d).md_clocks = md_remaining k := rfl
  rw [hst, if_neg (fun h => hns h.1), hcl]

/-- C15 (as amended): a transaction started on an idle machine, read or
write, takes exactly 65 handled clock edges until the machine is back in idle
with the falling-edge interrupt disarmed: 32 (preamble) + 2 (start of frame) +
2 (opcode) + 5 (PHY address) + 5 (register address) + 2 (turnaround) + 16
(data) + 1 (idle); there is no idle edge at the start, the interrupt stays
armed and `md_sm_busy` set up to the 64th edge, further edges change nothing,
and the opcode bits driven are 1,0 for a read and 0,1 for a write. -/
theorem md_transaction_shape (s : MdState) (addr reg val : Nat) (rd_wr : md_pin_states)
    (pins : List Bool) (hidle : s.md_sm_busy = 0) (hlen : pins.length = 65) :
    ∃ K, md_sm_start s addr reg val rd_wr 0 [] = some (0, K, []) ∧
      (∀ k, k ≤ 64 →
        (mdc_run K (pins.take k)).md_state = md_schedule k ∧
        (mdc_run K (pins.take k)).irq_enabled = true ∧
        ((mdc_run K (pins.take k)).md_sm_busy = 1 ↔ k < 64)) ∧
      (mdc_run K pins).md_state = .MD_IDLE ∧
      (mdc_run K pins).irq_enabled = false ∧
      (mdc_run K pins).md_sm_busy = 0 ∧
      (∀ more, mdc_run K (pins ++ more) = mdc_run K pins) ∧
      (∀ p, (netif_rmii_ethernet_mdc_falling (mdc_run K (pins.take 34)) p).2.put
        = some (if rd_wr = .MD_READ then 1 else 0)) ∧
      (∀ p, (netif_rmii_ethernet_mdc_falling (mdc_run K (pins.take 35)) p).2.put
        = some (if rd_wr = .MD_READ then 0 else 1)) ∧
      (List.range 65).map md_schedule
        = List.replicate 32 .MD_PREAMB ++ List.replicate 2 .MD_SOF
          ++ List.replicate 2 .MD_OPCODE ++ List.replicate 5 .MD_PHY_ADDR
          ++ List.replicate 5 .MD_REG_ADDR ++ List.replicate 2 .MD_TURN
          ++ List.replicate 16 .MD_DATA ++ [.MD_IDLE] := by
  have hK := md_kick_started s addr reg val rd_wr
  have hrw : (md_kick s addr reg val rd_wr).md_rd_wr = rd_wr := by simp [md_kick, md_sm]
  have hat : ∀ k, k ≤ 64 → mdc_run (md_kick s addr reg val rd_wr) (pins.take k)
      = md_at (md_kick s addr reg val rd_wr) k ((pins.take k).drop 48) := by
    intro k hk
    have hl : (pins.take k).length = k := by rw [List.length_take]; omega
    rw [mdc_run_md_at _ hK _ (by omega), hl]
  obtain ⟨x, hx⟩ : ∃ x, pins.drop 64 = [x] :=
    List.length_eq_one.1 (by rw [List.length_drop]; omega)
  have hsplit : pins = pins.take 64 ++ [x] := by
    rw [← hx, List.take_append_drop]
  have hend : mdc_run (md_kick s addr reg val rd_wr) pins
      = { md_at (md_kick s addr reg val rd_wr) 64 ((pins.take 64).drop 48) with
          md_data := 1, irq_enabled := false } := by
    have hstep : mdc_run (md_kick s addr reg val rd_wr) pins
        = mdc_edge (mdc_run (md_kick s addr reg val rd_wr) (pins.take 64)) x := by
      conv_lhs => rw [hsplit]
      rw [mdc_run_append]
      rfl
    rw [hstep, hat 64 (by omega), mdc_edge_md_at_idle _ hK]
  refine ⟨_, md_sm_start_idle s addr reg val rd_wr [] (by omega), ?_, ?_, ?_, ?_, ?_, ?_, ?_,
    by decide⟩
  · intro k hk
    rw [hat k hk]
    refine ⟨rfl, hK.2.2.2.2.2.2, ?_⟩
    rw [md_at_busy]
    by_cases hk64 : k < 64
    · rw [if_pos hk64]
      exact ⟨fun _ => hk64, fun _ => rfl⟩
    · rw [if_neg hk64]
      exact ⟨fun h => absurd h (by decide), fun h => absurd h hk64⟩
  · rw [hend]; rfl
  · rw [hend]
  · rw [hend]; rfl
  · intro more
    rw [mdc_run_append, mdc_run_disarmed more _ (by rw [hend])]
  · intro p
    rw [hat 34 (by omega), md_at_put _ _ _ _ (show md_schedule _ ≠ md_states.MD_DATA by decide)]
    cases rd_wr <;> simp [md_at, hrw, md_remaining, sub32_pred]
  · intro p
    rw [hat 35 (by omega), md_at_put _ _ _ _ (show md_schedule _ ≠ md_states.MD_DATA by decide)]
    cases rd_wr <;> simp [md_at, hrw, md_remaining, sub32_pred]

set_option maxRecDepth 100000 in
/-- Witness for C15 (as amended): a read of register 1 at PHY address 3 from
the start-up state is back in idle with the interrupt disarmed after 65
edges. -/
theorem md_transaction_shape_witness :
    md_init.md_sm_busy = 0 ∧ (List.replicate 65 true).length = 65 ∧
    ∃ K, md_sm_start md_init 3 1 0 .MD_READ 0 [] = some (0, K, []) ∧
      (mdc_run K (List.replicate 65 true)).md_state = .MD_IDLE ∧
      (mdc_run K (List.replicate 65 true)).irq_enabled = false :=
  ⟨rfl, by decide,
   (md_transaction_shape md_init 3 1 0 .MD_READ (List.replicate 65 true) rfl (by decide)).imp
     (fun _ h => ⟨h.1, h.2.2.1, h.2.2.2.1⟩)⟩

set_option maxRecDepth 100000 in
/-- Counterexample for C15 as stated: for a read started on the start-up
state the interrupt is still armed after 64 edges and the machine is idle
with the interrupt disarmed after 65 edges, not 66; a 66th edge is not
handled at all. The start state takes no edge: `md_sm_start` leaves the
machine in the preamble state. -/
theorem md_transaction_edges_counterexample :
    md_sm_start md_init 3 1 0 .MD_READ 0 []
      = some (0, md_kick md_init 3 1 0 .MD_READ, []) ∧
    (md_kick md_init 3 1 0 .MD_READ).md_state = .MD_PREAMB ∧
    (mdc_run (md_kick md_init 3 1 0 .MD_READ) (List.replicate 64 true)).irq_enabled = true ∧
    (mdc_run (md_kick md_init 3 1 0 .MD_READ) (List.replicate 65 true)).md_state = .MD_IDLE ∧
    (mdc_run (md_kick md_init 3 1 0 .MD_READ) (List.replicate 65 true)).irq_enabled = false ∧
    mdc_run (md_kick md_init 3 1 0 .MD_READ) (List.replicate 66 true)
      = mdc_run (md_kick md_init 3 1 0 .MD_READ) (List.replicate 65 true) := by
  refine ⟨by decide, by decide, by decide, by decide, by decide, by decide⟩

/-! ## Initialisation: PHY discovery -/

theorem phy_probe_none (mdio_read : Nat → Nat) (phy_address : Nat) (fuel : Nat) :
    ∀ i, (∀ j, i ≤ j → j < i + fuel → mdio_read j = 0xffff) →
      phy_probe mdio_read phy_address fuel i = phy_address := by
  induction fuel with
  | zero => intro i _; rfl
  | succ f ih =>
    intro i h
    rw [phy_probe, if_neg (by simp [h i (Nat.le_refl i) (by omega)])]
    exact ih (i + 1) (fun j h1 h2 => h j (by omega) (by omega))

theorem phy_probe_first (mdio_read : Nat → Nat) (phy_address : Nat) (fuel : Nat) :
    ∀ i m, i ≤ m → m < i + fuel → mdio_read m ≠ 0xffff →
      (∀ j, i ≤ j → j < m → mdio_read j = 0xffff) →
      phy_probe mdio_read phy_address fuel i = m := by
  induction fuel with
  | zero => intro i m h1 h2; omega
  | succ f ih =>
    intro i m h1 h2 hm hbefore
    rw [phy_probe]
    by_cases him : i = m
    · subst him
      rw [if_pos hm]
    · rw [if_neg (by simp [hbefore i (Nat.le_refl i) (by omega)])]
      exact ih (i + 1) m (by omega) (by omega) hm (fun j h3 h4 => hbefore j (by omega) h4)

/-- C16: with the register-0 read given by `resp` and `phy_address` initially
`0xffff`, the discovery fails with `ERR_IF` exactly when `resp i = 0xffff`
for all 32 addresses, and then `phy_address` is still `0xffff`; otherwise it
succeeds with `phy_address` the smallest `i` with `resp i ≠ 0xffff`, a value
in `[0, 31]`. -/
theorem low_init_phy_discovery (resp : Nat → Nat) :
    ((netif_rmii_ethernet_low_init_phy resp 0xffff).1 = .ERR_IF ↔
      ∀ i, i < 32 → resp i = 0xffff) ∧
    ((∀ i, i < 32 → resp i = 0xffff) →
      netif_rmii_ethernet_low_init_phy resp 0xffff = (.ERR_IF, 0xffff)) ∧
    (∀ i, i < 32 → resp i ≠ 0xffff → (∀ j, j < i → resp j = 0xffff) →
      netif_rmii_ethernet_low_init_phy resp 0xffff = (.ERR_OK, i)) ∧
    ((netif_rmii_ethernet_low_init_phy resp 0xffff).1 = .ERR_OK →
      (netif_rmii_ethernet_low_init_phy resp 0xffff).2 < 32) := by
  have hnone : (∀ i, i < 32 → resp i = 0xffff) →
      netif_rmii_ethernet_low_init_phy resp 0xffff = (.ERR_IF, 0xffff) := by
    intro h
    unfold netif_rmii_ethernet_low_init_phy
    rw [phy_probe_none resp 0xffff 32 0 (fun j _ h2 => h j (by omega))]
    rfl
  have hfirst : ∀ i, i < 32 → resp i ≠ 0xffff → (∀ j, j < i → resp j = 0xffff) →
      netif_rmii_ethernet_low_init_phy resp 0xffff = (.ERR_OK, i) := by
    intro i hi hr hb
    unfold netif_rmii_ethernet_low_init_phy
    rw [phy_probe_first resp 0xffff 32 0 i (by omega) (by omega) hr (fun j _ h2 => hb j h2)]
    simp only
    rw [if_neg (by omega)]
  have hcases : (∀ i, i < 32 → resp i = 0xffff) ∨
      ∃ i, i < 32 ∧ resp i ≠ 0xffff ∧ ∀ j, j < i → resp j = 0xffff := by
    by_cases hall : ∀ i, i < 32 → resp i = 0xffff
    · exact Or.inl hall
    · right
      have hex : ∃ i, i < 32 ∧ resp i ≠ 0xffff := by
        by_contra hne
        exact hall (fun i hi => by
          by_contra hr
          exact hne ⟨i, hi, hr⟩)
      refine ⟨Nat.find hex, (Nat.find_spec hex).1, (Nat.find_spec hex).2, ?_⟩
      intro j hj
      by_contra hr
      exact Nat.find_min hex hj ⟨by have := (Nat.find_spec hex).1; omega, hr⟩
  refine ⟨?_, hnone, hfirst, ?_⟩
  · constructor
    · intro herr
      rcases hcases with hall | ⟨i, hi, hr, hb⟩
      · exact hall
      · rw [hfirst i hi hr hb] at herr
        cases herr
    · intro hall
      rw [hnone hall]
  · intro hok
    rcases hcases with hall | ⟨i, hi, hr, hb⟩
    · rw [hnone hall] at hok
      cases hok
    · rw [hfirst i hi hr hb]
      exact hi

/-- Witness for C16: a PHY that answers at address 3 only is found at
address 3. -/
theorem low_init_phy_discovery_witness :
    (3 : Nat) < 32 ∧ (fun i => if i = 3 then 0x3100 else 0xffff) 3 ≠ 0xffff ∧
    netif_rmii_ethernet_low_init_phy (fun i => if i = 3 then 0x3100 else 0xffff) 0xffff
      = (.ERR_OK, 3) :=
  ⟨by decide, by decide,
   (low_init_phy_discovery (fun i => if i = 3 then 0x3100 else 0xffff)).2.2.1 3 (by decide)
     (by decide) (fun j hj => by
       have : j ≠ 3 := by omega
       simp [this])⟩

/-! ## Poll loop: link status -/

theorem link_bit_eq (v : Nat) : (v &&& 0x04) >>> 2 = v / 4 % 2 := by
  have h : (v &&& 0x04) >>> 2 = (v >>> 2) &&& 1 := by
    apply Nat.eq_of_testBit_eq
    intro i
    simp only [Nat.testBit_shiftRight, Nat.testBit_and]
    cases i with
    | zero =>
      have h42 : (4 : Nat).testBit 2 = true := by decide
      have h10 : (1 : Nat).testBit 0 = true := by decide
      simp [h42, h10]
    | succ j =>
      have h4 : (4 : Nat).testBit (2 + (j + 1)) = false := by
        rw [show (4 : Nat) = 2 ^ 2 from rfl, Nat.testBit_two_pow]
        simp
      have h1 : (1 : Nat).testBit (j + 1) = false := by
        rw [show (1 : Nat) = 2 ^ 0 from rfl, Nat.testBit_two_pow]
        simp
      simp [h4, h1]
  rw [h, Nat.and_one_is_mod, Nat.shiftRight_eq_div_pow]

theorem poll_link_calls_eq (v : Nat) (link_up : Bool) (hv : v ≠ 0xffffffff) :
    poll_link_calls v link_up =
      if v / 4 % 2 = 1 ∧ link_up = false then [.netif_set_link_up]
      else if v / 4 % 2 = 0 ∧ link_up = true then [.netif_set_link_down]
      else [] := by
  unfold poll_link_calls netif_is_link_up
  rw [if_pos hv, link_bit_eq]
  have hb : v / 4 % 2 = 0 ∨ v / 4 % 2 = 1 := by omega
  have hu : u16 (v / 4 % 2) = v / 4 % 2 := Nat.mod_eq_of_lt (by omega)
  simp only [hu]
  rcases hb with h | h <;> cases link_up <;> simp [h]

/-- C17: in a call of `netif_rmii_ethernet_poll` whose non-blocking status
read yields `v`: if the MDIO deadline has passed (`diff_time < 0`) the calls
made are those for `v`, namely, when `v ≠ 0xffffffff`, `netif_set_link_up`
exactly once iff bit 2 of `v` is 1 and the link state is down,
`netif_set_link_down` exactly once iff bit 2 is 0 and the link state is up,
and none when they agree, and none at all when `v` is the no-data sentinel;
if the deadline has not passed no call is made and the MDIO machine is not
touched. -/
theorem poll_link_update (s s' : MdState) (phy_address v : Nat) (link_up : Bool)
    (pins pins' : List Bool) (diff_time : Int)
    (hread : netif_rmii_ethernet_mdio_read_nb s phy_address 1 pins = some (v, s', pins')) :
    (diff_time < 0 →
      netif_rmii_ethernet_poll_link diff_time s phy_address link_up pins
        = some (poll_link_calls v link_up, s', pins')) ∧
    (¬ diff_time < 0 →
      netif_rmii_ethernet_poll_link diff_time s phy_address link_up pins
        = some ([], s, pins)) ∧
    (v ≠ 0xffffffff →
      (poll_link_calls v link_up).count .netif_set_link_up
        = (if v / 4 % 2 = 1 ∧ link_up = false then 1 else 0) ∧
      (poll_link_calls v link_up).count .netif_set_link_down
        = (if v / 4 % 2 = 0 ∧ link_up = true then 1 else 0) ∧
      (poll_link_calls v link_up).length ≤ 1) ∧
    (v = 0xffffffff → poll_link_calls v link_up = []) := by
  refine ⟨?_, ?_, ?_, ?_⟩
  · intro hd
    unfold netif_rmii_ethernet_poll_link
    rw [if_pos hd, hread]
    rfl
  · intro hd
    unfold netif_rmii_ethernet_poll_link
    rw [if_neg hd]
  · intro hv
    rw [poll_link_calls_eq _ _ hv]
    have hb : v / 4 % 2 = 0 ∨ v / 4 % 2 = 1 := by omega
    rcases hb with h | h <;> cases link_up <;> simp [h]
  · intro hv
    unfold poll_link_calls
    rw [if_neg (by simp [hv])]

set_option maxRecDepth 100000 in
/-- Witness for C17: the status register was read as `0x0004` (link bit
set), the stack holds the link down and the deadline has passed: exactly one
call, `netif_set_link_up`. -/
theorem poll_link_update_witness :
    netif_rmii_ethernet_mdio_read_nb
        (mdc_run (md_kick md_init 3 1 0 .MD_READ)
          (List.replicate 61 false ++ [true, false, false])) 3 1 []
      = some (4, md_kick (mdc_run (md_kick md_init 3 1 0 .MD_READ)
          (List.replicate 61 false ++ [true, false, false])) 3 1 0 .MD_READ, []) ∧
    ((-1 : Int) < 0) ∧
    netif_rmii_ethernet_poll_link (-1)
        (mdc_run (md_kick md_init 3 1 0 .MD_READ)
          (List.replicate 61 false ++ [true, false, false])) 3 false []
      = some (poll_link_calls 4 false,
          md_kick (mdc_run (md_kick md_init 3 1 0 .MD_READ)
            (List.replicate 61 false ++ [true, false, false])) 3 1 0 .MD_READ, []) ∧
    poll_link_calls 4 false = [.netif_set_link_up] :=
  ⟨by decide, by decide,
   (poll_link_update (mdc_run (md_kick md_init 3 1 0 .MD_READ)
      (List.replicate 61 false ++ [true, false, false])) _ 3 4 false [] [] (-1)
      (by decide)).1 (by decide),
   by decide⟩

/-! ## Poll loop: handing received frames to the network stack -/

/-- Whatever the CRC check says, a frame that was fetched is handed to the
stack's input entry point: the call comes before the test of `rx_len`. -/
theorem poll_packet_always_input (rx_ring : Nat → Nat) (pbuf_alloc : Nat → Option (List Nat))
    (input_ok : Nat → Bool) (w : PollWorld) (d : pkt_ptr_t) (segs : List (List Nat))
    (rx_len : Nat)
    (h : ethernet_frame_to_pbuf rx_ring ((pbuf_alloc w.n).getD []) d.pkt_len d.pkt_addr
      = some (segs, rx_len)) :
    ∃ w', poll_packet rx_ring pbuf_alloc input_ok w d = some w' ∧
      PollEvent.input segs ∈ w'.trace := by
  unfold poll_packet
  simp only [h]
  refine ⟨_, rfl, ?_⟩
  by_cases h1 : input_ok w.n = true <;> by_cases h2 : rx_len = 0 <;> simp [h1, h2]

set_option maxRecDepth 1000000 in
/-- C18, the code at a failing input. One 64-byte frame of zero bytes is
pending (its CRC check fails), the allocator returns a 64-byte buffer and the
stack accepts what it is given: the drain hands the buffer with the corrupt
frame to the stack's input entry point, and only afterwards reports the CRC
error and frees the buffer it has already delivered. -/
theorem poll_delivers_crc_failed_frame :
    ethernet_frame_to_pbuf (fun _ => 0) [64] 64 0 = some ([List.replicate 64 0], 0) ∧
    (netif_rmii_ethernet_poll_rx (fun _ => 0) (fun _ => some [64]) (fun _ => true)
        (netif_rmii_ethernet_eof_isr rx_init 64)).2
      = some { n := 1,
               trace := [.pbuf_alloc 64 (some [64]), .input [List.replicate 64 0],
                         .print_star, .pbuf_free] } := by
  refine ⟨by decide, by decide⟩

set_option maxRecDepth 1000000 in
/-- C19, the code at a failing input. Two 64-byte frames are pending and the
allocator returns no buffer for the first: `ethernet_frame_to_pbuf` is called
with the null buffer and dereferences it, so the drain does not get to drop
the frame and go on to the second descriptor. -/
theorem poll_alloc_failure_null_deref :
    ethernet_frame_to_pbuf (fun _ => 0) [] 64 0 = none ∧
    drained (eof_isr_run rx_init [64, 128])
      = [{ pkt_addr := 0, pkt_len := 64 }, { pkt_addr := 64, pkt_len := 64 }] ∧
    (netif_rmii_ethernet_poll_rx (fun _ => 0)
        (fun n => if n = 0 then none else some [64]) (fun _ => true)
        (eof_isr_run rx_init [64, 128])).2 = none := by
  refine ⟨by decide, by decide, by decide⟩

set_option maxRecDepth 1000000 in
/-- C20, the code at a failing input. One 64-byte frame of zero bytes is
pending (its CRC check fails) and the stack's input entry point reports a
failure: the buffer is freed twice, once for the failed delivery and once for
the CRC error. With a well-formed frame and a failed delivery it is freed
once. -/
theorem poll_double_free :
    (netif_rmii_ethernet_poll_rx (fun _ => 0) (fun _ => some [64]) (fun _ => false)
        (netif_rmii_ethernet_eof_isr rx_init 64)).2
      = some { n := 1,
               trace := [.pbuf_alloc 64 (some [64]), .input [List.replicate 64 0],
                         .pbuf_free, .print_star, .pbuf_free] } ∧
    ((netif_rmii_ethernet_poll_rx rx_ring_good_frame (fun _ => some [64]) (fun _ => false)
        (netif_rmii_ethernet_eof_isr rx_init 64)).2.map
          (fun w => w.trace.count .pbuf_free)) = some 1 := by
  refine ⟨by decide, by decide⟩

/-! ## CRC engine: the table against the bit-serial reference -/

set_option maxRecDepth 1000000 in
theorem crc32Lookup_bit_serial : ∀ i, i < 256 → crc32LookupAt i = crc_bit_steps 8 i := by
  decide

set_option maxRecDepth 100000 in
theorem crc32Lookup_length : crc32Lookup.length = 256 := by
  decide

theorem crc_bit_step_xor (x y : Nat) :
    crc_bit_step (x ^^^ y) = crc_bit_step x ^^^ crc_bit_step y := by
  unfold crc_bit_step
  rw [shiftRight_xor, Nat.xor_mod_two_eq]
  have hx : x % 2 = 0 ∨ x % 2 = 1 := by omega
  have hy : y % 2 = 0 ∨ y % 2 = 1 := by omega
  have hassoc : ∀ a b c d : Nat, (a ^^^ b) ^^^ (c ^^^ d) = (a ^^^ c) ^^^ (b ^^^ d) := by
    intro a b c d
    rw [Nat.xor_assoc, Nat.xor_assoc, ← Nat.xor_assoc b c d, Nat.xor_comm b c,
      Nat.xor_assoc c b d]
  rcases hx with hx | hx <;> rcases hy with hy | hy
  · have h : (x + y) % 2 = 0 := by omega
    simp [h, hx, hy]
  · have h : (x + y) % 2 = 1 := by omega
    simp [h, hx, hy, Nat.xor_assoc]
  · have h : (x + y) % 2 = 1 := by omega
    simp only [h, hx, hy, if_true]
    rw [hassoc]
    simp
  · have h : (x + y) % 2 = 0 := by omega
    simp only [h, hx, hy, if_true]
    rw [hassoc]
    simp

theorem crc_bit_steps_xor (n : Nat) : ∀ x y : Nat,
    crc_bit_steps n (x ^^^ y) = crc_bit_steps n x ^^^ crc_bit_steps n y := by
  induction n with
  | zero => intro x y; rfl
  | succ k ih =>
    intro x y
    show crc_bit_steps k (crc_bit_step (x ^^^ y)) = _
    rw [crc_bit_step_xor, ih]
    rfl

theorem crc_bit_steps_high (n : Nat) : ∀ x : Nat, x % 2 ^ n = 0 →
    crc_bit_steps n x = x >>> n := by
  induction n with
  | zero => intro x _; rfl
  | succ k ih =>
    intro x hx
    have hpow : 2 ^ (k + 1) = 2 * 2 ^ k := by ring
    have hpos : 0 < 2 ^ k := Nat.two_pow_pos k
    have heven : x % 2 = 0 := by
      rw [hpow] at hx
      have := Nat.mod_mul_right_mod x 2 (2 ^ k)
      omega
    have hstep : crc_bit_step x = x >>> 1 := by
      unfold crc_bit_step
      simp [heven]
    have hhalf : (x >>> 1) % 2 ^ k = 0 := by
      rw [Nat.shiftRight_eq_div_pow, Nat.pow_one]
      rw [hpow] at hx
      have hdvd : 2 * 2 ^ k ∣ x := Nat.dvd_of_mod_eq_zero hx
      obtain ⟨m, hm⟩ := hdvd
      rw [hm, Nat.mul_assoc, Nat.mul_div_cancel_left _ (by decide : 0 < 2)]
      exact Nat.mul_mod_right _ _
    show crc_bit_steps k (crc_bit_step x) = _
    rw [hstep, ih _ hhalf, ← Nat.shiftRight_add, Nat.add_comm]

/-- The table-driven update over one byte is eight bit-serial steps on the
accumulator with the byte folded into its low bits. -/
theorem crc_update_bit_serial (crc b : Nat) (hb : b < 256) :
    crc_update crc b = crc_bit_steps 8 (crc ^^^ b) := by
  have hb8 : b &&& 0xff = b := by
    rw [show (0xff : Nat) = 2 ^ 8 - 1 from rfl, Nat.and_pow_two_sub_one_eq_mod]
    exact Nat.mod_eq_of_lt hb
  have hlo : (crc ^^^ b) &&& 0xff = (crc &&& 0xff) ^^^ b := by
    rw [Nat.and_xor_distrib_right, hb8]
  have hlolt : (crc &&& 0xff) ^^^ b < 256 :=
    Nat.xor_lt_two_pow (n := 8) (Nat.and_lt_two_pow _ (by decide)) hb
  have hsplit : crc ^^^ b
      = ((crc ^^^ b) ^^^ ((crc ^^^ b) &&& 0xff)) ^^^ ((crc ^^^ b) &&& 0xff) := by
    rw [Nat.xor_assoc, Nat.xor_self, Nat.xor_zero]
  have hhi : ((crc ^^^ b) ^^^ ((crc ^^^ b) &&& 0xff)) % 2 ^ 8 = 0 := by
    rw [← Nat.and_pow_two_sub_one_eq_mod, Nat.and_xor_distrib_right, Nat.and_assoc]
    simp
  have hshift : ((crc ^^^ b) ^^^ ((crc ^^^ b) &&& 0xff)) >>> 8 = crc >>> 8 := by
    rw [shiftRight_xor, shiftRight_xor, hlo]
    have h1 : b >>> 8 = 0 := by
      rw [Nat.shiftRight_eq_div_pow]; exact Nat.div_eq_of_lt hb
    have h2 : ((crc &&& 0xff) ^^^ b) >>> 8 = 0 := by
      rw [Nat.shiftRight_eq_div_pow]; exact Nat.div_eq_of_lt hlolt
    rw [h1, h2, Nat.xor_zero, Nat.xor_zero]
  conv_rhs => rw [hsplit]
  rw [crc_bit_steps_xor, crc_bit_steps_high 8 _ hhi, hshift, hlo,
    ← crc32Lookup_bit_serial _ hlolt]
  rfl

/-- C24: for every index `i` in 0..255 the table entry `crc32Lookup[i]` is
the value obtained from `c = i` by eight iterations of the reflected CRC32
step `c := (c >> 1) xor (0xEDB88320 if c is odd, else 0)`, and the
table-driven update over a byte equals eight such bit-serial steps on the
accumulator xor-ed with the byte. -/
theorem crc_table_bit_serial :
    (∀ i, i < 256 → crc32Lookup[i]? = some (crc_bit_steps 8 i)) ∧
    (∀ crc b, b < 256 → crc_update crc b = crc_bit_steps 8 (crc ^^^ b)) ∧
    (∀ c, crc_bit_step c = (c >>> 1) ^^^ (if c % 2 = 1 then 0xEDB88320 else 0)) := by
  refine ⟨?_, crc_update_bit_serial, fun c => rfl⟩
  intro i hi
  have hlen := crc32Lookup_length
  have h := crc32Lookup_bit_serial i hi
  unfold crc32LookupAt at h
  rw [List.getD_eq_getElem?_getD, List.getElem?_eq_getElem (by omega)] at h
  rw [List.getElem?_eq_getElem (by omega)]
  simpa using h

set_option maxRecDepth 100000 in
/-- Witness for C24: entry 1 of the table, and the update of the initial
accumulator over the byte `0x31`. -/
theorem crc_table_bit_serial_witness :
    (1 : Nat) < 256 ∧ crc32Lookup[1]? = some (crc_bit_steps 8 1) ∧
    crc_bit_steps 8 1 = 0x77073096 ∧
    (0x31 : Nat) < 256 ∧ crc_update 0xffffffff 0x31 = crc_bit_steps 8 (0xffffffff ^^^ 0x31) :=
  ⟨by decide, crc_table_bit_serial.1 1 (by decide), by decide, by decide,
   crc_table_bit_serial.2.1 0xffffffff 0x31 (by decide)⟩

/-! ## MDIO state machine: the bits on the pin -/

theorem and_shl_bit (x j : Nat) :
    (if x &&& (1 <<< j) ≠ 0 then 1 else 0) = bit_of x j := by
  unfold bit_of
  rw [Nat.one_shiftLeft]
  by_cases h : x.testBit j = true
  · have hne : x &&& 2 ^ j ≠ 0 := by
      intro h0
      have hb : (x &&& 2 ^ j).testBit j = true := by
        rw [Nat.testBit_and, h, Nat.testBit_two_pow_self]
        rfl
      rw [h0, Nat.zero_testBit] at hb
      cases hb
    rw [if_pos hne, if_pos h]
  · have h0 : x &&& 2 ^ j = 0 := by
      apply Nat.eq_of_testBit_eq
      intro i
      rw [Nat.testBit_and, Nat.testBit_two_pow, Nat.zero_testBit]
      by_cases hij : j = i
      · subst hij
        simp at h
        simp [h]
      · simp [hij]
    rw [h0, if_neg h]
    simp

theorem bit_of_u32 (x j : Nat) (hj : j < 32) : bit_of (u32 x) j = bit_of x j := by
  unfold bit_of u32
  rw [Nat.testBit_mod_two_pow]
  simp [hj]

theorem bit_of_ones (j : Nat) (hj : j < 32) : bit_of 4294967295 j = 1 := by
  unfold bit_of
  rw [show (4294967295 : Nat) = 2 ^ 32 - 1 from rfl, Nat.testBit_two_pow_sub_one]
  simp [hj]

theorem bit_of_zero (j : Nat) : bit_of 0 j = 0 := by
  simp [bit_of]

theorem bit_of_small :
    bit_of 1 0 = 1 ∧ bit_of 1 1 = 0 ∧ bit_of 2 0 = 0 ∧ bit_of 2 1 = 1 := by
  decide

/-- What the handler does to the pin on the edge it takes in the state
`md_at K k d`. -/
theorem md_at_out (K : MdState) (k : Nat) (d : List Bool) (p : Bool) :
    (netif_rmii_ethernet_mdc_falling (md_at K k d) p).2
      = { dir := (md_at K k d).md_pin_state,
          put :=
            if md_schedule k = .MD_DATA ∧ (md_at K k d).md_pin_state = .MD_READ then none
            else some (bit_of (md_at K k d).md_data (sub32 (md_remaining k) 1)) } := by
  unfold netif_rmii_ethernet_mdc_falling
  have hst : (md_at K k d).md_state = md_schedule k := rfl
  have hcl : (md_at K k d).md_clocks = md_remaining k := rfl
  rw [hst, hcl]
  by_cases h : md_schedule k = .MD_DATA ∧ (md_at K k d).md_pin_state = .MD_READ
  · rw [if_pos h, if_pos h]
  · rw [if_neg h, if_neg h]
    simp only [and_shl_bit]

set_option maxHeartbeats 1000000 in
theorem md_at_out_write (K : MdState) (hrw : K.md_rd_wr = .MD_WRITE) (k : Nat) (hk : k < 64)
    (d : List Bool) (p : Bool) :
    (netif_rmii_ethernet_mdc_falling (md_at K k d) p).2
      = { dir := .MD_WRITE,
          put := some (mdio_frame_bit .MD_WRITE K.md_phy_addr K.md_reg_addr K.md_wr_data k) } := by
  rw [md_at_out]
  interval_cases k <;>
    simp [md_at, md_schedule, md_remaining, mdio_frame_bit, hrw, sub32_pred, bit_of_ones,
      bit_of_zero, bit_of_small]

set_option maxHeartbeats 1000000 in
theorem md_at_out_read (K : MdState) (hrw : K.md_rd_wr = .MD_READ) (k : Nat) (hk : k < 64)
    (d : List Bool) (p : Bool) :
    (netif_rmii_ethernet_mdc_falling (md_at K k d) p).2
      = { dir := mdio_frame_dir .MD_READ k,
          put :=
            if k < 48 then
              some (mdio_frame_bit .MD_READ K.md_phy_addr K.md_reg_addr K.md_wr_data k)
            else none } := by
  rw [md_at_out]
  interval_cases k <;>
    simp [md_at, md_schedule, md_remaining, mdio_frame_bit, mdio_frame_dir, hrw, sub32_pred,
      bit_of_ones, bit_of_zero, bit_of_small]

/-- C23: for a transaction started on an idle machine with PHY address `a`,
register `r` and write data `d`, on each of the 64 edges of the frame the
handler sets the pin direction to `mdio_frame_dir` (input on the 2 turnaround
and 16 data edges of a read, output otherwise, and output again on the idle
edge that follows) and passes to `gpio_put` the bit `mdio_frame_bit`: 32
ones; 0,1; 1,0 for a read or 0,1 for a write; bits 4..0 of `a`; bits 4..0 of
`r`; for a write two turnaround bits (0,0) and bits 15..0 of `d`. On the 16
data edges of a read nothing is driven; on its two turnaround edges the
handler passes 0 to `gpio_put` while the pin is an input. -/
theorem md_transaction_bits (s : MdState) (a r d : Nat) (rd_wr : md_pin_states)
    (pins : List Bool) (hidle : s.md_sm_busy = 0) (hlen : pins.length = 65) :
    ∃ K, md_sm_start s a r d rd_wr 0 [] = some (0, K, []) ∧
      (∀ k, k < 64 → ∀ p,
        (netif_rmii_ethernet_mdc_falling (mdc_run K (pins.take k)) p).2.dir
          = mdio_frame_dir rd_wr k ∧
        (rd_wr = .MD_WRITE ∨ k < 48 →
          (netif_rmii_ethernet_mdc_falling (mdc_run K (pins.take k)) p).2.put
            = some (mdio_frame_bit rd_wr a r d k)) ∧
        (rd_wr = .MD_READ → 48 ≤ k →
          (netif_rmii_ethernet_mdc_falling (mdc_run K (pins.take k)) p).2.put = none)) ∧
      (∀ p, (netif_rmii_ethernet_mdc_falling (mdc_run K (pins.take 64)) p).2.dir
        = .MD_WRITE) ∧
      (List.range 64).map (mdio_frame_bit rd_wr a r d)
        = List.replicate 32 1 ++ [0, 1]
          ++ (if rd_wr = .MD_READ then [1, 0] else [0, 1])
          ++ [bit_of a 4, bit_of a 3, bit_of a 2, bit_of a 1, bit_of a 0]
          ++ [bit_of r 4, bit_of r 3, bit_of r 2, bit_of r 1, bit_of r 0]
          ++ [0, 0]
          ++ [bit_of d 15, bit_of d 14, bit_of d 13, bit_of d 12, bit_of d 11, bit_of d 10,
              bit_of d 9, bit_of d 8, bit_of d 7, bit_of d 6, bit_of d 5, bit_of d 4,
              bit_of d 3, bit_of d 2, bit_of d 1, bit_of d 0] ∧
      (List.range 65).map (mdio_frame_dir .MD_READ)
        = List.replicate 46 .MD_WRITE ++ List.replicate 18 .MD_READ ++ [.MD_WRITE] ∧
      (List.range 65).map (mdio_frame_dir .MD_WRITE) = List.replicate 65 .MD_WRITE := by
  have hK := md_kick_started s a r d rd_wr
  have hrw : (md_kick s a r d rd_wr).md_rd_wr = rd_wr := by simp [md_kick, md_sm]
  have hpa : (md_kick s a r d rd_wr).md_phy_addr = u32 a := by simp [md_kick, md_sm]
  have hra : (md_kick s a r d rd_wr).md_reg_addr = u32 r := by simp [md_kick, md_sm]
  have hwd : (md_kick s a r d rd_wr).md_wr_data = u32 d := by simp [md_kick, md_sm]
  have hat : ∀ k, k ≤ 64 → mdc_run (md_kick s a r d rd_wr) (pins.take k)
      = md_at (md_kick s a r d rd_wr) k ((pins.take k).drop 48) := by
    intro k hk
    have hl : (pins.take k).length = k := by rw [List.length_take]; omega
    rw [mdc_run_md_at _ hK _ (by omega), hl]
  have hbit : ∀ k, k < 64 →
      mdio_frame_bit rd_wr (u32 a) (u32 r) (u32 d) k = mdio_frame_bit rd_wr a r d k := by
    intro k hk
    unfold mdio_frame_bit
    split_ifs <;> first | rfl | exact bit_of_u32 _ _ (by omega)
  refine ⟨_, md_sm_start_idle s a r d rd_wr [] (by omega), ?_, ?_, ?_, ?_, ?_⟩
  · intro k hk p
    rw [hat k (by omega)]
    cases rd_wr with
    | MD_READ =>
      rw [md_at_out_read _ hrw k hk, hpa, hra, hwd, hbit k hk]
      refine ⟨rfl, ?_, ?_⟩
      · intro h
        have hk48 : k < 48 := by
          rcases h with h | h
          · cases h
          · exact h
        show (if k < 48 then _ else _) = _
        rw [if_pos hk48]
      · intro _ h48
        show (if k < 48 then _ else _) = _
        rw [if_neg (by omega)]
    | MD_WRITE =>
      rw [md_at_out_write _ hrw k hk, hpa, hra, hwd, hbit k hk]
      refine ⟨?_, fun _ => rfl, ?_⟩
      · show md_pin_states.MD_WRITE = mdio_frame_dir .MD_WRITE k
        unfold mdio_frame_dir
        rw [if_neg (fun h => by cases h.1)]
      · intro h
        cases h
  · intro p
    rw [hat 64 (by omega), md_at_out]
    rfl
  · cases rd_wr <;> rfl
  · decide
  · decide

set_option maxRecDepth 100000 in
/-- Witness for C23: a write of `0xabcd` to register 1 of the PHY at address
3, started on the start-up state; the frame driven is the 64 bits below. -/
theorem md_transaction_bits_witness :
    md_init.md_sm_busy = 0 ∧ (List.replicate 65 true).length = 65 ∧
    (∃ K, md_sm_start md_init 3 1 0xabcd .MD_WRITE 0 [] = some (0, K, []) ∧
      ∀ k, k < 64 → ∀ p,
        (netif_rmii_ethernet_mdc_falling (mdc_run K ((List.replicate 65 true).take k)) p).2
          = { dir := .MD_WRITE, put := some (mdio_frame_bit .MD_WRITE 3 1 0xabcd k) }) ∧
    (List.range 64).map (mdio_frame_bit .MD_WRITE 3 1 0xabcd)
      = List.replicate 32 1 ++ [0, 1] ++ [0, 1] ++ [0, 0, 0, 1, 1] ++ [0, 0, 0, 0, 1]
        ++ [0, 0] ++ [1, 0, 1, 0, 1, 0, 1, 1, 1, 1, 0, 0, 1, 1, 0, 1] :=
  ⟨rfl, by decide,
   (md_transaction_bits md_init 3 1 0xabcd .MD_WRITE (List.replicate 65 true) rfl
      (by decide)).imp
     (fun _ h => ⟨h.1, fun k hk p => by
       have hh := h.2.1 k hk p
       have hd := hh.1
       have hp := hh.2.1 (Or.inl rfl)
       have hdir : mdio_frame_dir .MD_WRITE k = .MD_WRITE := by
         unfold mdio_frame_dir
         rw [if_neg (fun h => by cases h.1)]
       rw [hdir] at hd
       cases hx : (netif_rmii_ethernet_mdc_falling _ p).2 with
       | mk dir put =>
         rw [hx] at hd hp
         simp only at hd hp
         rw [hd, hp]⟩),
   by decide⟩

/-! ## MDIO state machine: the clock counter stays in range -/

theorem md_sm_clocks (s : MdState) : 1 ≤ (md_sm s).md_clocks ∧ (md_sm s).md_clocks ≤ 32 := by
  unfold md_sm
  cases h : s.md_state <;> simp

theorem md_last_clock_clocks (s : MdState) :
    1 ≤ (md_last_clock s).md_clocks ∧ (md_last_clock s).md_clocks ≤ 32 := by
  unfold md_last_clock
  exact md_sm_clocks _

theorem mdc_next_cases (s : MdState) (pin : Bool) :
    ∃ s1 : MdState, s1.md_clocks = s.md_clocks ∧
      mdc_next s pin
        = if sub32 s1.md_clocks 1 = 0 then
            md_last_clock { s1 with md_clocks := sub32 s1.md_clocks 1 }
          else { s1 with md_clocks := sub32 s1.md_clocks 1 } := by
  refine ⟨if s.md_state = .MD_DATA ∧ s.md_pin_state = .MD_READ then
      { s with md_rd_data := u16 ((s.md_rd_data <<< 1) ||| (if pin then 1 else 0)) }
    else s, ?_, rfl⟩
  by_cases hc : s.md_state = .MD_DATA ∧ s.md_pin_state = .MD_READ
  · rw [if_pos hc]
  · rw [if_neg hc]

theorem mdc_next_clocks (s : MdState) (pin : Bool)
    (h : 1 ≤ s.md_clocks ∧ s.md_clocks ≤ 32) :
    1 ≤ (mdc_next s pin).md_clocks ∧ (mdc_next s pin).md_clocks ≤ 32 := by
  obtain ⟨s1, h1, heq⟩ := mdc_next_cases s pin
  have hs : sub32 s1.md_clocks 1 = s1.md_clocks - 1 :=
    sub32_pred s1.md_clocks (by omega) (by omega)
  rw [heq]
  by_cases h0 : sub32 s1.md_clocks 1 = 0
  · rw [if_pos h0]
    exact md_last_clock_clocks _
  · rw [if_neg h0]
    show 1 ≤ sub32 s1.md_clocks 1 ∧ sub32 s1.md_clocks 1 ≤ 32
    omega

theorem mdc_edge_clocks (s : MdState) (pin : Bool)
    (h : 1 ≤ s.md_clocks ∧ s.md_clocks ≤ 32) :
    1 ≤ (mdc_edge s pin).md_clocks ∧ (mdc_edge s pin).md_clocks ≤ 32 := by
  rw [mdc_edge_eq]
  by_cases hi : s.irq_enabled = true
  · rw [if_pos hi]
    exact mdc_next_clocks s pin h
  · rw [if_neg hi]
    exact h

theorem mdc_run_clocks (pins : List Bool) : ∀ s : MdState,
    (1 ≤ s.md_clocks ∧ s.md_clocks ≤ 32) →
    1 ≤ (mdc_run s pins).md_clocks ∧ (mdc_run s pins).md_clocks ≤ 32 := by
  induction pins with
  | nil => intro s h; exact h
  | cons p ps ih =>
    intro s h
    exact ih (mdc_edge s p) (mdc_edge_clocks s p h)

theorem md_kick_clocks (s : MdState) (addr reg val : Nat) (rd_wr : md_pin_states) :
    1 ≤ (md_kick s addr reg val rd_wr).md_clocks ∧
      (md_kick s addr reg val rd_wr).md_clocks ≤ 32 := by
  unfold md_kick
  exact md_sm_clocks _

/-- The spin loop only lets edges pass. -/
theorem md_wait_is_run : ∀ (pins : List Bool) (s s1 : MdState) (rest : List Bool),
    md_wait s pins = some (s1, rest) → ∃ used, s1 = mdc_run s used := by
  intro pins
  induction pins with
  | nil =>
    intro s s1 rest h
    unfold md_wait at h
    by_cases hb : s.md_sm_busy = 1
    · rw [if_pos hb] at h
      cases h
    · rw [if_neg hb] at h
      exact ⟨[], by cases h; rfl⟩
  | cons p ps ih =>
    intro s s1 rest h
    unfold md_wait at h
    by_cases hb : s.md_sm_busy = 1
    · rw [if_pos hb] at h
      obtain ⟨used, hu⟩ := ih _ _ _ h
      exact ⟨p :: used, hu⟩
    · rw [if_neg hb] at h
      exact ⟨[], by cases h; rfl⟩

/-- A call of `md_sm_start` that returns 0 leaves the clock counter in
1..32, blocking or not. -/
theorem md_sm_start_clocks (s : MdState) (addr reg val : Nat) (rd_wr : md_pin_states)
    (blk : Nat) (pins : List Bool) (K : MdState) (rest : List Bool)
    (h : md_sm_start s addr reg val rd_wr blk pins = some (0, K, rest)) :
    1 ≤ K.md_clocks ∧ K.md_clocks ≤ 32 := by
  unfold md_sm_start at h
  by_cases hb : s.md_sm_busy = 1 ∧ blk = 0
  · rw [if_pos hb] at h
    simp at h
  · rw [if_neg hb] at h
    cases hw : md_wait s pins with
    | none => rw [hw] at h; cases h
    | some r =>
      obtain ⟨s1, p1⟩ := r
      rw [hw] at h
      simp only at h
      by_cases hblk : blk ≠ 0
      · rw [if_pos hblk] at h
        cases hw2 : md_wait (md_kick s1 addr reg val rd_wr) p1 with
        | none => rw [hw2] at h; cases h
        | some r2 =>
          obtain ⟨s2, p2⟩ := r2
          rw [hw2] at h
          obtain ⟨used, hu⟩ := md_wait_is_run _ _ _ _ hw2
          have hK : K = s2 := by
            simp at h
            exact h.1.symm
          rw [hK, hu]
          exact mdc_run_clocks used _ (md_kick_clocks s1 addr reg val rd_wr)
      · rw [if_neg hblk] at h
        have hK : K = md_kick s1 addr reg val rd_wr := by
          simp at h
          exact h.1.symm
        rw [hK]
        exact md_kick_clocks s1 addr reg val rd_wr

theorem md_step_clocks (s : MdState) (act : md_action)
    (h : 1 ≤ s.md_clocks ∧ s.md_clocks ≤ 32) :
    1 ≤ (md_step s act).md_clocks ∧ (md_step s act).md_clocks ≤ 32 := by
  cases act with
  | edge pin => exact mdc_edge_clocks s pin h
  | start addr reg val rd_wr =>
    have hstep : md_step s (md_action.start addr reg val rd_wr)
        = (match md_sm_start s addr reg val rd_wr 0 [] with
          | some r => r.2.1
          | none => s) := rfl
    rw [hstep]
    by_cases hb : s.md_sm_busy = 1
    · have : md_sm_start s addr reg val rd_wr 0 [] = some (-1, s, []) := by
        unfold md_sm_start
        rw [if_pos ⟨hb, rfl⟩]
      rw [this]
      exact h
    · rw [md_sm_start_idle s addr reg val rd_wr [] hb]
      exact md_kick_clocks s addr reg val rd_wr

theorem md_script_clocks (acts : List md_action) : ∀ s : MdState,
    (1 ≤ s.md_clocks ∧ s.md_clocks ≤ 32) →
    1 ≤ (md_script s acts).md_clocks ∧ (md_script s acts).md_clocks ≤ 32 := by
  induction acts with
  | nil => intro s h; exact h
  | cons a as ih =>
    intro s h
    exact ih (md_step s a) (md_step_clocks s a h)

/-- C25: in every state reached from a call of `md_sm_start` that started a
transaction (returned 0, blocking or not) by any sequence of falling-edge
handler steps and further calls of `md_sm_start`, the clock counter
satisfies `1 ≤ md_clocks ≤ 32`; so the decrement `md_clocks - 1` computed on
32 bits is the true difference (no wrap below zero), the shift amount lies
in 0..31, and the handler leaves the counter in the same range. -/
theorem md_clocks_in_range (s : MdState) (addr reg val : Nat) (rd_wr : md_pin_states)
    (blk : Nat) (pins : List Bool) (K : MdState) (rest : List Bool)
    (hstart : md_sm_start s addr reg val rd_wr blk pins = some (0, K, rest))
    (acts : List md_action) (p : Bool) :
    1 ≤ (md_script K acts).md_clocks ∧ (md_script K acts).md_clocks ≤ 32 ∧
    sub32 (md_script K acts).md_clocks 1 = (md_script K acts).md_clocks - 1 ∧
    sub32 (md_script K acts).md_clocks 1 ≤ 31 ∧
    1 ≤ (netif_rmii_ethernet_mdc_falling (md_script K acts) p).1.md_clocks ∧
    (netif_rmii_ethernet_mdc_falling (md_script K acts) p).1.md_clocks ≤ 32 := by
  have hK := md_sm_start_clocks s addr reg val rd_wr blk pins K rest hstart
  have h := md_script_clocks acts K hK
  have hsub := sub32_pred (md_script K acts).md_clocks (by omega) (by omega)
  have hnext := mdc_next_clocks (md_script K acts) p h
  rw [mdc_falling_fst]
  refine ⟨h.1, h.2, hsub, ?_, hnext.1, hnext.2⟩
  rw [hsub]
  omega

set_option maxRecDepth 100000 in
/-- Witness for C25: a write started on the start-up state, followed by 64
edges, a read started as soon as the busy flag is clear, and 3 more edges. -/
theorem md_clocks_in_range_witness :
    md_sm_start md_init 3 1 0xabcd .MD_WRITE 0 []
      = some (0, md_kick md_init 3 1 0xabcd .MD_WRITE, []) ∧
    (md_script (md_kick md_init 3 1 0xabcd .MD_WRITE)
      ((List.replicate 64 (md_action.edge true)) ++ [md_action.start 3 2 0 .MD_READ]
        ++ List.replicate 3 (md_action.edge false))).md_clocks = 29 ∧
    1 ≤ (md_script (md_kick md_init 3 1 0xabcd .MD_WRITE)
      ((List.replicate 64 (md_action.edge true)) ++ [md_action.start 3 2 0 .MD_READ]
        ++ List.replicate 3 (md_action.edge false))).md_clocks :=
  ⟨by decide, by decide,
   (md_clocks_in_range md_init 3 1 0xabcd .MD_WRITE 0 [] _ [] (by decide)
     ((List.replicate 64 (md_action.edge true)) ++ [md_action.start 3 2 0 .MD_READ]
        ++ List.replicate 3 (md_action.edge false)) true).1⟩

/-! ## Transmit side: starting the command chain -/

theorem tx_enqueue_chain_trig (s : TxState) (p : pbuf) (busy : BusySamples) :
    (tx_enqueue s p busy).chain_trig
      = if tx_last_busy_sample busy then s.chain_trig
        else s.chain_trig ++ [s.tx_curr_pkt_ptr] := by
  obtain ⟨b, a, r, l⟩ := busy
  cases b <;> cases a <;> cases r <;> cases l <;> simp [tx_enqueue, tx_last_busy_sample]

theorem tx_enqueue_cmd (s : TxState) (p : pbuf) (busy : BusySamples) :
    (tx_enqueue s p busy).tx_pkt_ptr s.tx_curr_pkt_ptr
      = (ethernet_frame_copy_ring_pbuf s.tx_ring p s.tx_addr).2 := by
  show Function.update (Function.update s.tx_pkt_ptr
    ((s.tx_curr_pkt_ptr + 1) &&& TX_NUM_MASK) 0) s.tx_curr_pkt_ptr _ s.tx_curr_pkt_ptr = _
  rw [Function.update_same]

/-- C22: a send that finds room returns, and with the busy flag of the
transmit DMA as sampled inputs: when the flag is idle on the samples before
and after the store of the new command, the command-chain DMA is triggered
exactly once, with the read address of the slot `tx_curr_pkt_ptr` (at entry)
in which the new command, the formatted length, was stored; when the last
sample taken after the store shows busy, the chain is not triggered; in every
case the send adds at most one trigger (and exactly that one when the last
sample shows idle). -/
theorem output_chain_trigger (s : TxState) (p : pbuf) (read_addrs : List Nat)
    (busy : BusySamples)
    (hroom : tx_wait_for_space (tx_plen p) s.tx_addr read_addrs = true) :
    ∃ s', netif_rmii_ethernet_output s p read_addrs busy = some s' ∧
      s'.tx_pkt_ptr s.tx_curr_pkt_ptr
        = (ethernet_frame_copy_ring_pbuf s.tx_ring p s.tx_addr).2 ∧
      (busy.before_stat = false → busy.after_stat = false →
        s'.chain_trig = s.chain_trig ++ [s.tx_curr_pkt_ptr]) ∧
      (tx_last_busy_sample busy = true → s'.chain_trig = s.chain_trig) ∧
      (tx_last_busy_sample busy = false →
        s'.chain_trig = s.chain_trig ++ [s.tx_curr_pkt_ptr]) ∧
      (s'.chain_trig = s.chain_trig ∨ s'.chain_trig = s.chain_trig ++ [s.tx_curr_pkt_ptr]) ∧
      s'.chain_trig.length ≤ s.chain_trig.length + 1 := by
  have ht := tx_enqueue_chain_trig s p busy
  refine ⟨tx_enqueue s p busy, output_of_space s p read_addrs busy hroom,
    tx_enqueue_cmd s p busy, ?_, ?_, ?_, ?_, ?_⟩
  · intro hb ha
    have hl : tx_last_busy_sample busy = false := by
      unfold tx_last_busy_sample
      rw [hb, ha]
      rfl
    rw [ht, hl]
    rfl
  · intro hl
    rw [ht, hl]
    rfl
  · intro hl
    rw [ht, hl]
    rfl
  · rw [ht]
    cases tx_last_busy_sample busy
    · exact Or.inr rfl
    · exact Or.inl rfl
  · rw [ht]
    cases tx_last_busy_sample busy
    · simp
    · simp

/-- Witness for C22: the first send after initialisation, with the DMA idle
on both samples, triggers the chain once, at slot 0, which holds the command
66. -/
theorem output_chain_trigger_witness :
    tx_wait_for_space (tx_plen [[1, 2], [3]])
      (tx_init (fun _ => 0) (fun _ => 7)).tx_addr [0] = true ∧
    ∃ s', netif_rmii_ethernet_output (tx_init (fun _ => 0) (fun _ => 7)) [[1, 2], [3]] [0]
        { before_stat := false, after_stat := false, resample := false, last_check := false }
          = some s' ∧
      s'.chain_trig = [0] :=
  ⟨by decide,
   (output_chain_trigger (tx_init (fun _ => 0) (fun _ => 7)) [[1, 2], [3]] [0]
      { before_stat := false, after_stat := false, resample := false, last_check := false }
      (by decide)).imp (fun _ h => ⟨h.1, h.2.2.1 rfl rfl⟩)⟩

/-! ## Receive side: the cursors across a drain -/

theorem eof_isr_cursors (s : RxState) (wr : Nat) (hc : s.rx_curr_pkt_ptr < 64) :
    (netif_rmii_ethernet_eof_isr s wr).rx_prev_pkt_ptr = s.rx_prev_pkt_ptr ∧
    (netif_rmii_ethernet_eof_isr s wr).rx_curr_pkt_ptr < 64 := by
  by_cases h : rx_len_ok (rx_packet_byte_count s.rx_addr (u32 wr)) = true
  · rw [eof_isr_accept s wr h]
    exact ⟨rfl, Nat.mod_lt _ (by decide)⟩
  · rw [eof_isr_reject s wr h]
    exact ⟨rfl, hc⟩

theorem eof_isr_run_cursors (wrs : List Nat) : ∀ s : RxState, s.rx_curr_pkt_ptr < 64 →
    (eof_isr_run s wrs).rx_prev_pkt_ptr = s.rx_prev_pkt_ptr ∧
    (eof_isr_run s wrs).rx_curr_pkt_ptr < 64 := by
  induction wrs with
  | nil => intro s hc; exact ⟨rfl, hc⟩
  | cons wr wrs ih =>
    intro s hc
    obtain ⟨h1, h2⟩ := eof_isr_cursors s wr hc
    obtain ⟨h3, h4⟩ := ih (netif_rmii_ethernet_eof_isr s wr) h2
    exact ⟨by rw [← h1, ← h3]; rfl, h4⟩

/-- With interrupts arriving, the loop still leaves the consumer cursor
`count` further on (modulo 64), and the producer cursor below 64. -/
theorem poll_drain_loop_isr_spec {W : Type} (process : W → pkt_ptr_t → W) (count : Nat) :
    ∀ (s : RxState) (w : W) (irqs : List (List Nat)),
      s.rx_prev_pkt_ptr < 64 → s.rx_curr_pkt_ptr < 64 →
      (poll_drain_loop_isr process count s w irqs).1.rx_prev_pkt_ptr
        = (s.rx_prev_pkt_ptr + count) % 64 ∧
      (poll_drain_loop_isr process count s w irqs).1.rx_curr_pkt_ptr < 64 := by
  induction count with
  | zero =>
    intro s w irqs hp hc
    exact ⟨(Nat.mod_eq_of_lt hp).symm, hc⟩
  | succ n ih =>
    intro s w irqs hp hc
    obtain ⟨h1, h2⟩ := eof_isr_run_cursors (irqs.headD []) s hc
    rw [poll_drain_loop_isr]
    have h := ih
      { eof_isr_run s (irqs.headD []) with
        rx_prev_pkt_ptr := ((eof_isr_run s (irqs.headD [])).rx_prev_pkt_ptr + 1) &&& RX_NUM_MASK }
      (process w ((eof_isr_run s (irqs.headD [])).rx_pkt_ptr
        (eof_isr_run s (irqs.headD [])).rx_prev_pkt_ptr)) irqs.tail
      (by show _ &&& RX_NUM_MASK < 64; rw [and_rx_num_mask]; exact Nat.mod_lt _ (by decide))
      h2
    refine ⟨?_, h.2⟩
    rw [h.1]
    show ((((eof_isr_run s (irqs.headD [])).rx_prev_pkt_ptr + 1) &&& RX_NUM_MASK) + n) % 64 = _
    rw [and_rx_num_mask, h1]
    omega

/-- C21: a drain of `netif_rmii_ethernet_poll` that starts with both cursors
in `[0, 64)` takes one snapshot of the producer cursor `rx_curr_pkt_ptr`,
computes from it the number of pending descriptors `(snapshot - consumer) mod
64`, advances the consumer cursor `rx_prev_pkt_ptr` by one modulo 64 in each
round, handing the pending descriptors to the loop body in ring order, and
ends with the consumer cursor equal to the snapshot and both cursors in
`[0, 64)`. This holds for every loop body, hence for every outcome of CRC
verification and delivery (in particular for the body of the source, for
every allocator, arena and input entry point), and also when end-of-frame
interrupts move the producer cursor while the loop runs. -/
theorem poll_cursor_invariant {W : Type} (process : W → pkt_ptr_t → W) (s : RxState) (w : W)
    (irqs : List (List Nat))
    (hc : s.rx_curr_pkt_ptr < RX_NUM_PTR) (hp : s.rx_prev_pkt_ptr < RX_NUM_PTR) :
    (netif_rmii_ethernet_poll_drain process s w).1.rx_prev_pkt_ptr = s.rx_curr_pkt_ptr ∧
    (netif_rmii_ethernet_poll_drain process s w).1.rx_curr_pkt_ptr = s.rx_curr_pkt_ptr ∧
    (netif_rmii_ethernet_poll_drain process s w).1.rx_prev_pkt_ptr < RX_NUM_PTR ∧
    rx_packet_count s.rx_curr_pkt_ptr s.rx_prev_pkt_ptr
      = (s.rx_curr_pkt_ptr + RX_NUM_PTR - s.rx_prev_pkt_ptr) % RX_NUM_PTR ∧
    (∀ k, (poll_drain_loop process s.rx_pkt_ptr k s.rx_prev_pkt_ptr w).1
        = (s.rx_prev_pkt_ptr + k) % RX_NUM_PTR) ∧
    (∀ k, (poll_drain_loop process s.rx_pkt_ptr (k + 1) s.rx_prev_pkt_ptr w).1
        = ((poll_drain_loop process s.rx_pkt_ptr k s.rx_prev_pkt_ptr w).1 + 1) % RX_NUM_PTR) ∧
    (netif_rmii_ethernet_poll_drain process s w).2
      = ((List.range (rx_packet_count s.rx_curr_pkt_ptr s.rx_prev_pkt_ptr)).map
          (fun i => s.rx_pkt_ptr ((s.rx_prev_pkt_ptr + i) % RX_NUM_PTR))).foldl process w ∧
    (netif_rmii_ethernet_poll_drain_isr process s w irqs).1.rx_prev_pkt_ptr
      = s.rx_curr_pkt_ptr ∧
    (netif_rmii_ethernet_poll_drain_isr process s w irqs).1.rx_curr_pkt_ptr < RX_NUM_PTR ∧
    (∀ (rx_ring : Nat → Nat) (pbuf_alloc : Nat → Option (List Nat)) (input_ok : Nat → Bool),
      (netif_rmii_ethernet_poll_rx rx_ring pbuf_alloc input_ok s).1.rx_prev_pkt_ptr
        = s.rx_curr_pkt_ptr ∧
      (netif_rmii_ethernet_poll_rx rx_ring pbuf_alloc input_ok s).1.rx_curr_pkt_ptr
        = s.rx_curr_pkt_ptr) := by
  have h64 : RX_NUM_PTR = 64 := rfl
  rw [h64] at hc hp ⊢
  have hcnt := rx_packet_count_eq hc hp
  have hend : (s.rx_prev_pkt_ptr + rx_packet_count s.rx_curr_pkt_ptr s.rx_prev_pkt_ptr) % 64
      = s.rx_curr_pkt_ptr := by
    rw [hcnt]
    omega
  have hdrain : ∀ {V : Type} (f : V → pkt_ptr_t → V) (v : V),
      (netif_rmii_ethernet_poll_drain f s v).1.rx_prev_pkt_ptr = s.rx_curr_pkt_ptr := by
    intro V f v
    show (poll_drain_loop f s.rx_pkt_ptr
      (rx_packet_count s.rx_curr_pkt_ptr s.rx_prev_pkt_ptr) s.rx_prev_pkt_ptr v).1 = _
    rw [poll_drain_loop_spec f s.rx_pkt_ptr _ _ _ hp]
    exact hend
  have hloop : ∀ k, (poll_drain_loop process s.rx_pkt_ptr k s.rx_prev_pkt_ptr w).1
      = (s.rx_prev_pkt_ptr + k) % 64 := by
    intro k
    rw [poll_drain_loop_spec process s.rx_pkt_ptr k _ _ hp]
  have hisr := poll_drain_loop_isr_spec process
    (rx_packet_count s.rx_curr_pkt_ptr s.rx_prev_pkt_ptr) s w irqs hp hc
  refine ⟨hdrain process w, rfl, by rw [hdrain process w]; exact hc, hcnt, hloop, ?_, ?_, ?_,
    hisr.2, ?_⟩
  · intro k
    rw [hloop, hloop]
    omega
  · show (poll_drain_loop process s.rx_pkt_ptr
      (rx_packet_count s.rx_curr_pkt_ptr s.rx_prev_pkt_ptr) s.rx_prev_pkt_ptr w).2 = _
    rw [poll_drain_loop_spec process s.rx_pkt_ptr _ _ _ hp]
  · show (poll_drain_loop_isr process
      (rx_packet_count s.rx_curr_pkt_ptr s.rx_prev_pkt_ptr) s w irqs).1.rx_prev_pkt_ptr = _
    rw [hisr.1]
    exact hend
  · intro rx_ring pbuf_alloc input_ok
    exact ⟨hdrain _ _, rfl⟩

set_option maxRecDepth 100000 in
/-- Witness for C21: three frames received from the start-up state, then a
drain during which a fourth frame arrives; the consumer cursor ends at the
snapshot 3 while the producer cursor has moved on to 4. -/
theorem poll_cursor_invariant_witness :
    (eof_isr_run rx_init [64, 128, 192]).rx_curr_pkt_ptr < RX_NUM_PTR ∧
    (eof_isr_run rx_init [64, 128, 192]).rx_prev_pkt_ptr < RX_NUM_PTR ∧
    (eof_isr_run rx_init [64, 128, 192]).rx_curr_pkt_ptr = 3 ∧
    (netif_rmii_ethernet_poll_drain_isr (fun (acc : List pkt_ptr_t) d => acc ++ [d])
      (eof_isr_run rx_init [64, 128, 192]) [] [[], [256]]).1.rx_prev_pkt_ptr
      = (eof_isr_run rx_init [64, 128, 192]).rx_curr_pkt_ptr ∧
    (netif_rmii_ethernet_poll_drain_isr (fun (acc : List pkt_ptr_t) d => acc ++ [d])
      (eof_isr_run rx_init [64, 128, 192]) [] [[], [256]]).1.rx_curr_pkt_ptr = 4 :=
  ⟨by decide, by decide, by decide,
   (poll_cursor_invariant (fun (acc : List pkt_ptr_t) d => acc ++ [d])
      (eof_isr_run rx_init [64, 128, 192]) [] [[], [256]] (by decide) (by decide)).2.2.2.2.2.2.2.1,
   by decide⟩

end RmiiEthernet
